import Mathlib

/-!
# Verification of the mind-map document core (`src/script.js`)

Shallow embedding of the document model of the mind-map editor:
the node map, the tree-store mutation primitives, the outline codec
(export/import), the history manager, the layout engine and the
selection/navigation controller, together with proofs and refutations
of the specification claims.

Conventions of the embedding:
* JS node ids are strings (`'root'` or `node_${Date.now()}_${Math.random()}`);
  we model them as `Nat` with `0` reserved for the root and a counter
  `nextId` supplying fresh ids (the JS generator is fresh by construction).
* JS numbers are modelled as `ℚ` (all arithmetic performed by the code on
  positions is exact on dyadic rationals).
* JS strings are Lean `String`s; character-level operations are carried
  out on `String.data : List Char`.
* The unbounded JS recursions (`getAllDescendantIds`,
  `buildMarkdownRecursive`, `_calculateLayoutPositions`,
  `isAnyAncestorCollapsed`) are modelled with an explicit fuel argument;
  every call site passes a fuel that dominates the recursion depth of any
  well-formed document (`nodes.length`), matching the JS behaviour on all
  acyclic documents.
* Places where the JS code would throw on a malformed document
  (a dangling id looked up with `this.nodes[id].…`) are totalised with a
  neutral default; they are commented at each spot.
-/

/-- `ROOT_NODE_ID` — the reserved root id (`'root'` in the source). -/
def ROOT_NODE_ID : Nat := 0

/-- A node of the document tree (the fields of the JS node object, minus the
DOM `element` which is rendering-only). -/
structure MNode where
  id : Nat
  text : String
  parentId : Option Nat
  childrenIds : List Nat
  position : ℚ × ℚ
  isCollapsed : Bool
  style : String
deriving DecidableEq, Repr

/-- A history snapshot: the serializable state
`{nodes, selectedNodeIds, connectorStyle, layoutMode}` captured by
`getSerializableState`. -/
structure Snap where
  nodes : List MNode
  selectedNodeIds : List Nat
  connectorStyle : String
  layoutMode : String
deriving DecidableEq, Repr

/-- The live `MindMap` state: the node map (`this.nodes`, kept in key
insertion order), selection, connector/layout settings, the two history
stacks (top of stack at the head), the keyboard-navigation memory and the
fresh-id counter.  `winCenter` models `window.innerWidth/2, innerHeight/2`,
the only environment input used by `createRootNode`. -/
structure MM where
  nodes : List MNode
  selectedNodeIds : List Nat
  connectorStyle : String
  layoutMode : String
  undoStack : List Snap
  redoStack : List Snap
  navState : Option (Nat × String)
  nextId : Nat
  winCenter : ℚ × ℚ
deriving DecidableEq, Repr

/-- Lookup in the node map (`this.nodes[id]`): first node with the id. -/
def getN : List MNode → Nat → Option MNode
  | [], _ => none
  | n :: ns, i => if n.id = i then some n else getN ns i

/-- In-place update of the entry with key `i` (JS mutation of
`this.nodes[i]`), preserving insertion order. -/
def updNode (ns : List MNode) (i : Nat) (f : MNode → MNode) : List MNode :=
  ns.map (fun n => if n.id = i then f n else n)

/-- JS `this.nodes[id] = {...}`: overwrite the entry when the key exists,
otherwise append it (insertion order of object keys). -/
def insertNode (ns : List MNode) (n : MNode) : List MNode :=
  if (getN ns n.id).isSome then ns.map (fun o => if o.id = n.id then n else o)
  else ns ++ [n]

/-- Both-ends whitespace trim on character lists (JS `String.prototype.trim`). -/
def trimC (cs : List Char) : List Char :=
  ((cs.dropWhile Char.isWhitespace).reverse.dropWhile Char.isWhitespace).reverse

/-- `getAllDescendantIds(nodeId)` (script.js:1735): descendants through
uncollapsed children only — a missing node, a childless node or a
**collapsed** node contributes nothing. -/
def getAllDescendantIds (fuel : Nat) (ns : List MNode) (i : Nat) : List Nat :=
  match fuel with
  | 0 => []
  | fuel + 1 =>
    match getN ns i with
    | none => []
    | some n =>
      if n.childrenIds.isEmpty ∨ n.isCollapsed then []
      else n.childrenIds.flatMap (fun c => c :: getAllDescendantIds fuel ns c)

/-- The `while (currentId)` ancestor walk of `isAnyAncestorCollapsed`.
A dangling parent id (which would throw in JS) terminates the walk. -/
def ancCollapsedLoop (fuel : Nat) (ns : List MNode) : Option Nat → Bool
  | none => false
  | some cid =>
    match fuel with
    | 0 => false
    | fuel + 1 =>
      match getN ns cid with
      | none => false
      | some cn => if cn.isCollapsed then true else ancCollapsedLoop fuel ns cn.parentId

/-- `isAnyAncestorCollapsed(nodeId)` (script.js:1741). -/
def isAnyAncestorCollapsed (ns : List MNode) (i : Nat) : Bool :=
  ancCollapsedLoop ns.length ns ((getN ns i).bind (fun n => n.parentId))

/-- `getActiveNodeId()`: last element of the selection. -/
def getActiveNodeId (m : MM) : Option Nat :=
  m.selectedNodeIds.getLast?

/-- `clearSelection()`: empties the selection and resets the navigation
memory. -/
def clearSelection (m : MM) : MM :=
  { m with selectedNodeIds := [], navState := none }

/-- `clearCanvas()`: empties the node map and the selection. -/
def clearCanvas (m : MM) : MM :=
  { m with nodes := [], selectedNodeIds := [] }

/-- `selectNode(nodeId, multiSelect)` (script.js:1206).  Bails out when the
target sits under a collapsed ancestor; single-select replaces the
selection, multi-select toggles membership. -/
def selectNode (m : MM) (nodeId : Option Nat) (multiSelect : Bool) : MM :=
  if (match nodeId with
      | some i => isAnyAncestorCollapsed m.nodes i
      | none => false) then m
  else if !multiSelect then
    { m with
      selectedNodeIds := (match nodeId with | some i => [i] | none => []),
      navState := none }
  else
    match nodeId with
    | some i =>
      if i ∈ m.selectedNodeIds then
        { m with selectedNodeIds := m.selectedNodeIds.filter (fun j => j ≠ i) }
      else
        { m with selectedNodeIds := m.selectedNodeIds ++ [i] }
    | none => m

/-- `selectAllNodes()`: selects every node that has no collapsed ancestor. -/
def selectAllNodes (m : MM) : MM :=
  { m with
    selectedNodeIds :=
      (m.nodes.map (fun n => n.id)).filter (fun i => !isAnyAncestorCollapsed m.nodes i),
    navState := none }

/-- `getSerializableState()` (script.js:173): a structurally independent
copy of `{nodes, selectedNodeIds, connectorStyle, layoutMode}`, with
`style: node.style || 'rect'` normalising a falsy style. -/
def getSerializableState (m : MM) : Snap :=
  { nodes := m.nodes.map (fun n => { n with style := if n.style = "" then "rect" else n.style }),
    selectedNodeIds := m.selectedNodeIds,
    connectorStyle := m.connectorStyle,
    layoutMode := m.layoutMode }

/-- `pushHistoryState(stateBeforeAction)`: push onto the undo stack and
clear the redo stack. -/
def pushHistoryState (m : MM) (stateBeforeAction : Snap) : MM :=
  { m with undoStack := stateBeforeAction :: m.undoStack, redoStack := [] }

/-- `loadFromState(state)` (script.js:201): replace the live document with a
snapshot; falsy connector/layout fields fall back to the defaults and the
restored selection keeps only ids that exist in the restored node map. -/
def loadFromState (m : MM) (state : Option Snap) : MM :=
  match state with
  | none => m
  | some s =>
    let m1 := clearCanvas m
    let m2 := { m1 with
      nodes := s.nodes,
      connectorStyle := if s.connectorStyle = "" then "straight" else s.connectorStyle,
      layoutMode := if s.layoutMode = "" then "bidirectional" else s.layoutMode }
    { m2 with
      selectedNodeIds := s.selectedNodeIds.filter (fun i => (getN s.nodes i).isSome),
      navState := none }

/-- `undo()` (script.js:237): no-op on an empty stack, otherwise pop a
snapshot, push the current live state onto the redo stack and restore the
popped snapshot. -/
def undo (m : MM) : MM :=
  match m.undoStack with
  | [] => m
  | stateToRestore :: rest =>
    let currentState := getSerializableState m
    loadFromState
      { m with undoStack := rest, redoStack := currentState :: m.redoStack }
      (some stateToRestore)

/-- `redo()` (script.js:249), symmetric to `undo`. -/
def redo (m : MM) : MM :=
  match m.redoStack with
  | [] => m
  | stateToRestore :: rest =>
    let currentState := getSerializableState m
    loadFromState
      { m with redoStack := rest, undoStack := currentState :: m.undoStack }
      (some stateToRestore)

/-- `createNode(text, parentId, position, style)` (script.js:263).  A null
parent assigns the reserved root id; otherwise a fresh id is generated and,
*only if the parent exists*, appended to the parent's `childrenIds` — the
node itself is stored in the map unconditionally. -/
def createNode (m : MM) (text : String) (parentId : Option Nat) (position : ℚ × ℚ)
    (style : String) : MM × Nat :=
  match parentId with
  | none =>
    let n : MNode :=
      { id := ROOT_NODE_ID, text := text, parentId := none, childrenIds := [],
        position := position, isCollapsed := false, style := style }
    ({ m with nodes := insertNode m.nodes n }, ROOT_NODE_ID)
  | some pid =>
    let id := m.nextId + 1
    let n : MNode :=
      { id := id, text := text, parentId := some pid, childrenIds := [],
        position := position, isCollapsed := false, style := style }
    let ns1 := insertNode m.nodes n
    let ns2 :=
      if (getN ns1 pid).isSome then
        updNode ns1 pid (fun p => { p with childrenIds := p.childrenIds ++ [id] })
      else ns1
    ({ m with nodes := ns2, nextId := id }, id)

/-- `updateNodePosition(nodeId, position)`. -/
def updateNodePosition (ns : List MNode) (i : Nat) (p : ℚ × ℚ) : List MNode :=
  updNode ns i (fun n => { n with position := p })

/-- `moveNodeAndChildren(rootNodeId, delta, selectionGroup)` (script.js:1718).
Skips the move when the node's **direct parent** is in the selection group
and the node is not the one being dragged; otherwise translates the node
and each of its uncollapsed descendants by `delta`. -/
def moveNodeAndChildren (m : MM) (rootNodeId : Nat) (delta : ℚ × ℚ)
    (selectionGroup : List Nat) (dragNodeId : Option Nat) : MM :=
  if ((match (getN m.nodes rootNodeId).bind (fun n => n.parentId) with
       | some p => decide (p ∈ selectionGroup)
       | none => false) && decide (dragNodeId ≠ some rootNodeId)) then m
  else
    let idsToMove := rootNodeId :: getAllDescendantIds m.nodes.length m.nodes rootNodeId
    let newNodes := idsToMove.foldl
      (fun acc i =>
        match getN acc i with
        | some n => updateNodePosition acc i (n.position.1 + delta.1, n.position.2 + delta.2)
        | none => acc)
      m.nodes
    { m with nodes := newNodes }

/-- The `moveFirstChild` helper of `programmaticAddNode` (script.js:289):
re-home a previously only child so the siblings straddle the parent.
`parentY` is the enclosing parent's vertical position. -/
def moveFirstChildBy (m : MM) (parentY : ℚ) (firstChildId : Nat)
    (newOffsetY : ℚ) : MM :=
  match getN m.nodes firstChildId with
  | none => m
  | some firstChild =>
    moveNodeAndChildren m firstChildId
      (0, parentY + newOffsetY - firstChild.position.2) [] none

/-- The alternating vertical offset of `programmaticAddNode` for two or
more existing siblings (`BASE_OFFSET_Y = 40`, `SIBLING_OFFSET_Y = 80`). -/
def offsetYOf (count : Nat) : ℚ :=
  ((if count % 2 = 0 then 1 else -1 : ℚ)) * ((count / 2 : Nat) * 80 + 40)

/-- The per-sibling-bucket step of `programmaticAddNode`: given the ids the
new child will share a side with, possibly re-home an only child and return
the adjusted state with the new child's vertical offset. -/
def addStep (m : MM) (parentY : ℚ) (childIds : List Nat) : MM × ℚ :=
  if childIds.length = 0 then (m, 0)
  else if childIds.length = 1 then
    (match childIds.head? with
     | some firstId => moveFirstChildBy m parentY firstId (-40)
     | none => m, 40)
  else (m, offsetYOf childIds.length)

/-- `programmaticAddNode(parentId, text, style)` (script.js:274): the
layout-aware add.  Returns `none` (a no-op) when the parent id is null or
does not reference an existing node; otherwise computes the new child's
position (possibly re-homing an only child first) and creates the node.
The horizontal spacing constant is `offsetX = 160`. -/
def programmaticAddNode (m : MM) (parentId : Option Nat) (text : String)
    (style : String) : MM × Option Nat :=
  match parentId with
  | none => (m, none)
  | some pid =>
    match getN m.nodes pid with
    | none => (m, none)
    | some parentNode =>
      if parentNode.id = ROOT_NODE_ID ∧ m.layoutMode = "bidirectional" then
        -- children already on each side of the root (a dangling child id,
        -- which would throw in JS, lands on neither side)
        let childrenOnLeftIds := parentNode.childrenIds.filter (fun cid =>
          match getN m.nodes cid with
          | some c => decide (c.position.1 < parentNode.position.1)
          | none => false)
        let childrenOnRightIds := parentNode.childrenIds.filter (fun cid =>
          match getN m.nodes cid with
          | some c => decide (parentNode.position.1 < c.position.1)
          | none => false)
        let addOnLeft := childrenOnLeftIds.length ≤ childrenOnRightIds.length
        let direction : ℚ := if addOnLeft then -1 else 1
        let childrenOnSide := if addOnLeft then childrenOnLeftIds else childrenOnRightIds
        let step : MM × ℚ := addStep m parentNode.position.2 childrenOnSide
        let newPosition : ℚ × ℚ :=
          (parentNode.position.1 + direction * 160, parentNode.position.2 + step.2)
        let r := createNode step.1 text (some pid) newPosition style
        (r.1, some r.2)
      else
        -- `this.nodes[ROOT_NODE_ID].position` is only consulted in
        -- bidirectional mode; a missing root (impossible in a rooted
        -- document, a crash in JS) is totalised to (0,0)
        let rootPos : ℚ × ℚ :=
          match getN m.nodes ROOT_NODE_ID with
          | some r => r.position
          | none => (0, 0)
        let direction : ℚ :=
          if m.layoutMode = "bidirectional" then
            if parentNode.position.1 < rootPos.1 then -1 else 1
          else -1
        let step : MM × ℚ := addStep m parentNode.position.2 parentNode.childrenIds
        let newPosition : ℚ × ℚ :=
          (parentNode.position.1 + direction * 160, parentNode.position.2 + step.2)
        let r := createNode step.1 text (some pid) newPosition style
        (r.1, some r.2)

/-- The default text of a programmatically added branch (`'شاخه جدید'`). -/
def NEW_BRANCH_TEXT : String := "شاخه جدید"

/-- The default text of a fresh root (`'موضوع اصلی'`). -/
def DEFAULT_ROOT_TEXT : String := "موضوع اصلی"

/-- `createRootNode(text)` (script.js:695): clear the canvas, create the
root at the window centre with the default style, select it. -/
def createRootNode (m : MM) (text : String) : MM × Nat :=
  let m1 := clearCanvas m
  let r := createNode m1 text none m.winCenter "rect"
  (selectNode r.1 (some r.2) false, r.2)

/-- `addNodeForSelected()` (script.js:333): add a default branch under the
active node, select it and commit the pre-state to history on success. -/
def addNodeForSelected (m : MM) : MM :=
  match getActiveNodeId m with
  | none => m
  | some parentId =>
    let stateBefore := getSerializableState m
    let r := programmaticAddNode m (some parentId) NEW_BRANCH_TEXT "rect"
    match r.2 with
    | some newNodeId => pushHistoryState (selectNode r.1 (some newNodeId) false) stateBefore
    | none => r.1

/-- `deleteSelectedNodes()` (script.js:351): delete every selected non-root
node together with `getAllDescendantIds` of each (which stops at collapsed
nodes), prune the deleted ids from every `childrenIds`, reselect the first
deleted node's former parent, and commit to history. -/
def deleteSelectedNodes (m : MM) : MM :=
  let idsToDelete := m.selectedNodeIds.filter (fun i => i ≠ ROOT_NODE_ID)
  if idsToDelete.isEmpty then m
  else
    let stateBefore := getSerializableState m
    let allIdsToDelete :=
      idsToDelete ++ idsToDelete.flatMap (getAllDescendantIds m.nodes.length m.nodes)
    let nextNodeToSelect : Option Nat :=
      match idsToDelete.head?.bind (getN m.nodes) with
      | some firstNodeData =>
        match firstNodeData.parentId with
        | some p => if (getN m.nodes p).isSome then some p else none
        | none => none
      | none => none
    let ns1 := m.nodes.filter (fun n => n.id ∉ allIdsToDelete)
    let ns2 := ns1.map (fun n =>
      { n with childrenIds := n.childrenIds.filter (fun c => c ∉ allIdsToDelete) })
    pushHistoryState (selectNode { m with nodes := ns2 } nextNodeToSelect false) stateBefore

/-- `_updateNodeText(nodeId, newText)` (script.js:896): trim; a blank
result leaves the previous text. -/
def updateNodeText (m : MM) (i : Nat) (newText : String) : MM :=
  { m with nodes := updNode m.nodes i (fun n =>
      let trimmedText : String := ⟨trimC newText.data⟩
      if trimmedText = "" then n else { n with text := trimmedText }) }

/-- The rename commit path of `makeNodeEditable`'s `saveChanges`
(script.js:934): `input.value.trim() || oldText`; only a changed text is
applied and committed to history. -/
def renameNode (m : MM) (i : Nat) (input : String) : MM :=
  match getN m.nodes i with
  | none => m
  | some nodeData =>
    let newText := if (⟨trimC input.data⟩ : String) = "" then nodeData.text
      else (⟨trimC input.data⟩ : String)
    if newText = nodeData.text then m
    else pushHistoryState (updateNodeText m i newText) (getSerializableState m)

/-- `setNodeStyle(style)` (script.js:1373): apply a style uniformly to the
selection and commit. -/
def setNodeStyle (m : MM) (style : String) : MM :=
  if m.selectedNodeIds.isEmpty then m
  else
    let stateBefore := getSerializableState m
    let newNodes := m.selectedNodeIds.foldl
      (fun acc i => updNode acc i (fun n => { n with style := style })) m.nodes
    pushHistoryState { m with nodes := newNodes } stateBefore

/-- `toggleCollapse(nodeId)` (script.js:1486).  Note the source computes
`getAllDescendantIds(nodeId)` *after* setting `isCollapsed = true`, at
which point that function returns `[]` for the node. -/
def toggleCollapse (m : MM) (nodeId : Nat) : MM :=
  match getN m.nodes nodeId with
  | none => m
  | some node =>
    if node.childrenIds.isEmpty then m
    else
      let stateBefore := getSerializableState m
      let flippedNodes := updNode m.nodes nodeId (fun n => { n with isCollapsed := !n.isCollapsed })
      let m1 := { m with nodes := flippedNodes }
      let m2 :=
        if !node.isCollapsed then
          -- the node is collapsed now
          let descendantIds := getAllDescendantIds m1.nodes.length m1.nodes nodeId
          let stillSelected := m1.selectedNodeIds.filter (fun i => i ∉ descendantIds)
          if m1.selectedNodeIds.all (fun i => i ∈ descendantIds) then
            selectNode m1 (some nodeId) false
          else if stillSelected.length ≠ m1.selectedNodeIds.length then
            let currentSelection := stillSelected
            (currentSelection.foldl (fun acc i => selectNode acc (some i) true)
              (clearSelection m1))
          else m1
        else m1
      pushHistoryState m2 stateBefore

/-- The node-drag branch of `handleMouseMove` (script.js:1642): ensure the
dragged node is selected, then translate every selected subtree by the
mouse delta. -/
def handleDragMove (m : MM) (dragNodeId : Nat) (delta : ℚ × ℚ) (isCtrl : Bool) : MM :=
  let m1 :=
    if dragNodeId ∉ m.selectedNodeIds then
      if !isCtrl then selectNode m (some dragNodeId) false
      else selectNode m (some dragNodeId) true
    else m
  m1.selectedNodeIds.foldl
    (fun acc i => moveNodeAndChildren acc i delta m1.selectedNodeIds (some dragNodeId)) m1

/-- The vertical coordinate used by the sibling/child sort comparators
(`this.nodes[a].position.y`); a dangling id (a crash in JS) reads as 0. -/
def posYOf (ns : List MNode) (i : Nat) : ℚ :=
  match getN ns i with
  | some n => n.position.2
  | none => 0

/-- JS `Array.prototype.indexOf`: index of the first occurrence, `-1` when
absent. -/
def jsIndexOf (l : List Nat) (x : Nat) : Int :=
  match l.findIdx? (fun y => y = x) with
  | some k => (k : Int)
  | none => -1

/-- `navigateSibling(nodeId, goDown)` (script.js:1289): move the selection
among the visible children of the node's parent, sorted by vertical
position, wrapping around at both ends. -/
def navigateSibling (m : MM) (nodeId : Nat) (goDown : Bool) : MM :=
  match getN m.nodes nodeId with
  | none => m
  | some node =>
    match node.parentId with
    | none => m
    | some pid =>
      match getN m.nodes pid with
      | none => m
      | some parent =>
        let visibleSiblings :=
          parent.childrenIds.filter (fun i => !isAnyAncestorCollapsed m.nodes i)
        if visibleSiblings.length ≤ 1 then m
        else
          let sortedSiblings :=
            List.insertionSort (fun a b => posYOf m.nodes a ≤ posYOf m.nodes b) visibleSiblings
          let currentIndex := jsIndexOf sortedSiblings nodeId
          let nextIndex : Int := if goDown then currentIndex + 1 else currentIndex - 1
          let nextIndex : Int :=
            if nextIndex < 0 then (sortedSiblings.length : Int) - 1
            else if (sortedSiblings.length : Int) ≤ nextIndex then 0
            else nextIndex
          let m1 := selectNode m (some (sortedSiblings.getD nextIndex.toNat ROOT_NODE_ID)) false
          { m1 with navState := none }

/-! ## Outline codec (export / import), script.js:596–669 -/

/-- JS `String.prototype.split('\n')`. -/
def splitNl : List Char → List (List Char)
  | [] => [[]]
  | c :: cs =>
    match splitNl cs with
    | [] => [[c]]
    | l :: ls => if c = '\n' then [] :: l :: ls else (c :: l) :: ls

/-- A `\w` character of the JS regexes: ASCII letter, digit or underscore. -/
def wordChar (c : Char) : Bool :=
  c.isAlphanum || c = '_'

/-- The serialized style tag `" {style:" ++ name ++ "}"`. -/
def mkStyleTag (style : String) : List Char :=
  ' ' :: '{' :: ("style:".data ++ style.data ++ ['}'])

/-- The regex match `lineContent.match(/ {style:(\w+)}$/)`: splits a line
content into the part before the matched space and the style name, when the
content ends in a well-formed style tag. -/
def styleSuffixSplit (cs : List Char) : Option (List Char × List Char) :=
  match cs.reverse with
  | c :: rest =>
    if c = '}' then
      if (rest.takeWhile wordChar).isEmpty then none
      else
        match rest.drop (rest.takeWhile wordChar).length with
        | c1 :: c2 :: c3 :: c4 :: c5 :: c6 :: c7 :: c8 :: pre =>
          if c1 = ':' ∧ c2 = 'e' ∧ c3 = 'l' ∧ c4 = 'y' ∧ c5 = 't' ∧ c6 = 's' ∧
             c7 = '{' ∧ c8 = ' '
          then some (pre.reverse, (rest.takeWhile wordChar).reverse) else none
        | _ => none
    else none
  | _ => none

/-- `buildMarkdownRecursive(nodeId, depth, exclude)` (script.js:597): one
line `"{2·depth spaces}- text[ {style:name}]"` per node, children only when
the node is not collapsed. -/
def buildMarkdownRec (fuel : Nat) (ns : List MNode) (i : Nat) (depth : Nat)
    (exclude : Bool) : List Char :=
  match fuel with
  | 0 => []
  | fuel + 1 =>
    match getN ns i with
    | none => []
    | some node =>
      let indent := List.replicate (2 * depth) ' '
      let textPart := '-' :: ' ' :: node.text.data ++
        (if exclude = false ∧ node.style ≠ "" ∧ node.style ≠ "rect"
         then mkStyleTag node.style else [])
      let childPart :=
        if node.isCollapsed then []
        else node.childrenIds.flatMap (fun c => buildMarkdownRec fuel ns c (depth + 1) exclude)
      indent ++ textPart ++ '\n' :: childPart

/-- `exportToMarkdown(excludeStyles)` (script.js:596). -/
def exportToMarkdown (m : MM) (excludeStyles : Bool) : String :=
  ⟨buildMarkdownRec m.nodes.length m.nodes ROOT_NODE_ID 0 excludeStyles⟩

/-- The `while (level <= levelStack[levelStack.length-1] && levelStack.length > 0)`
unwind of the import parser: pop both stacks while the current level is at
most the level on top. -/
def popWhile (lvl : Nat) : List Nat → List Nat → List Nat × List Nat
  | ps, [] => (ps, [])
  | ps, top :: restL =>
    if lvl ≤ top then popWhile lvl ps.tail restL else (ps, top :: restL)

/-- The post-parse tail of one line of `importFromMarkdown`'s
`lines.forEach` (script.js:638): dispatch on the level, reusing the parsed
text and style. -/
def importLineCore (m : MM) (parentStack levelStack : List Nat) (lvl : Nat)
    (text style : String) : MM × List Nat × List Nat :=
  if lvl = 0 then
    let r := createRootNode m text
    let m2 := { r.1 with nodes := updNode r.1.nodes r.2 (fun n => { n with style := style }) }
    (m2, r.2 :: parentStack, lvl :: levelStack)
  else
    let popped := popWhile lvl parentStack levelStack
    match popped.1.head? with
    | none =>
      -- `parentStack[...]` is `undefined`: `programmaticAddNode` rejects it
      ((programmaticAddNode m none text style).1, popped.1, popped.2)
    | some parentId =>
      let r := programmaticAddNode m (some parentId) text style
      match r.2 with
      | some newNodeId => (r.1, newNodeId :: popped.1, lvl :: popped.2)
      | none => (r.1, popped.1, popped.2)

/-- One line of `importFromMarkdown`'s `lines.forEach` (script.js:638).
The JS code stores `level = indent.length / 2` (a float); we keep the raw
indent length — every use (`level === 0`, `level <= top`, pushes) is
invariant under the division by 2. -/
def importLine (st : MM × List Nat × List Nat) (line : List Char) :
    MM × List Nat × List Nat :=
  let m := st.1
  let parentStack := st.2.1
  let levelStack := st.2.2
  let indent := line.takeWhile Char.isWhitespace
  let lvl := indent.length
  let lineContent := (trimC line).drop 2
  let parsed : List Char × List Char :=
    match styleSuffixSplit lineContent with
    | some ts => (trimC ts.1, ts.2)
    | none => (lineContent, "rect".data)
  importLineCore m parentStack levelStack lvl ⟨parsed.1⟩ ⟨parsed.2⟩

/-- `importFromMarkdown(markdown)` (script.js:628): keep non-blank lines;
an empty result falls back to a single default root, otherwise the lines
are folded through the stack parser. -/
def importFromMarkdown (m : MM) (markdown : String) : MM :=
  let lines := (splitNl markdown.data).filter (fun l => !(trimC l).isEmpty)
  if lines.isEmpty then (createRootNode m DEFAULT_ROOT_TEXT).1
  else (lines.foldl importLine (m, ([], []))).1

/-! ## Layout engine, script.js:1418–1478 -/

mutual

/-- `_calculateLayoutPositions(parentId, parentX, parentY, forceDirection)`
(script.js:1418): the recursive full-tree relayout.  Returns the computed
positions as an association list in merge order (the JS object spread —
on lookup a later entry overrides an earlier one).  Stops at missing,
collapsed or childless nodes.  The constants are
`HORIZONTAL_SPACING = 180`, `VERTICAL_SPACING = 80`. -/
def calcLayoutPositions (fuel : Nat) (ns : List MNode) (layoutMode : String)
    (parentId : Nat) (px py : ℚ) (forceDirection : Option ℚ) :
    List (Nat × (ℚ × ℚ)) :=
  let base := [(parentId, (px, py))]
  match fuel with
  | 0 => base
  | fuel + 1 =>
    match getN ns parentId with
    | none => base
    | some parent =>
      if parent.isCollapsed ∨ parent.childrenIds.isEmpty then base
      else if layoutMode = "bidirectional" ∧ parentId = ROOT_NODE_ID then
        let children := parent.childrenIds
        let leftChildren := (children.enum.filter (fun p => p.1 % 2 = 0)).map (fun p => p.2)
        let rightChildren := (children.enum.filter (fun p => p.1 % 2 = 1)).map (fun p => p.2)
        base ++
          calcLayoutSide fuel ns layoutMode leftChildren.enum leftChildren.length
            (px - 180) py (-1) ++
          calcLayoutSide fuel ns layoutMode rightChildren.enum rightChildren.length
            (px + 180) py 1
      else
        let direction : ℚ :=
          match forceDirection with
          | some d => d
          | none =>
            if layoutMode = "rtl" then -1
            else
              -- bidirectional fallback: compares against the root's stored
              -- position (a crash in JS when the root is missing)
              match getN ns ROOT_NODE_ID with
              | some root => if parent.position.1 < root.position.1 then -1 else 1
              | none => 1
        base ++
          calcLayoutSide fuel ns layoutMode parent.childrenIds.enum
            parent.childrenIds.length (px + direction * 180) py direction
termination_by (fuel, 0)

/-- One `forEach` pass of `_calculateLayoutPositions` over an (indexed)
child bucket: child `i` of `count` is laid out at
`y + (i - (count-1)/2) * VERTICAL_SPACING` and recursed into with the
side's direction forced. -/
def calcLayoutSide (fuel : Nat) (ns : List MNode) (layoutMode : String)
    (items : List (Nat × Nat)) (count : Nat) (x py : ℚ) (direction : ℚ) :
    List (Nat × (ℚ × ℚ)) :=
  match items with
  | [] => []
  | (i, childId) :: rest =>
    calcLayoutPositions fuel ns layoutMode childId x
      (py + ((i : ℚ) - ((count : ℚ) - 1) / 2) * 80) (some direction) ++
    calcLayoutSide fuel ns layoutMode rest count x py direction
termination_by (fuel, items.length + 1)

end

/-- `applyLayout()` (script.js:1469): recompute the layout from the root's
current position and write every computed position back into the node map. -/
def applyLayout (m : MM) : MM :=
  match getN m.nodes ROOT_NODE_ID with
  | none => m
  | some root =>
    let newPositions :=
      calcLayoutPositions m.nodes.length m.nodes m.layoutMode ROOT_NODE_ID
        root.position.1 root.position.2 none
    { m with nodes := newPositions.foldl (fun acc ip => updateNodePosition acc ip.1 ip.2) m.nodes }

/-! ## History-manager driver -/

/-- The commit pattern shared by every mutating action in the source:
capture `getSerializableState()` before the mutation, run the mutation
(which itself never touches the history stacks), then
`pushHistoryState(stateBefore)`. -/
def commitMutation (m : MM) (f : MM → MM) : MM :=
  let stateBefore := getSerializableState m
  { f m with undoStack := stateBefore :: m.undoStack, redoStack := [] }

/-- Iterate `undo()` a given number of times. -/
def undoAllAux : Nat → MM → MM
  | 0, m => m
  | k + 1, m => undoAllAux k (undo m)

/-- Call `undo()` repeatedly until the undo stack is empty. -/
def undoAll (m : MM) : MM :=
  undoAllAux m.undoStack.length m

/-- The state right after `createNewMap()` (script.js:671): cleared canvas,
default connector/layout, a fresh default root, empty history. -/
def initMap (winCenter : ℚ × ℚ) : MM :=
  let m0 : MM :=
    { nodes := [], selectedNodeIds := [], connectorStyle := "straight",
      layoutMode := "bidirectional", undoStack := [], redoStack := [],
      navState := none, nextId := 0, winCenter := winCenter }
  (createRootNode m0 DEFAULT_ROOT_TEXT).1

/-! ## Abstract tree views of a document

`DTree` is an id-decorated rose tree; `DocRepr ns dt` says the node map
`ns` is exactly the arena representation of `dt`.  `PTree` forgets ids and
collapse flags and is the value the outline codec round-trips. -/

/-- An id-decorated abstract tree: id, text, style, collapse flag, ordered
children. -/
inductive DTree where
  | mk (nid : Nat) (text : String) (style : String) (collapsed : Bool)
      (children : List DTree)

/-- The id at the root of a `DTree`. -/
def DTree.nid : DTree → Nat
  | .mk i _ _ _ _ => i

/-- The text at the root of a `DTree`. -/
def DTree.text : DTree → String
  | .mk _ tx _ _ _ => tx

/-- The ids of the root nodes of a forest. -/
def rootIds (ts : List DTree) : List Nat :=
  ts.map DTree.nid

mutual

/-- Pre-order id list of a tree. -/
def flatD : DTree → List Nat
  | .mk i _ _ _ cs => i :: flatF cs

/-- Pre-order id list of a forest. -/
def flatF : List DTree → List Nat
  | [] => []
  | t :: ts => flatD t ++ flatF ts

end

mutual

/-- Number of nodes of a tree. -/
def sizeD : DTree → Nat
  | .mk _ _ _ _ cs => 1 + sizeF cs

/-- Number of nodes of a forest. -/
def sizeF : List DTree → Nat
  | [] => 0
  | t :: ts => sizeD t + sizeF ts

end

mutual

/-- Number of nodes of a tree reachable through non-collapsed parents
(the root of the tree always counts). -/
def visCountD : DTree → Nat
  | .mk _ _ _ c cs => 1 + (if c then 0 else visCountF cs)

/-- Sum of `visCountD` over a forest. -/
def visCountF : List DTree → Nat
  | [] => 0
  | t :: ts => visCountD t + visCountF ts

end

mutual

/-- `MatchesD ns dt`: the node map `ns` realises the tree `dt` — the root
id of every subtree looks up to a node with the subtree's text, style and
collapse flag whose `childrenIds` are exactly the subtree's children ids,
recursively. -/
def MatchesD (ns : List MNode) : DTree → Prop
  | .mk i tx st c cs =>
    (∃ n, getN ns i = some n ∧ n.text = tx ∧ n.style = st ∧ n.isCollapsed = c ∧
      n.childrenIds = rootIds cs) ∧ MatchesF ns cs

/-- `MatchesD` over a forest. -/
def MatchesF (ns : List MNode) : List DTree → Prop
  | [] => True
  | t :: ts => MatchesD ns t ∧ MatchesF ns ts

end

/-- `DocRepr ns dt`: the node map is exactly the arena form of the rooted
tree `dt` — it realises `dt`, `dt` is rooted at the reserved root id, the
id multiset of the map equals the id list of the tree, and the tree's ids
are distinct. -/
structure DocRepr (ns : List MNode) (dt : DTree) : Prop where
  real : MatchesD ns dt
  rooted : dt.nid = ROOT_NODE_ID
  perm : (ns.map MNode.id).Perm (flatD dt)
  nodup : (flatD dt).Nodup

/-- A plain rose tree of texts and styles: the content the outline format
serialises. -/
inductive PTree where
  | mk (text : String) (style : String) (children : List PTree)

mutual

/-- Forget ids and collapse flags. -/
def stripD : DTree → PTree
  | .mk _ tx st _ cs => .mk tx st (stripF cs)

/-- `stripD` over a forest. -/
def stripF : List DTree → List PTree
  | [] => []
  | t :: ts => stripD t :: stripF ts

end

mutual

/-- Extract the abstract tree rooted at id `i` from a node map, within
`fuel` levels. -/
def toPTree (ns : List MNode) (fuel : Nat) (i : Nat) : Option PTree :=
  match fuel with
  | 0 => none
  | fuel + 1 =>
    match getN ns i with
    | none => none
    | some n => (toPForest ns fuel n.childrenIds).map (fun cs => PTree.mk n.text n.style cs)
termination_by (fuel, 0)

/-- Extract the forest at a list of ids. -/
def toPForest (ns : List MNode) (fuel : Nat) (l : List Nat) : Option (List PTree) :=
  match l with
  | [] => some []
  | i :: is =>
    match toPTree ns fuel i, toPForest ns fuel is with
    | some t, some ts => some (t :: ts)
    | _, _ => none
termination_by (fuel, l.length + 1)

end

/-- The abstract content tree of a document: extraction from the root with
fuel `nodes.length` (enough for any well-formed document, whose depth is
strictly below its node count). -/
def treeOfDoc (m : MM) : Option PTree :=
  toPTree m.nodes m.nodes.length ROOT_NODE_ID

mutual

/-- Append `new` as a last child of the node with id `p`. -/
def attachD (p : Nat) (new : DTree) : DTree → DTree
  | .mk i tx st c cs =>
    if i = p then .mk i tx st c (cs ++ [new])
    else .mk i tx st c (attachF p new cs)

/-- `attachD` over a forest. -/
def attachF (p : Nat) (new : DTree) : List DTree → List DTree
  | [] => []
  | t :: ts => attachD p new t :: attachF p new ts

end

/-- The node-level facts maintained by the tree-store operations: the text
is trimmed and non-empty, the style is `rect` or a non-empty `\w+` word,
and the node is not collapsed. -/
def BuiltNodeOK (n : MNode) : Prop :=
  trimC n.text.data = n.text.data ∧ n.text.data ≠ [] ∧
  (n.style = "rect" ∨ (n.style.data ≠ [] ∧ ∀ c ∈ n.style.data, wordChar c = true)) ∧
  n.isCollapsed = false

/-- Every id in the map is dominated by the fresh-id counter. -/
def Bounded (ns : List MNode) (k : Nat) : Prop :=
  ∀ n ∈ ns, n.id ≤ k

/-- The documents reachable from a fresh map through the create / delete /
rename / style operations (and the selection moves needed to aim them),
with no collapse toggles.  A `setNodeStyle` step must use a recognized
(non-empty, `\w+`) style name. -/
inductive Built : MM → Prop
  | init (winCenter : ℚ × ℚ) : Built (initMap winCenter)
  | sel {m} (nodeId : Option Nat) (multiSelect : Bool) :
      Built m → Built (selectNode m nodeId multiSelect)
  | selAll {m} : Built m → Built (selectAllNodes m)
  | clearSel {m} : Built m → Built (clearSelection m)
  | add {m} : Built m → Built (addNodeForSelected m)
  | del {m} : Built m → Built (deleteSelectedNodes m)
  | ren {m} (i : Nat) (input : String) : Built m → Built (renameNode m i input)
  | sty {m} (style : String) : Built m →
      style.data ≠ [] → (∀ c ∈ style.data, wordChar c = true) →
      Built (setNodeStyle m style)

/-- Selection points at existing nodes and the connector/layout strings are
truthy — the facts needed for a snapshot to restore verbatim. -/
def NormalDoc (m : MM) : Prop :=
  (∀ i ∈ m.selectedNodeIds, (getN m.nodes i).isSome) ∧
  m.connectorStyle ≠ "" ∧ m.layoutMode ≠ ""

/-- Normalisation a snapshot undergoes through
`loadFromState` followed by `getSerializableState`. -/
def snapNorm (s : Snap) : Snap :=
  { nodes := s.nodes.map (fun n => { n with style := if n.style = "" then "rect" else n.style }),
    selectedNodeIds := s.selectedNodeIds.filter (fun i => (getN s.nodes i).isSome),
    connectorStyle := if s.connectorStyle = "" then "straight" else s.connectorStyle,
    layoutMode := if s.layoutMode = "" then "bidirectional" else s.layoutMode }

/-- The layout-relevant skeleton of a node: id, children order, collapse
flag.  `_calculateLayoutPositions` reads nothing else of a node when every
recursive call carries a forced direction. -/
structure NShape where
  id : Nat
  childrenIds : List Nat
  isCollapsed : Bool
deriving DecidableEq

/-- Project a node to its layout skeleton. -/
def shapeOf (n : MNode) : NShape :=
  ⟨n.id, n.childrenIds, n.isCollapsed⟩

/-- Two node maps with the same tree shape (ids, children orders, collapse
flags) in the same arena order. -/
def SameShape (ns1 ns2 : List MNode) : Prop :=
  ns1.map shapeOf = ns2.map shapeOf

/-! ## Round-trip infrastructure

Printer form of the outline, content well-formedness, tree surgeries
(graft / retag / prune) mirroring the tree-store operations, and the
invariant carried by built documents. -/

/-- The children forest of a `DTree`. -/
def DTree.children : DTree → List DTree
  | .mk _ _ _ _ cs => cs

/-- The style at the root of a `DTree`. -/
def DTree.style : DTree → String
  | .mk _ _ st _ _ => st

/-- The line the exporter prints for a node: `2·depth` spaces, `"- "`, the
text, and the style tag when the style is distinguished. -/
def mkLine (depth : Nat) (text style : String) : List Char :=
  List.replicate (2 * depth) ' ' ++ '-' :: ' ' :: text.data ++
    (if style ≠ "" ∧ style ≠ "rect" then mkStyleTag style else [])

/-- Concatenate lines, terminating each with a newline. -/
def joinLines : List (List Char) → List Char
  | [] => []
  | l :: ls => l ++ '\n' :: joinLines ls

mutual

/-- The lines the exporter prints for a content tree at a depth. -/
def linesP (d : Nat) : PTree → List (List Char)
  | .mk tx st cs => mkLine d tx st :: linesF (d + 1) cs

/-- The lines the exporter prints for a content forest. -/
def linesF (d : Nat) : List PTree → List (List Char)
  | [] => []
  | t :: ts => linesP d t ++ linesF d ts

end

/-- Text content that round-trips through the outline codec: trimmed,
non-empty and newline-free. -/
def GoodText (tx : String) : Prop :=
  trimC tx.data = tx.data ∧ tx.data ≠ [] ∧ '\n' ∉ tx.data

/-- A style name the outline codec round-trips: the default `rect` or a
non-empty `\w+` word. -/
def GoodStyle (st : String) : Prop :=
  st = "rect" ∨ (st.data ≠ [] ∧ ∀ c ∈ st.data, wordChar c = true)

mutual

/-- Round-trip fitness of a content tree: every text and style is good and
the text of a default-style node does not itself end in a style tag. -/
def PTreeOK : PTree → Prop
  | .mk tx st cs =>
    GoodText tx ∧ GoodStyle st ∧ (st = "rect" → styleSuffixSplit tx.data = none) ∧
    PForestOK cs

/-- `PTreeOK` over a forest. -/
def PForestOK : List PTree → Prop
  | [] => True
  | t :: ts => PTreeOK t ∧ PForestOK ts

end

mutual

/-- Append the forest `us` as additional last children of every node with
id `p` (in a tree with distinct ids: of the node with id `p`). -/
def graftD (p : Nat) (us : List DTree) : DTree → DTree
  | .mk i tx st c cs =>
    if i = p then .mk i tx st c (cs ++ us) else .mk i tx st c (graftF p us cs)

/-- `graftD` over a forest. -/
def graftF (p : Nat) (us : List DTree) : List DTree → List DTree
  | [] => []
  | t :: ts => graftD p us t :: graftF p us ts

end

mutual

/-- Rewrite the `(text, style)` pair of every node with id `i` through `f`. -/
def retagD (i : Nat) (f : String → String → String × String) : DTree → DTree
  | .mk j tx st c cs =>
    if j = i then .mk j (f tx st).1 (f tx st).2 c (retagF i f cs)
    else .mk j tx st c (retagF i f cs)

/-- `retagD` over a forest. -/
def retagF (i : Nat) (f : String → String → String × String) :
    List DTree → List DTree
  | [] => []
  | t :: ts => retagD i f t :: retagF i f ts

end

mutual

/-- Remove from a forest every subtree whose root id lies in `D`, and prune
recursively below the kept roots. -/
def pruneF (D : List Nat) : List DTree → List DTree
  | [] => []
  | t :: ts => if t.nid ∈ D then pruneF D ts else pruneD D t :: pruneF D ts

/-- Prune the subtrees rooted in `D` from below a kept node. -/
def pruneD (D : List Nat) : DTree → DTree
  | .mk i tx st c cs => .mk i tx st c (pruneF D cs)

end

mutual

/-- `D` is subtree-closed over a tree: wherever a node's id lies in `D`,
the ids of its whole descendant forest lie in `D` too. -/
def ClosedD (D : List Nat) : DTree → Prop
  | .mk i _ _ _ cs => (i ∈ D → ∀ x ∈ flatF cs, x ∈ D) ∧ ClosedF D cs

/-- `ClosedD` over a forest. -/
def ClosedF (D : List Nat) : List DTree → Prop
  | [] => True
  | t :: ts => ClosedD D t ∧ ClosedF D ts

end

/-- The tree-relevant projection of a node: every field except the
position. -/
def fullSkel (n : MNode) : Nat × String × Option Nat × List Nat × Bool × String :=
  (n.id, n.text, n.parentId, n.childrenIds, n.isCollapsed, n.style)

/-- Append a fresh child id (the `childrenIds.push` of `createNode`). -/
def pushChild (cid : Nat) (n : MNode) : MNode :=
  { n with childrenIds := n.childrenIds ++ [cid] }

/-- The node record `createNode` builds for a fresh child, at an
irrelevant position (`fullSkel` ignores the position). -/
def childSkelNode (id : Nat) (pid : Nat) (text style : String) : MNode :=
  { id := id, text := text, parentId := some pid, childrenIds := [],
    position := (0, 0), isCollapsed := false, style := style }

/-- The node record `createNode` builds for a fresh child. -/
def newChildNode (id : Nat) (pid : Nat) (text style : String) (pos : ℚ × ℚ) : MNode :=
  { id := id, text := text, parentId := some pid, childrenIds := [],
    position := pos, isCollapsed := false, style := style }

/-- The root node record the import parser produces for a depth-0 line. -/
def rootNode0 (text style : String) (pos : ℚ × ℚ) : MNode :=
  { id := ROOT_NODE_ID, text := text, parentId := none, childrenIds := [],
    position := pos, isCollapsed := false, style := style }

/-- The structural invariant of built documents: the map is the arena of a
rooted tree, ids are dominated by the fresh-id counter, and every node's
content is tree-store normal (`BuiltNodeOK`). -/
def BuiltInv (m : MM) : Prop :=
  (∃ dt, DocRepr m.nodes dt) ∧ Bounded m.nodes m.nextId ∧
  ∀ n ∈ m.nodes, BuiltNodeOK n

/-- Fold the import parser over a list of lines. -/
def runLines (st : MM × List Nat × List Nat) (lines : List (List Char)) :
    MM × List Nat × List Nat :=
  lines.foldl importLine st

/-! ## Concrete documents used by the counterexamples and witnesses -/

/-- Shorthand node constructor for concrete documents. -/
def mkN (i : Nat) (t : String) (p : Option Nat) (cs : List Nat) (c : Bool)
    (st : String) (pos : ℚ × ℚ) : MNode :=
  { id := i, text := t, parentId := p, childrenIds := cs, position := pos,
    isCollapsed := c, style := st }

/-- Shorthand document constructor for concrete documents. -/
def mkDoc (ns : List MNode) (sel : List Nat) : MM :=
  { nodes := ns, selectedNodeIds := sel, connectorStyle := "straight",
    layoutMode := "bidirectional", undoStack := [], redoStack := [],
    navState := none, nextId := 100, winCenter := (0, 0) }

/-- Root `A` with a **collapsed** child `a` that has a child `b`; the
collapsed node is selected. -/
def docCollapsedChild : MM :=
  mkDoc
    [mkN 0 "A" none [1] false "rect" (0, 0),
     mkN 1 "a" (some 0) [2] true "rect" (10, 0),
     mkN 2 "b" (some 1) [] false "rect" (20, 0)]
    [1]

/-- The abstract tree realised by `docCollapsedChild`. -/
def dtCollapsedChild : DTree :=
  .mk 0 "A" "rect" false [.mk 1 "a" "rect" true [.mk 2 "b" "rect" false []]]

/-- Root `A` with an expanded child `a` (of child `b`); the grandchild `b`
is selected. -/
def docExpandedChild : MM :=
  mkDoc
    [mkN 0 "A" none [1] false "rect" (0, 0),
     mkN 1 "a" (some 0) [2] false "rect" (10, 0),
     mkN 2 "b" (some 1) [] false "rect" (20, 0)]
    [2]

/-- A four-node chain `r → a → b → c` with `a` and `c` selected (but not
the intermediate `b`). -/
def docChain : MM :=
  mkDoc
    [mkN 0 "r" none [1] false "rect" (0, 0),
     mkN 1 "a" (some 0) [2] false "rect" (1, 0),
     mkN 2 "b" (some 1) [3] false "rect" (2, 0),
     mkN 3 "c" (some 2) [] false "rect" (3, 0)]
    [1, 3]

/-- As `docCollapsedChild` but with the hidden grandchild parked at the
distinctive position `(77, 88)` and nothing selected. -/
def docCollapsedPos : MM :=
  mkDoc
    [mkN 0 "A" none [1] false "rect" (0, 0),
     mkN 1 "a" (some 0) [2] true "rect" (10, 0),
     mkN 2 "b" (some 1) [] false "rect" (77, 88)]
    []

/-- As `docCollapsedPos` but with the hidden grandchild at a different
prior position. -/
def docCollapsedPos' : MM :=
  mkDoc
    [mkN 0 "A" none [1] false "rect" (0, 0),
     mkN 1 "a" (some 0) [2] true "rect" (10, 0),
     mkN 2 "b" (some 1) [] false "rect" (-5, 3)]
    []

/-- A root with three children at distinct vertical positions; the lowest
(`3`) is selected. -/
def docSiblings : MM :=
  mkDoc
    [mkN 0 "r" none [1, 2, 3] false "rect" (0, 0),
     mkN 1 "a" (some 0) [] false "rect" (10, 10),
     mkN 2 "b" (some 0) [] false "rect" (10, 20),
     mkN 3 "c" (some 0) [] false "rect" (10, 30)]
    [3]

/-- A document built purely through the modelled operations whose root text
ends in a style-tag-shaped suffix. -/
def docStyleInText : MM :=
  renameNode (initMap (0, 0)) 0 "A \x7bstyle:underline\x7d"

/-- A small document built purely through the modelled operations: a root
with one (restyled) branch and one nested branch. -/
def docBuiltSample : MM :=
  let m1 := addNodeForSelected (initMap (100, 50))
  let m2 := addNodeForSelected m1
  let m3 := selectNode m2 (some 0) false
  let m4 := addNodeForSelected m3
  setNodeStyle m4 "underline"

/-! # Theorems -/

/-! ## C2 — delete of a collapsed subtree (code bug) -/

/-- C2: the claim says deletion descends through collapsed nodes too.  The
code computes descendants with `getAllDescendantIds`, which returns `[]`
for a collapsed node: deleting the collapsed, selected node `a` of
`docCollapsedChild` removes `a` but leaves its hidden child `b` in the
map, with `b.parentId` still pointing at the removed node — contradicting
the claim (and §3 invariant 5 of the spec, which the claim restates). -/
theorem c2_delete_collapsed_code_eval :
    getN (deleteSelectedNodes docCollapsedChild).nodes 1 = none ∧
    (getN (deleteSelectedNodes docCollapsedChild).nodes 2).map MNode.parentId =
      some (some 1) ∧
    docCollapsedChild.nodes.length = 3 ∧
    (deleteSelectedNodes docCollapsedChild).nodes.length = 2 := by
  decide

/-! ## C9 — collapse-toggle reselection (code bug) -/

/-- C9: the claim says collapsing a node whose descendants contain the whole
selection re-selects that node, and the selection never points at hidden
nodes.  The code flips `isCollapsed` **before** calling
`getAllDescendantIds`, which therefore returns `[]`, so the reselection
branch never fires: collapsing `a` while its child `b` is selected leaves
`b` selected even though `b` now has a collapsed ancestor. -/
theorem c9_toggle_collapse_selection_eval :
    (toggleCollapse docExpandedChild 1).selectedNodeIds = [2] ∧
    isAnyAncestorCollapsed (toggleCollapse docExpandedChild 1).nodes 2 = true := by
  decide

/-! ## C8 — multi-select drag translation (code bug) -/

/-- C8: the claim says a selected node with *any* selected ancestor is not
translated a second time.  `moveNodeAndChildren` only checks the **direct
parent** against the selection set: dragging `a` of the chain
`r → a → b → c` with `{a, c}` selected moves `c` by the delta twice
(once inside `a`'s subtree translation and once on its own), while `b`
moves once. -/
theorem c8_drag_double_translation_eval :
    (getN docChain.nodes 3).map MNode.position = some (3, 0) ∧
    (getN (handleDragMove docChain 1 (10, 0) true).nodes 3).map MNode.position =
      some (23, 0) ∧
    (getN (handleDragMove docChain 1 (10, 0) true).nodes 2).map MNode.position =
      some (12, 0) := by
  refine ⟨?_, ?_, ?_⟩ <;> with_unfolding_all rfl

/-! ## C6 — create under a nonexistent parent -/

/-- C6 counterexample: the claim says `createNode` with a dangling
`parentId` adds no node.  The code stores the new node in the map
unconditionally and only skips the parent's `childrenIds` append: creating
under the nonexistent id `99` grows the map from 3 to 4 entries. -/
theorem c6_counterexample :
    (createNode docExpandedChild "x" (some 99) (0, 0) "rect").1.nodes.length = 4 ∧
    docExpandedChild.nodes.length = 3 := by
  decide

/-! ## C5 — malformed import -/

/-- C5 counterexample: the claim says an input whose first non-blank line
is not at depth 0 falls back to a single default root.  Importing
`"  - x"` into a cleared document creates no node at all: the resulting
node map is empty. -/
theorem c5_counterexample :
    (importFromMarkdown (clearCanvas docExpandedChild) "  - x").nodes = [] := by
  decide

/-! ## C3 — export of collapsed subtrees -/

/-- C3 counterexample: the claim says the default export emits one line for
every descendant of a collapsed node.  Exporting `docCollapsedChild`
(3 nodes, `a` collapsed with hidden child `b`) yields only the two lines
`- A` and `  - a`; `b`'s line is missing. -/
theorem c3_counterexample :
    exportToMarkdown docCollapsedChild false = "- A\n  - a\n" ∧
    docCollapsedChild.nodes.length = 3 ∧
    (exportToMarkdown docCollapsedChild false).data.count '\n' = 2 := by
  decide

/-! ## C7 — full-tree relayout and collapse -/

/-- C7 counterexample: the claim says `applyLayout` overwrites every node's
position and the result is independent of prior positions and collapse
flags.  On `docCollapsedPos` (grandchild `b` hidden under the collapsed
`a`), the relayout leaves `b` exactly at its prior parked position; the
identically shaped `docCollapsedPos'` differing only in `b`'s prior
position relays out to a different position map. -/
theorem c7_counterexample :
    (getN (applyLayout docCollapsedPos).nodes 2).map MNode.position = some (77, 88) ∧
    (getN (applyLayout docCollapsedPos').nodes 2).map MNode.position = some (-5, 3) ∧
    SameShape docCollapsedPos.nodes docCollapsedPos'.nodes := by
  refine ⟨?_, ?_, ?_⟩ <;> with_unfolding_all rfl

/-! ## C1 — round trip counterexample -/

/-- C1 counterexample: `docStyleInText` is built purely through the
create/delete/rename/style operations (a single rename of the root), yet
the import of its export does not reproduce its text: the root text
`"A {style:underline}"` is re-parsed as text `"A"` with style
`"underline"`, so the round-tripped tree is not isomorphic to the
original. -/
theorem c1_counterexample :
    Built docStyleInText ∧
    (getN (importFromMarkdown (initMap (0, 0))
        (exportToMarkdown docStyleInText false)).nodes ROOT_NODE_ID).map MNode.text =
      some "A" ∧
    (getN docStyleInText.nodes ROOT_NODE_ID).map MNode.text =
      some "A \x7bstyle:underline\x7d" := by
  refine ⟨Built.ren 0 "A \x7bstyle:underline\x7d" (Built.init (0, 0)), ?_, ?_⟩ <;>
    with_unfolding_all rfl

/-! ## C6 — amended: the guarded creation path -/

/-- C6 (amended): the no-op guard lives in `programmaticAddNode`, the
layout-aware add used by every creation path (toolbar add, import): with a
non-null `parentId` that does not reference an existing node it leaves the
document unchanged and returns no id.  (`createNode` itself, per
`c6_counterexample`, does insert an orphan node.) -/
theorem c6_create_noop_amended (m : MM) (pid : Nat) (text style : String)
    (h : getN m.nodes pid = none) :
    programmaticAddNode m (some pid) text style = (m, none) := by
  simp only [programmaticAddNode, h]

/-- Witness for `c6_create_noop_amended` at a concrete input. -/
theorem c6_create_noop_amended_witness :
    getN docExpandedChild.nodes 99 = none ∧
    programmaticAddNode docExpandedChild (some 99) "x" "rect" = (docExpandedChild, none) :=
  ⟨by decide, c6_create_noop_amended docExpandedChild 99 "x" "rect" (by decide)⟩

/-! ## C5 — amended: import fallback behaviour -/

/-- Helper: the import fold is inert on lines that are all indented while
both parser stacks are empty. -/
theorem importFold_indented (m : MM) :
    ∀ (lines : List (List Char)),
      (∀ l ∈ lines, l.takeWhile Char.isWhitespace ≠ []) →
      lines.foldl importLine (m, ([], [])) = (m, ([], [])) := by
  intro lines
  induction lines with
  | nil => intro _; rfl
  | cons l ls ih =>
    intro h
    have hl := h l (by simp)
    have hstep : importLine (m, ([], [])) l = (m, ([], [])) := by
      unfold importLine importLineCore
      have hlvl : (l.takeWhile Char.isWhitespace).length ≠ 0 := by
        simpa [List.length_eq_zero] using hl
      simp only [hlvl, if_neg hlvl]
      rfl
    rw [List.foldl_cons, hstep]
    exact ih (fun x hx => h x (by simp [hx]))

/-- C5 (amended): only blank input falls back to the single default root
(reserved id, default text, default style); an input whose non-blank lines
are all indented (first line not at depth 0 and no depth-0 line at all)
triggers no fallback — the import leaves the document exactly as it was
(empty, for the import paths that clear the canvas first). -/
theorem c5_import_fallback_amended (m : MM) (s : String) :
    ((splitNl s.data).filter (fun l => !(trimC l).isEmpty) = [] →
      (importFromMarkdown m s).nodes =
        [{ id := ROOT_NODE_ID, text := DEFAULT_ROOT_TEXT, parentId := none,
           childrenIds := [], position := m.winCenter, isCollapsed := false,
           style := "rect" }]) ∧
    ((splitNl s.data).filter (fun l => !(trimC l).isEmpty) ≠ [] →
      (∀ l ∈ (splitNl s.data).filter (fun l => !(trimC l).isEmpty),
        l.takeWhile Char.isWhitespace ≠ []) →
      importFromMarkdown m s = m) := by
  constructor
  · intro hblank
    unfold importFromMarkdown
    rw [hblank]
    rfl
  · intro hne hind
    unfold importFromMarkdown
    rw [if_neg (by simpa [List.isEmpty_iff] using hne)]
    rw [importFold_indented m _ hind]

/-- Witness for `c5_import_fallback_amended` at concrete inputs: empty
text falls back to the default root; `"  - x"` (first line at depth 1)
leaves the cleared document untouched. -/
theorem c5_import_fallback_amended_witness :
    (importFromMarkdown (clearCanvas docExpandedChild) "").nodes =
      [{ id := ROOT_NODE_ID, text := DEFAULT_ROOT_TEXT, parentId := none,
         childrenIds := [], position := (clearCanvas docExpandedChild).winCenter,
         isCollapsed := false, style := "rect" }] ∧
    importFromMarkdown (clearCanvas docExpandedChild) "  - x" = clearCanvas docExpandedChild :=
  ⟨(c5_import_fallback_amended _ "").1 (by decide),
   (c5_import_fallback_amended _ "  - x").2 (by decide) (by decide)⟩

/-! ## C4 — undo restores the pre-mutation document -/

/-- Serialising a freshly restored snapshot yields exactly the snapshot's
normal form, independently of the document being replaced. -/
theorem getSerializableState_loadFromState (m : MM) (s : Snap) :
    getSerializableState (loadFromState m (some s)) = snapNorm s :=
  rfl

/-- `loadFromState` never touches the history stacks. -/
theorem loadFromState_undoStack (m : MM) (s : Option Snap) :
    (loadFromState m s).undoStack = m.undoStack := by
  cases s <;> rfl

/-- Lookup commutes with an id-preserving map of the node list. -/
theorem getN_map (ns : List MNode) (f : MNode → MNode)
    (hf : ∀ n, (f n).id = n.id) (i : Nat) :
    getN (ns.map f) i = (getN ns i).map f := by
  induction ns with
  | nil => rfl
  | cons n ns ih =>
    simp only [List.map_cons, getN, hf n]
    by_cases h : n.id = i
    · simp [h]
    · simp [h, ih]

/-- On a document whose selection points at existing nodes and whose
connector/layout strings are truthy, serialisation is a fixed point of the
snapshot normal form. -/
theorem snapNorm_getSerializableState (m : MM) (h : NormalDoc m) :
    snapNorm (getSerializableState m) = getSerializableState m := by
  obtain ⟨hsel, hconn, hlay⟩ := h
  unfold snapNorm getSerializableState
  simp only [List.map_map, Snap.mk.injEq]
  refine ⟨?_, ?_, if_neg hconn, if_neg hlay⟩
  · refine List.map_congr_left (fun n _ => ?_)
    by_cases hs : n.style = "" <;> simp [Function.comp, hs]
  · rw [List.filter_eq_self]
    intro i hi
    rw [getN_map m.nodes
      (fun n => { n with style := if n.style = "" then "rect" else n.style })
      (fun n => rfl) i]
    have := hsel i hi
    cases hgn : getN m.nodes i with
    | none => rw [hgn] at this; simp at this
    | some n => simp

/-- Unwinding the history: iterating `undo` once per stacked snapshot
empties the undo stack and leaves the document serialising to the normal
form of the **bottom** snapshot of the stack. -/
theorem undoAllAux_restore :
    ∀ (ds : List Snap) (m : MM), m.undoStack = ds →
      (undoAllAux ds.length m).undoStack = [] ∧
      (∀ s, ds.getLast? = some s →
        getSerializableState (undoAllAux ds.length m) = snapNorm s) ∧
      (ds = [] → undoAllAux ds.length m = m) := by
  intro ds
  induction ds with
  | nil =>
    intro m hm
    exact ⟨hm, by intro s hs; simp at hs, fun _ => rfl⟩
  | cons s rest ih =>
    intro m hm
    have hundo : undo m =
        loadFromState { m with undoStack := rest,
                               redoStack := getSerializableState m :: m.redoStack }
          (some s) := by
      unfold undo
      rw [hm]
    have hstack : (undo m).undoStack = rest := by
      rw [hundo, loadFromState_undoStack]
    have hlen : (s :: rest).length = rest.length + 1 := rfl
    have hstep : undoAllAux (s :: rest).length m = undoAllAux rest.length (undo m) := rfl
    obtain ⟨ihstack, ihlast, ihnil⟩ := ih (undo m) hstack
    refine ⟨by rw [hstep]; exact ihstack, ?_, by intro h; cases h⟩
    intro t ht
    cases rest with
    | nil =>
      simp only [List.getLast?_singleton, Option.some.injEq] at ht
      rw [hstep, ihnil rfl, hundo, getSerializableState_loadFromState, ht]
    | cons r rest' =>
      rw [hstep]
      exact ihlast t (by simpa [List.getLast?_cons_cons] using ht)

/-- Pushing further snapshots on top never changes the bottom of the undo
stack. -/
theorem foldl_commit_getLast :
    ∀ (fs : List (MM → MM)) (m : MM) (s0 : Snap), m.undoStack.getLast? = some s0 →
      (fs.foldl commitMutation m).undoStack.getLast? = some s0 := by
  intro fs
  induction fs with
  | nil => intro m s0 h; exact h
  | cons f fs ih =>
    intro m s0 h
    rw [List.foldl_cons]
    refine ih (commitMutation m f) s0 ?_
    show (getSerializableState m :: m.undoStack).getLast? = some s0
    cases hu : m.undoStack with
    | nil => rw [hu] at h; simp at h
    | cons t ts =>
      rw [hu] at h
      rw [List.getLast?_cons_cons]
      exact h

/-- C4: `undo()` on an empty stack is a no-op; on a non-empty stack it pops
one snapshot, pushes the current live state onto the redo stack and
restores the popped snapshot (up to the snapshot normal form, which is the
identity on snapshots of well-formed documents); and for any sequence of
committed mutations from `m0`, undoing until the stack is empty restores a
document with exactly `m0`'s serialized snapshot. -/
theorem c4_undo_restores :
    (∀ m : MM, m.undoStack = [] → undo m = m) ∧
    (∀ (m : MM) (s : Snap) (rest : List Snap), m.undoStack = s :: rest →
      (undo m).undoStack = rest ∧
      (undo m).redoStack = getSerializableState m :: m.redoStack ∧
      getSerializableState (undo m) = snapNorm s) ∧
    (∀ (fs : List (MM → MM)) (m0 : MM), NormalDoc m0 → m0.undoStack = [] →
      getSerializableState (undoAll (fs.foldl commitMutation m0)) =
        getSerializableState m0 ∧
      (undoAll (fs.foldl commitMutation m0)).undoStack = []) := by
  refine ⟨?_, ?_, ?_⟩
  · intro m hm
    unfold undo
    rw [hm]
  · intro m s rest hm
    have hundo : undo m =
        loadFromState { m with undoStack := rest,
                               redoStack := getSerializableState m :: m.redoStack }
          (some s) := by
      unfold undo
      rw [hm]
    refine ⟨by rw [hundo, loadFromState_undoStack], ?_, ?_⟩
    · rw [hundo]
      cases s
      rfl
    · rw [hundo, getSerializableState_loadFromState]
  · intro fs m0 hnorm hstack
    obtain ⟨hstk, hlast, hnil⟩ :=
      undoAllAux_restore (fs.foldl commitMutation m0).undoStack
        (fs.foldl commitMutation m0) rfl
    cases fs with
    | nil =>
      simp only [List.foldl_nil] at hstk hlast hnil ⊢
      have h0 : m0.undoStack.length = 0 := by rw [hstack]; rfl
      have hA : undoAll m0 = m0 := by
        show undoAllAux m0.undoStack.length m0 = m0
        rw [h0]
        rfl
      exact ⟨by rw [hA], by rw [hA]; exact hstack⟩
    | cons f fs' =>
      have hbot : ((f :: fs').foldl commitMutation m0).undoStack.getLast? =
          some (getSerializableState m0) := by
        rw [List.foldl_cons]
        refine foldl_commit_getLast fs' (commitMutation m0 f) _ ?_
        show (getSerializableState m0 :: m0.undoStack).getLast? = _
        rw [hstack]
        rfl
      refine ⟨?_, hstk⟩
      rw [show undoAll ((f :: fs').foldl commitMutation m0) =
        undoAllAux ((f :: fs').foldl commitMutation m0).undoStack.length
          ((f :: fs').foldl commitMutation m0) from rfl]
      rw [hlast _ hbot]
      exact snapNorm_getSerializableState m0 hnorm

/-- Witness for `c4_undo_restores`: a rename committed on a concrete
document is rolled back to the exact pre-mutation snapshot, and the
pop/push behaviour is exhibited on a one-snapshot stack. -/
theorem c4_undo_restores_witness :
    (undo (clearCanvas docExpandedChild) = clearCanvas docExpandedChild) ∧
    ((undo (pushHistoryState docExpandedChild (getSerializableState docExpandedChild))).undoStack = [] ∧
     (undo (pushHistoryState docExpandedChild (getSerializableState docExpandedChild))).redoStack =
       getSerializableState (pushHistoryState docExpandedChild (getSerializableState docExpandedChild)) ::
         (pushHistoryState docExpandedChild (getSerializableState docExpandedChild)).redoStack ∧
     getSerializableState (undo (pushHistoryState docExpandedChild (getSerializableState docExpandedChild))) =
       snapNorm (getSerializableState docExpandedChild)) ∧
    (getSerializableState (undoAll ([fun m => renameNode m 0 "X"].foldl commitMutation docExpandedChild)) =
       getSerializableState docExpandedChild) :=
  ⟨(c4_undo_restores.1 (clearCanvas docExpandedChild) (by decide)),
   (c4_undo_restores.2.1 _ (getSerializableState docExpandedChild) [] (by decide)),
   ((c4_undo_restores.2.2 [fun m => renameNode m 0 "X"] docExpandedChild
      (by refine ⟨?_, by decide, by decide⟩; decide) (by decide)).1)⟩

/-! ## C10 — sibling navigation wraps around -/

/-- `findIdx?` skips a head that fails the predicate. -/
theorem findIdx?_cons_of_neg {α : Type} (p : α → Bool) (a : α) (l : List α)
    (h : p a = false) :
    (a :: l).findIdx? p = (l.findIdx? p).map (fun k => k + 1) := by
  rw [List.findIdx?_cons, if_neg (by simp [h]), List.findIdx?_succ]

/-- In a list sorted by ascending `y`, an element strictly above all others
sits at the last index, which is where `findIdx?` finds it (given
distinctness). -/
theorem sorted_strictmax_findIdx (y : Nat → ℚ) :
    ∀ (l : List Nat) (i : Nat), l.Sorted (fun a b => y a ≤ y b) → l.Nodup → i ∈ l →
      (∀ k ∈ l, k ≠ i → y k < y i) →
      l.findIdx? (fun t => t = i) = some (l.length - 1) := by
  intro l
  induction l with
  | nil => intro i _ _ hi; cases hi
  | cons a t ih =>
    intro i hs hnd hi hmax
    cases t with
    | nil =>
      have : i = a := by simpa using hi
      subst this
      simp
    | cons b t' =>
      have hab : a ≠ b := by
        have := (List.nodup_cons.mp hnd).1
        intro h; exact this (h ▸ List.mem_cons_self b t')
      have hane : a ≠ i := by
        intro h
        subst h
        have hb : y b < y a := hmax b (by simp) (fun hba => hab hba.symm)
        have hab' : y a ≤ y b := List.rel_of_sorted_cons hs b (by simp)
        exact absurd hab' (not_le.mpr hb)
      have hit : i ∈ b :: t' := by
        rcases List.mem_cons.mp hi with h | h
        · exact absurd h.symm hane
        · exact h
      have ihres := ih i (List.Sorted.of_cons hs) (List.nodup_cons.mp hnd).2 hit
        (fun k hk hki => hmax k (List.mem_cons_of_mem a hk) hki)
      rw [findIdx?_cons_of_neg _ _ _ (by simp [hane]), ihres]
      rfl

/-- In a list sorted by ascending `y`, an element strictly below all others
is the head, and `findIdx?` finds it at index 0. -/
theorem sorted_strictmin_findIdx (y : Nat → ℚ) :
    ∀ (l : List Nat) (i : Nat), l.Sorted (fun a b => y a ≤ y b) → i ∈ l →
      (∀ k ∈ l, k ≠ i → y i < y k) →
      l.findIdx? (fun t => t = i) = some 0 ∧ l.head? = some i := by
  intro l
  cases l with
  | nil => intro i _ hi; cases hi
  | cons a t =>
    intro i hs hi hmin
    have hai : a = i := by
      by_contra hne
      have hia : i ∈ t := by
        rcases List.mem_cons.mp hi with h | h
        · exact absurd h.symm hne
        · exact h
      have h1 : y a ≤ y i := List.rel_of_sorted_cons hs i hia
      have h2 : y i < y a := hmin a (by simp) (fun h => hne h)
      exact absurd h1 (not_le.mpr h2)
    subst hai
    simp

/-- The head of a list sorted by ascending `y` is a minimum. -/
theorem sorted_head_le (y : Nat → ℚ) (a : Nat) (t : List Nat)
    (h : (a :: t).Sorted (fun p q => y p ≤ y q)) :
    ∀ k ∈ a :: t, y a ≤ y k := by
  intro k hk
  rcases List.mem_cons.mp hk with h' | h'
  · exact h' ▸ le_refl _
  · exact List.rel_of_sorted_cons h k h'

/-- The last element of a list sorted by ascending `y` is a maximum. -/
theorem sorted_getLast_le (y : Nat → ℚ) :
    ∀ (l : List Nat) (hne : l ≠ []), l.Sorted (fun p q => y p ≤ y q) →
      ∀ k ∈ l, y k ≤ y (l.getLast hne) := by
  intro l
  induction l with
  | nil => intro hne; cases hne rfl
  | cons a t ih =>
    intro hne hs k hk
    cases t with
    | nil =>
      have : k = a := by simpa using hk
      subst this
      rfl
    | cons b t' =>
      rw [List.getLast_cons (by simp)]
      rcases List.mem_cons.mp hk with h' | h'
      · subst h'
        exact List.rel_of_sorted_cons hs _ (List.getLast_mem _)
      · exact ih (by simp) (List.Sorted.of_cons hs) k h'

/-- `getD` at the last index is `getLast`. -/
theorem getD_last (l : List Nat) (hne : l ≠ []) (d : Nat) :
    l.getD (l.length - 1) d = l.getLast hne := by
  have hlt : l.length - 1 < l.length :=
    Nat.sub_lt (List.length_pos.mpr hne) one_pos
  rw [List.getD_eq_getElem?_getD, List.getElem?_eq_getElem hlt]
  rw [List.getLast_eq_getElem]
  rfl

/-- C10: sibling navigation over the visible children of the parent,
sorted by vertical position, wraps around: it is a no-op for the root and
when at most one sibling is visible; navigating down from the strictly
lowest (greatest `y`) visible sibling selects the highest (least `y`) one,
and navigating up from the highest selects the lowest. -/
theorem c10_sibling_wraparound (m : MM) (i : Nat) (n : MNode)
    (hn : getN m.nodes i = some n) :
    (n.parentId = none → ∀ goDown, navigateSibling m i goDown = m) ∧
    (∀ pid pn, n.parentId = some pid → getN m.nodes pid = some pn →
      ((pn.childrenIds.filter (fun j => !isAnyAncestorCollapsed m.nodes j)).length ≤ 1 →
        ∀ goDown, navigateSibling m i goDown = m) ∧
      (¬ (pn.childrenIds.filter (fun j => !isAnyAncestorCollapsed m.nodes j)).length ≤ 1 →
       (pn.childrenIds.filter (fun j => !isAnyAncestorCollapsed m.nodes j)).Nodup →
       i ∈ pn.childrenIds.filter (fun j => !isAnyAncestorCollapsed m.nodes j) →
       ((∀ k ∈ pn.childrenIds.filter (fun j => !isAnyAncestorCollapsed m.nodes j),
           k ≠ i → posYOf m.nodes k < posYOf m.nodes i) →
         ∃ j ∈ pn.childrenIds.filter (fun j => !isAnyAncestorCollapsed m.nodes j),
           (∀ k ∈ pn.childrenIds.filter (fun j => !isAnyAncestorCollapsed m.nodes j),
              posYOf m.nodes j ≤ posYOf m.nodes k) ∧
           (navigateSibling m i true).selectedNodeIds = [j]) ∧
       ((∀ k ∈ pn.childrenIds.filter (fun j => !isAnyAncestorCollapsed m.nodes j),
           k ≠ i → posYOf m.nodes i < posYOf m.nodes k) →
         ∃ j ∈ pn.childrenIds.filter (fun j => !isAnyAncestorCollapsed m.nodes j),
           (∀ k ∈ pn.childrenIds.filter (fun j => !isAnyAncestorCollapsed m.nodes j),
              posYOf m.nodes k ≤ posYOf m.nodes j) ∧
           (navigateSibling m i false).selectedNodeIds = [j]))) := by
  constructor
  · intro hroot goDown
    simp only [navigateSibling, hn, hroot]
  · intro pid pn hpar hpn
    constructor
    · intro hle goDown
      simp only [navigateSibling, hn, hpar, hpn]
      rw [if_pos hle]
    · intro hgt hnd hmem
      haveI instTot : IsTotal Nat (fun a b => posYOf m.nodes a ≤ posYOf m.nodes b) :=
        ⟨fun a b => le_total _ _⟩
      haveI instTrans : IsTrans Nat (fun a b => posYOf m.nodes a ≤ posYOf m.nodes b) :=
        ⟨fun a b c hab hbc => le_trans hab hbc⟩
      have hperm :
          (List.insertionSort (fun a b => posYOf m.nodes a ≤ posYOf m.nodes b)
            (pn.childrenIds.filter (fun j => !isAnyAncestorCollapsed m.nodes j))).Perm
            (pn.childrenIds.filter (fun j => !isAnyAncestorCollapsed m.nodes j)) :=
        List.perm_insertionSort _ _
      have hsortedS :
          (List.insertionSort (fun a b => posYOf m.nodes a ≤ posYOf m.nodes b)
            (pn.childrenIds.filter (fun j => !isAnyAncestorCollapsed m.nodes j))).Sorted
            (fun a b => posYOf m.nodes a ≤ posYOf m.nodes b) :=
        List.sorted_insertionSort _ _
      have hndS := (hperm.nodup_iff).mpr hnd
      have hmemS := hperm.mem_iff.mpr hmem
      have hlenS := hperm.length_eq
      have hlen2 :
          2 ≤ (List.insertionSort (fun a b => posYOf m.nodes a ≤ posYOf m.nodes b)
            (pn.childrenIds.filter (fun j => !isAnyAncestorCollapsed m.nodes j))).length := by
        omega
      have hancOf : ∀ a ∈ pn.childrenIds.filter (fun j => !isAnyAncestorCollapsed m.nodes j),
          isAnyAncestorCollapsed m.nodes a = false := by
        intro a ha
        have := List.of_mem_filter ha
        simpa using this
      constructor
      · -- goDown from the strictly lowest sibling
        intro hmax
        have hmaxS : ∀ k ∈ List.insertionSort (fun a b => posYOf m.nodes a ≤ posYOf m.nodes b)
            (pn.childrenIds.filter (fun j => !isAnyAncestorCollapsed m.nodes j)),
            k ≠ i → posYOf m.nodes k < posYOf m.nodes i :=
          fun k hk => hmax k (hperm.mem_iff.mp hk)
        have hIdx := sorted_strictmax_findIdx (posYOf m.nodes) _ i hsortedS hndS hmemS hmaxS
        obtain ⟨a, t, hS⟩ : ∃ a t,
            List.insertionSort (fun a b => posYOf m.nodes a ≤ posYOf m.nodes b)
              (pn.childrenIds.filter (fun j => !isAnyAncestorCollapsed m.nodes j)) = a :: t := by
          cases hS : List.insertionSort (fun a b => posYOf m.nodes a ≤ posYOf m.nodes b)
              (pn.childrenIds.filter (fun j => !isAnyAncestorCollapsed m.nodes j)) with
          | nil => rw [hS] at hlen2; simp at hlen2
          | cons a t => exact ⟨a, t, rfl⟩
        have hamem : a ∈ pn.childrenIds.filter (fun j => !isAnyAncestorCollapsed m.nodes j) :=
          hperm.mem_iff.mp (hS ▸ List.mem_cons_self a t)
        refine ⟨a, hamem, ?_, ?_⟩
        · intro k hk
          exact sorted_head_le (posYOf m.nodes) a t (hS ▸ hsortedS) k
            (hS ▸ hperm.mem_iff.mpr hk)
        · simp only [navigateSibling, hn, hpar, hpn]
          rw [if_neg hgt]
          simp only [jsIndexOf, hIdx]
          have hc : ((((List.insertionSort (fun a b => posYOf m.nodes a ≤ posYOf m.nodes b)
              (pn.childrenIds.filter (fun j => !isAnyAncestorCollapsed m.nodes j))).length - 1 : Nat) :
                Int) + 1) =
              ((List.insertionSort (fun a b => posYOf m.nodes a ≤ posYOf m.nodes b)
                (pn.childrenIds.filter (fun j => !isAnyAncestorCollapsed m.nodes j))).length : Int) := by
            omega
          simp only [if_true]
          rw [hc]
          rw [if_neg (by omega), if_pos (le_refl _)]
          rw [show ((0 : Int).toNat) = 0 from rfl, hS, List.getD_cons_zero]
          simp [selectNode, hancOf a hamem]
      · -- go up from the strictly highest sibling
        intro hmin
        have hminS : ∀ k ∈ List.insertionSort (fun a b => posYOf m.nodes a ≤ posYOf m.nodes b)
            (pn.childrenIds.filter (fun j => !isAnyAncestorCollapsed m.nodes j)),
            k ≠ i → posYOf m.nodes i < posYOf m.nodes k :=
          fun k hk => hmin k (hperm.mem_iff.mp hk)
        have hIdx := (sorted_strictmin_findIdx (posYOf m.nodes) _ i hsortedS hmemS hminS).1
        have hne : List.insertionSort (fun a b => posYOf m.nodes a ≤ posYOf m.nodes b)
            (pn.childrenIds.filter (fun j => !isAnyAncestorCollapsed m.nodes j)) ≠ [] := by
          intro h
          rw [h] at hlen2
          simp at hlen2
        have hlast :=
          (List.insertionSort (fun a b => posYOf m.nodes a ≤ posYOf m.nodes b)
            (pn.childrenIds.filter (fun j => !isAnyAncestorCollapsed m.nodes j))).getLast hne
        refine ⟨(List.insertionSort (fun a b => posYOf m.nodes a ≤ posYOf m.nodes b)
            (pn.childrenIds.filter (fun j => !isAnyAncestorCollapsed m.nodes j))).getLast hne,
          hperm.mem_iff.mp (List.getLast_mem hne), ?_, ?_⟩
        · intro k hk
          exact sorted_getLast_le (posYOf m.nodes) _ hne hsortedS k (hperm.mem_iff.mpr hk)
        · simp only [navigateSibling, hn, hpar, hpn]
          rw [if_neg hgt]
          simp only [jsIndexOf, hIdx]
          rw [if_neg (show ¬ (false = true) by decide)]
          rw [if_pos (show ((0 : Nat) : Int) - 1 < 0 by decide)]
          have htn : (((List.insertionSort (fun a b => posYOf m.nodes a ≤ posYOf m.nodes b)
              (pn.childrenIds.filter (fun j => !isAnyAncestorCollapsed m.nodes j))).length : Int) -
                1).toNat =
              (List.insertionSort (fun a b => posYOf m.nodes a ≤ posYOf m.nodes b)
                (pn.childrenIds.filter (fun j => !isAnyAncestorCollapsed m.nodes j))).length - 1 := by
            omega
          rw [htn, getD_last _ hne]
          simp [selectNode, hancOf _ (hperm.mem_iff.mp (List.getLast_mem hne))]

/-- Witness for `c10_sibling_wraparound` on `docSiblings`: navigating down
from the lowest of the three visible siblings selects the highest one. -/
theorem c10_sibling_wraparound_witness :
    ∃ j ∈ (mkN 0 "r" none [1, 2, 3] false "rect" (0, 0)).childrenIds.filter
        (fun k => !isAnyAncestorCollapsed docSiblings.nodes k),
      (∀ k ∈ (mkN 0 "r" none [1, 2, 3] false "rect" (0, 0)).childrenIds.filter
          (fun k => !isAnyAncestorCollapsed docSiblings.nodes k),
        posYOf docSiblings.nodes j ≤ posYOf docSiblings.nodes k) ∧
      (navigateSibling docSiblings 3 true).selectedNodeIds = [j] :=
  (((c10_sibling_wraparound docSiblings 3
      (mkN 3 "c" (some 0) [] false "rect" (10, 30)) (by decide)).2 0
      (mkN 0 "r" none [1, 2, 3] false "rect" (0, 0)) (by decide) (by decide)).2
      (by decide) (by decide) (by decide)).1
    (of_decide_eq_true (by with_unfolding_all rfl))

/-! ## C7 — amended: the relayout is a pure function of the shape -/

/-- Same-shape node maps agree on lookups, up to the layout skeleton. -/
theorem getN_shape (ns1 : List MNode) :
    ∀ ns2, SameShape ns1 ns2 → ∀ i,
      (getN ns1 i = none ∧ getN ns2 i = none) ∨
      (∃ n1 n2, getN ns1 i = some n1 ∧ getN ns2 i = some n2 ∧ shapeOf n1 = shapeOf n2) := by
  induction ns1 with
  | nil =>
    intro ns2 hsh i
    cases ns2 with
    | nil => exact Or.inl ⟨rfl, rfl⟩
    | cons b t2 => simp [SameShape] at hsh
  | cons a t ih =>
    intro ns2 hsh i
    cases ns2 with
    | nil => simp [SameShape] at hsh
    | cons b t2 =>
      simp only [SameShape, List.map_cons, List.cons.injEq] at hsh
      obtain ⟨hab, ht⟩ := hsh
      have hid : a.id = b.id := by
        have := congrArg NShape.id hab
        simpa [shapeOf] using this
      by_cases hia : a.id = i
      · refine Or.inr ⟨a, b, ?_, ?_, hab⟩
        · simp [getN, hia]
        · simp [getN, hid ▸ hia]
      · have hib : ¬ b.id = i := by rw [← hid]; exact hia
        have := ih t2 ht i
        simpa [getN, hia, hib] using this

/-- The relayout computation depends only on the shape of the node map (and
the mode and the coordinates threaded from the root): two same-shape maps
produce identical position lists, for both supported layout modes, at every
fuel, whenever the call either carries a forced direction or starts at the
root (as `applyLayout`'s root call does). -/
theorem calcLayout_shape_eq (ns1 ns2 : List MNode) (mode : String)
    (hshape : SameShape ns1 ns2) (hmode : mode = "bidirectional" ∨ mode = "rtl") :
    ∀ fuel : Nat,
      (∀ parentId px py dir,
        (dir ≠ none ∨ mode = "rtl" ∨ parentId = ROOT_NODE_ID) →
        calcLayoutPositions fuel ns1 mode parentId px py dir =
        calcLayoutPositions fuel ns2 mode parentId px py dir) ∧
      (∀ items count x py d,
        calcLayoutSide fuel ns1 mode items count x py d =
        calcLayoutSide fuel ns2 mode items count x py d) := by
  intro fuel
  induction fuel with
  | zero =>
    constructor
    · intro parentId px py dir _
      simp only [calcLayoutPositions]
    · intro items count x py d
      induction items with
      | nil => simp only [calcLayoutSide]
      | cons it rest ihq =>
        obtain ⟨i, cid⟩ := it
        simp only [calcLayoutSide, calcLayoutPositions]
        rw [ihq]
  | succ fuel ih =>
    have hP : ∀ parentId px py dir,
        (dir ≠ none ∨ mode = "rtl" ∨ parentId = ROOT_NODE_ID) →
        calcLayoutPositions (fuel + 1) ns1 mode parentId px py dir =
        calcLayoutPositions (fuel + 1) ns2 mode parentId px py dir := by
      intro parentId px py dir hok
      rcases getN_shape ns1 ns2 hshape parentId with ⟨h1, h2⟩ | ⟨n1, n2, h1, h2, hsh⟩
      · simp only [calcLayoutPositions, h1, h2]
      · have hcoll : n1.isCollapsed = n2.isCollapsed := by
          have := congrArg NShape.isCollapsed hsh
          simpa [shapeOf] using this
        have hch : n1.childrenIds = n2.childrenIds := by
          have := congrArg NShape.childrenIds hsh
          simpa [shapeOf] using this
        simp only [calcLayoutPositions, h1, h2, hcoll, hch]
        by_cases hstop : n2.isCollapsed = true ∨ n2.childrenIds.isEmpty = true
        · rw [if_pos hstop, if_pos hstop]
        · rw [if_neg hstop, if_neg hstop]
          by_cases hbr : mode = "bidirectional" ∧ parentId = ROOT_NODE_ID
          · rw [if_pos hbr, if_pos hbr]
            rw [ih.2, ih.2]
          · rw [if_neg hbr, if_neg hbr]
            cases dir with
            | some d =>
              rw [ih.2]
            | none =>
              have hrtl : mode = "rtl" := by
                rcases hok with h | h | h
                · exact absurd rfl h
                · exact h
                · rcases hmode with hb | hr
                  · exact absurd ⟨hb, h⟩ hbr
                  · exact hr
              rw [if_pos hrtl]
              rw [if_pos hrtl]
              rw [ih.2]
    refine ⟨hP, ?_⟩
    intro items count x py d
    induction items with
    | nil => simp only [calcLayoutSide]
    | cons it rest ihq =>
      obtain ⟨i, cid⟩ := it
      simp only [calcLayoutSide]
      rw [ihq, hP cid x (py + ((i : ℚ) - ((count : ℚ) - 1) / 2) * 80) (some d)
        (Or.inl (by simp))]

/-- C7 (amended): the full-tree relayout triggered on layout-mode change
recomputes, for both supported modes, a position map that is a pure
function of the tree *shape* (ids, children order, collapse flags), the
layout mode and the root's position: two documents agreeing on those
produce identical `newPositions` lists in `applyLayout`, whatever their
other prior positions — but (per `c7_counterexample`) the map only covers
nodes reachable through non-collapsed parents, and nodes outside it keep
their prior positions. -/
theorem c7_layout_pure_amended (m1 m2 : MM)
    (hshape : SameShape m1.nodes m2.nodes)
    (hmode : m1.layoutMode = m2.layoutMode)
    (hforms : m1.layoutMode = "bidirectional" ∨ m1.layoutMode = "rtl")
    (r1 r2 : MNode)
    (h1 : getN m1.nodes ROOT_NODE_ID = some r1)
    (h2 : getN m2.nodes ROOT_NODE_ID = some r2)
    (hpos : r1.position = r2.position) :
    calcLayoutPositions m1.nodes.length m1.nodes m1.layoutMode ROOT_NODE_ID
        r1.position.1 r1.position.2 none =
      calcLayoutPositions m2.nodes.length m2.nodes m2.layoutMode ROOT_NODE_ID
        r2.position.1 r2.position.2 none := by
  have hlen : m1.nodes.length = m2.nodes.length := by
    have := congrArg List.length hshape
    simpa using this
  rw [hpos, ← hmode, ← hlen]
  exact (calcLayout_shape_eq m1.nodes m2.nodes m1.layoutMode hshape hforms
    m1.nodes.length).1 ROOT_NODE_ID r2.position.1 r2.position.2 none
    (Or.inr (Or.inr rfl))

/-- Witness for `c7_layout_pure_amended` on the two same-shape concrete
documents of `c7_counterexample`. -/
theorem c7_layout_pure_amended_witness :
    calcLayoutPositions docCollapsedPos.nodes.length docCollapsedPos.nodes
        docCollapsedPos.layoutMode ROOT_NODE_ID 0 0 none =
      calcLayoutPositions docCollapsedPos'.nodes.length docCollapsedPos'.nodes
        docCollapsedPos'.layoutMode ROOT_NODE_ID 0 0 none :=
  c7_layout_pure_amended docCollapsedPos docCollapsedPos'
    (by unfold SameShape; decide) (by decide) (Or.inl (by decide))
    (mkN 0 "A" none [1] false "rect" (0, 0))
    (mkN 0 "A" none [1] false "rect" (0, 0))
    (by decide) (by decide) (by decide)

/-! ## C3 — amended: export covers exactly the collapse-visible nodes -/

/-- A successful lookup returns an element of the list. -/
theorem getN_mem {ns : List MNode} {i : Nat} {n : MNode} (h : getN ns i = some n) :
    n ∈ ns := by
  induction ns with
  | nil => cases h
  | cons a t ih =>
    rw [getN] at h
    by_cases ha : a.id = i
    · rw [if_pos ha] at h
      exact (Option.some.injEq _ _ ▸ h) ▸ List.mem_cons_self a t
    · rw [if_neg ha] at h
      exact List.mem_cons_of_mem a (ih h)

/-- Every tree has at least one node. -/
theorem sizeD_pos (dt : DTree) : 1 ≤ sizeD dt := by
  cases dt with
  | mk i tx st c cs => rw [sizeD]; omega

/-- Every tree has at least one visible node. -/
theorem visCountD_pos (dt : DTree) : 1 ≤ visCountD dt := by
  cases dt with
  | mk i tx st c cs => rw [visCountD]; omega

mutual

/-- The pre-order id list of a tree has one entry per node. -/
theorem flatD_length (dt : DTree) : (flatD dt).length = sizeD dt := by
  cases dt with
  | mk i tx st c cs =>
    rw [flatD, sizeD, List.length_cons, flatF_length cs]
    omega

/-- The pre-order id list of a forest has one entry per node. -/
theorem flatF_length (ts : List DTree) : (flatF ts).length = sizeF ts := by
  cases ts with
  | nil => rfl
  | cons t ts =>
    rw [flatF, sizeF, List.length_append, flatD_length t, flatF_length ts]

end

/-- `rootIds` unfolds on cons. -/
theorem rootIds_cons (t : DTree) (ts : List DTree) :
    rootIds (t :: ts) = t.nid :: rootIds ts := rfl

mutual

/-- `getAllDescendantIds` visits exactly the collapse-visible proper
descendants of a realised tree node, given enough fuel. -/
theorem desc_length_tree (ns : List MNode) :
    (fuel : Nat) → (dt : DTree) → MatchesD ns dt → sizeD dt ≤ fuel →
      (getAllDescendantIds fuel ns dt.nid).length = visCountD dt - 1
  | fuel, .mk i tx st c cs, hm, hfuel => by
    obtain ⟨⟨n, hn, _, _, hcoll, hch⟩, hforest⟩ := hm
    have hszeq : sizeD (DTree.mk i tx st c cs) = 1 + sizeF cs := by rw [sizeD]
    have hf1 : 1 ≤ fuel := le_trans (sizeD_pos _) hfuel
    obtain ⟨f, rfl⟩ : ∃ f, fuel = f + 1 := ⟨fuel - 1, by omega⟩
    rw [show DTree.nid (.mk i tx st c cs) = i from rfl]
    simp only [getAllDescendantIds, hn]
    by_cases hstop : n.childrenIds.isEmpty = true ∨ n.isCollapsed = true
    · rw [if_pos hstop]
      rcases hstop with hemp | hcol
      · have : cs = [] := by
          rw [hch] at hemp
          cases cs with
          | nil => rfl
          | cons a b => simp [rootIds] at hemp
        subst this
        rw [visCountD]
        simp [visCountF]
      · rw [visCountD]
        rw [hcoll] at hcol
        rw [hcol]
        simp
    · rw [if_neg hstop]
      push_neg at hstop
      have hcfalse : c = false := by
        rcases hstop with ⟨_, h2⟩
        rw [hcoll] at h2
        simpa using h2
      rw [hch]
      have hlen := desc_length_forest ns f cs hforest (by omega)
      rw [hlen, visCountD, hcfalse]
      simp

/-- Forest version of `desc_length_tree`: the flat-mapped
`childId :: descendants` blocks have as many entries as the forest has
collapse-visible nodes. -/
theorem desc_length_forest (ns : List MNode) :
    (fuel : Nat) → (ts : List DTree) → MatchesF ns ts → sizeF ts ≤ fuel →
      ((rootIds ts).flatMap (fun cid => cid :: getAllDescendantIds fuel ns cid)).length =
        visCountF ts
  | _, [], _, _ => rfl
  | fuel, t :: ts, hm, hfuel => by
    obtain ⟨hmt, hmts⟩ := hm
    have hszeq : sizeF (t :: ts) = sizeD t + sizeF ts := by rw [sizeF]
    have hpos := sizeD_pos t
    rw [rootIds_cons, List.flatMap_cons, List.length_append, List.length_cons]
    rw [desc_length_tree ns fuel t hmt (by omega)]
    rw [desc_length_forest ns fuel ts hmts (by omega), visCountF]
    have := visCountD_pos t
    omega

end


mutual

/-- Each default (style-including) export of a realised tree node emits
exactly one newline — hence one line — per collapse-visible node of the
subtree, provided no text or style smuggles a newline. -/
theorem export_count_tree (ns : List MNode)
    (hNL : ∀ n ∈ ns, '\n' ∉ n.text.data ∧ '\n' ∉ n.style.data) :
    (fuel : Nat) → (dt : DTree) → (depth : Nat) → MatchesD ns dt → sizeD dt ≤ fuel →
      (buildMarkdownRec fuel ns dt.nid depth false).count '\n' = visCountD dt
  | fuel, .mk i tx st c cs, depth, hm, hfuel => by
    obtain ⟨⟨n, hn, htx, hst, hcoll, hch⟩, hforest⟩ := hm
    have hszeq : sizeD (.mk i tx st c cs) = 1 + sizeF cs := by rw [sizeD]
    have hf1 : 1 ≤ fuel := le_trans (sizeD_pos _) hfuel
    obtain ⟨f, rfl⟩ : ∃ f, fuel = f + 1 := ⟨fuel - 1, by omega⟩
    rw [show DTree.nid (.mk i tx st c cs) = i from rfl]
    simp only [buildMarkdownRec, hn]
    have hNLn := hNL n (getN_mem hn)
    have h0 : (List.replicate (2 * depth) ' ').count '\n' = 0 := by
      simp [List.count_replicate]
    have h1 : n.text.data.count '\n' = 0 := List.count_eq_zero.mpr hNLn.1
    rw [hcoll, hch]
    cases c with
    | true =>
      rw [if_pos (show (true = true) from rfl), visCountD]
      simp only [List.count_append, List.count_cons, h0, h1, true_and, if_true]
      by_cases hsty : (¬n.style = "" ∧ ¬n.style = "rect")
      · rw [if_pos hsty]
        simp [mkStyleTag, List.count_cons, List.count_append,
          List.count_eq_zero.mpr hNLn.2]
      · rw [if_neg hsty]
        simp
    | false =>
      rw [if_neg (show ¬ (false = true) by simp), visCountD]
      simp only [List.count_append, List.count_cons, h0, h1, true_and, if_true]
      rw [export_count_forest ns hNL f cs (depth + 1) hforest (by omega)]
      by_cases hsty : (¬n.style = "" ∧ ¬n.style = "rect")
      · rw [if_pos hsty]
        simp [mkStyleTag, List.count_cons, List.count_append,
          List.count_eq_zero.mpr hNLn.2]
        omega
      · rw [if_neg hsty]
        simp
        omega

/-- Forest version of `export_count_tree`. -/
theorem export_count_forest (ns : List MNode)
    (hNL : ∀ n ∈ ns, '\n' ∉ n.text.data ∧ '\n' ∉ n.style.data) :
    (fuel : Nat) → (ts : List DTree) → (depth : Nat) → MatchesF ns ts → sizeF ts ≤ fuel →
      ((rootIds ts).flatMap (fun cid => buildMarkdownRec fuel ns cid depth false)).count '\n' =
        visCountF ts
  | _, [], _, _, _ => rfl
  | fuel, t :: ts, depth, hm, hfuel => by
    obtain ⟨hmt, hmts⟩ := hm
    have hszeq : sizeF (t :: ts) = sizeD t + sizeF ts := by rw [sizeF]
    have hpos := sizeD_pos t
    rw [rootIds_cons, List.flatMap_cons, List.count_append]
    rw [export_count_tree ns hNL fuel t depth hmt (by omega)]
    rw [export_count_forest ns hNL fuel ts depth hmts (by omega), visCountF]

end

/-- C3 (amended): for every document realising an abstract tree, the
default export emits exactly one line (newline) per node reachable through
non-collapsed parents — `visCountD`, which also equals
`1 + |getAllDescendantIds(root)|` — rather than one line per node. -/
theorem c3_export_lines_amended (m : MM) (dt : DTree) (hrep : DocRepr m.nodes dt)
    (hNL : ∀ n ∈ m.nodes, '\n' ∉ n.text.data ∧ '\n' ∉ n.style.data) :
    (exportToMarkdown m false).data.count '\n' = visCountD dt ∧
    visCountD dt =
      1 + (getAllDescendantIds m.nodes.length m.nodes ROOT_NODE_ID).length := by
  have hsz : sizeD dt = m.nodes.length := by
    rw [← flatD_length dt, ← hrep.perm.length_eq, List.length_map]
  constructor
  · show (buildMarkdownRec m.nodes.length m.nodes ROOT_NODE_ID 0 false).count '\n' = _
    rw [← hrep.rooted]
    exact export_count_tree m.nodes hNL m.nodes.length dt 0 hrep.real (by omega)
  · rw [← hrep.rooted]
    rw [desc_length_tree m.nodes m.nodes.length dt hrep.real (by omega)]
    have := visCountD_pos dt
    omega

/-- Witness for `c3_export_lines_amended` on `docCollapsedChild` and its
abstract tree. -/
theorem c3_export_lines_amended_witness :
    (exportToMarkdown docCollapsedChild false).data.count '\n' = visCountD dtCollapsedChild ∧
    visCountD dtCollapsedChild =
      1 + (getAllDescendantIds docCollapsedChild.nodes.length docCollapsedChild.nodes
        ROOT_NODE_ID).length :=
  c3_export_lines_amended docCollapsedChild dtCollapsedChild
    { real := by
        simp only [dtCollapsedChild, MatchesD, MatchesF, rootIds]
        exact ⟨⟨mkN 0 "A" none [1] false "rect" (0, 0), by decide, rfl, rfl, rfl, by decide⟩,
          ⟨⟨mkN 1 "a" (some 0) [2] true "rect" (10, 0), by decide, rfl, rfl, rfl, by decide⟩,
            ⟨⟨mkN 2 "b" (some 1) [] false "rect" (20, 0), by decide, rfl, rfl, rfl, by decide⟩,
              trivial⟩,
            trivial⟩,
          trivial⟩
      rooted := rfl
      perm := by
        simp only [dtCollapsedChild, flatD, flatF]
        decide
      nodup := by
        simp only [dtCollapsedChild, flatD, flatF]
        decide }
    (by decide)

/-! ## C1 — round-trip: node-map lemmas -/

/-- A successful lookup returns a node carrying the looked-up id. -/
theorem getN_id {ns : List MNode} {i : Nat} {n : MNode} (h : getN ns i = some n) :
    n.id = i := by
  induction ns with
  | nil => cases h
  | cons a t ih =>
    rw [getN] at h
    by_cases ha : a.id = i
    · rw [if_pos ha] at h
      cases h
      exact ha
    · rw [if_neg ha] at h
      exact ih h

/-- Lookup misses when no node carries the id. -/
theorem getN_none {ns : List MNode} {i : Nat} (h : ∀ n ∈ ns, n.id ≠ i) :
    getN ns i = none := by
  induction ns with
  | nil => rfl
  | cons a t ih =>
    rw [getN, if_neg (h a (List.mem_cons_self a t))]
    exact ih (fun n hn => h n (List.mem_cons_of_mem a hn))

/-- Lookup hits on every id present in the map. -/
theorem getN_isSome_of_mem {ns : List MNode} {i : Nat}
    (h : i ∈ ns.map MNode.id) : (getN ns i).isSome := by
  induction ns with
  | nil => simp at h
  | cons a t ih =>
    rw [getN]
    by_cases ha : a.id = i
    · rw [if_pos ha]; rfl
    · rw [if_neg ha]
      simp only [List.map_cons, List.mem_cons] at h
      exact ih (h.resolve_left (fun he => ha he.symm))

/-- A hit id is present in the map's id list. -/
theorem mem_map_id_of_getN {ns : List MNode} {i : Nat} {n : MNode}
    (h : getN ns i = some n) : i ∈ ns.map MNode.id :=
  getN_id h ▸ List.mem_map_of_mem MNode.id (getN_mem h)

/-- Lookup over an append searches left-to-right. -/
theorem getN_append (ns1 ns2 : List MNode) (i : Nat) :
    getN (ns1 ++ ns2) i =
      (match getN ns1 i with | some n => some n | none => getN ns2 i) := by
  induction ns1 with
  | nil => rfl
  | cons a t ih =>
    rw [List.cons_append, getN, getN]
    by_cases ha : a.id = i
    · rw [if_pos ha, if_pos ha]
    · rw [if_neg ha, if_neg ha]
      exact ih

/-- Lookup after an id-preserving keyed update. -/
theorem getN_updNode (ns : List MNode) (i j : Nat) (f : MNode → MNode)
    (hf : ∀ n, (f n).id = n.id) :
    getN (updNode ns i f) j =
      (getN ns j).map (fun n => if n.id = i then f n else n) := by
  induction ns with
  | nil => rfl
  | cons a t ih =>
    rw [show updNode (a :: t) i f =
      (if a.id = i then f a else a) :: updNode t i f from rfl]
    rw [getN, getN]
    by_cases ha : a.id = j
    · have hb : (if a.id = i then f a else a).id = j := by
        split
        · rw [hf]; exact ha
        · exact ha
      rw [if_pos hb, if_pos ha]
      rfl
    · have hb : ¬ (if a.id = i then f a else a).id = j := by
        split
        · rw [hf]; exact ha
        · exact ha
      rw [if_neg hb, if_neg ha]
      exact ih

/-- The id list survives a keyed update with an id-preserving function. -/
theorem map_id_updNode (ns : List MNode) (i : Nat) (f : MNode → MNode)
    (hf : ∀ n, (f n).id = n.id) :
    (updNode ns i f).map MNode.id = ns.map MNode.id := by
  induction ns with
  | nil => rfl
  | cons a t ih =>
    rw [show updNode (a :: t) i f =
      (if a.id = i then f a else a) :: updNode t i f from rfl]
    rw [List.map_cons, List.map_cons, ih]
    congr 1
    split
    · rw [hf]
    · rfl

/-- Lookup is blind to deletions outside the looked-up id. -/
theorem getN_filter_notmem (ns : List MNode) (D : List Nat) (j : Nat) (hj : j ∉ D) :
    getN (ns.filter (fun n => n.id ∉ D)) j = getN ns j := by
  induction ns with
  | nil => rfl
  | cons a t ih =>
    rw [List.filter_cons]
    by_cases hd : a.id ∈ D
    · have ha : ¬ a.id = j := fun he => hj (he ▸ hd)
      rw [if_neg (by simpa using hd), getN, if_neg ha]
      exact ih
    · rw [if_pos (by simpa using hd), getN, getN]
      by_cases ha : a.id = j
      · rw [if_pos ha, if_pos ha]
      · rw [if_neg ha, if_neg ha]
        exact ih

/-! ## C1 — skeleton (position-blind) congruence -/

/-- A keyed update whose body acts through the skeleton rewrites the
skeleton map pointwise. -/
theorem map_fullSkel_updNode (ns : List MNode) (i : Nat) (f : MNode → MNode)
    (F : Nat × String × Option Nat × List Nat × Bool × String →
      Nat × String × Option Nat × List Nat × Bool × String)
    (hf : ∀ n, fullSkel (f n) = F (fullSkel n)) :
    (updNode ns i f).map fullSkel =
      (ns.map fullSkel).map (fun s => if s.1 = i then F s else s) := by
  induction ns with
  | nil => rfl
  | cons a t ih =>
    rw [show updNode (a :: t) i f =
      (if a.id = i then f a else a) :: updNode t i f from rfl]
    rw [List.map_cons, List.map_cons, List.map_cons, ih]
    congr 1
    have hid : (fullSkel a).1 = a.id := rfl
    by_cases ha : a.id = i
    · rw [if_pos ha, if_pos (hid.trans ha), hf]
    · rw [if_neg ha, if_neg (fun he => ha (hid ▸ he))]

/-- A position-only keyed update leaves the skeleton map unchanged. -/
theorem map_fullSkel_updPos (ns : List MNode) (i : Nat) (p : ℚ × ℚ) :
    (updateNodePosition ns i p).map fullSkel = ns.map fullSkel := by
  rw [show updateNodePosition ns i p =
    updNode ns i (fun n => { n with position := p }) from rfl]
  rw [map_fullSkel_updNode ns i (fun n => { n with position := p }) id (fun n => rfl)]
  simp

/-- Skeleton-equal maps have pointwise skeleton-equal lookups. -/
theorem getN_skel {ns1 ns2 : List MNode}
    (h : ns1.map fullSkel = ns2.map fullSkel) (i : Nat) :
    (getN ns1 i).map fullSkel = (getN ns2 i).map fullSkel := by
  induction ns1 generalizing ns2 with
  | nil =>
    cases ns2 with
    | nil => rfl
    | cons b t2 => simp at h
  | cons a t1 ih =>
    cases ns2 with
    | nil => simp at h
    | cons b t2 =>
      rw [List.map_cons, List.map_cons] at h
      have hhead : fullSkel a = fullSkel b := (List.cons.injEq _ _ _ _ ▸ h).1
      have htail : t1.map fullSkel = t2.map fullSkel := (List.cons.injEq _ _ _ _ ▸ h).2
      have hid : a.id = b.id := congrArg Prod.fst hhead
      rw [getN, getN]
      by_cases ha : a.id = i
      · rw [if_pos ha, if_pos (hid ▸ ha)]
        simpa using hhead
      · rw [if_neg ha, if_neg (fun he => ha (hid ▸ he))]
        exact ih htail

/-- Skeleton-equal maps have equal id lists. -/
theorem map_id_of_skel {ns1 ns2 : List MNode}
    (h : ns1.map fullSkel = ns2.map fullSkel) :
    ns1.map MNode.id = ns2.map MNode.id := by
  have h1 : (ns1.map fullSkel).map Prod.fst = (ns2.map fullSkel).map Prod.fst := by
    rw [h]
  simpa [List.map_map, Function.comp] using h1

mutual

/-- Tree realisation only reads the skeleton of the node map. -/
theorem matchesD_skel {ns1 ns2 : List MNode}
    (h : ns1.map fullSkel = ns2.map fullSkel) :
    (dt : DTree) → MatchesD ns1 dt → MatchesD ns2 dt
  | .mk i tx st c cs, hm => by
    obtain ⟨⟨n, hn, htx, hst, hcoll, hch⟩, hforest⟩ := hm
    refine ⟨?_, matchesF_skel h cs hforest⟩
    have hg := getN_skel h i
    rw [hn] at hg
    cases hgn : getN ns2 i with
    | none => rw [hgn] at hg; cases hg
    | some n2 =>
      rw [hgn] at hg
      have hsk : fullSkel n = fullSkel n2 := by simpa using hg
      simp only [fullSkel, Prod.mk.injEq] at hsk
      obtain ⟨_, htx2, _, hch2, hcol2, hst2⟩ := hsk
      exact ⟨n2, rfl, htx2 ▸ htx, hst2 ▸ hst, hcol2 ▸ hcoll, hch2 ▸ hch⟩

/-- Forest version of `matchesD_skel`. -/
theorem matchesF_skel {ns1 ns2 : List MNode}
    (h : ns1.map fullSkel = ns2.map fullSkel) :
    (ts : List DTree) → MatchesF ns1 ts → MatchesF ns2 ts
  | [], _ => trivial
  | t :: ts, hm => ⟨matchesD_skel h t hm.1, matchesF_skel h ts hm.2⟩

end

mutual

/-- Tree realisation only reads the map at the tree's own ids. -/
theorem matchesD_congr {ns1 ns2 : List MNode} :
    (dt : DTree) → (∀ j ∈ flatD dt, getN ns2 j = getN ns1 j) →
    MatchesD ns1 dt → MatchesD ns2 dt
  | .mk i tx st c cs, hj, hm => by
    obtain ⟨⟨n, hn, htx, hst, hcoll, hch⟩, hforest⟩ := hm
    refine ⟨⟨n, ?_, htx, hst, hcoll, hch⟩,
      matchesF_congr cs (fun j hjm => hj j ?_) hforest⟩
    · rw [hj i (by rw [flatD]; exact List.mem_cons_self _ _), hn]
    · rw [flatD]; exact List.mem_cons_of_mem _ hjm

/-- Forest version of `matchesD_congr`. -/
theorem matchesF_congr {ns1 ns2 : List MNode} :
    (ts : List DTree) → (∀ j ∈ flatF ts, getN ns2 j = getN ns1 j) →
    MatchesF ns1 ts → MatchesF ns2 ts
  | [], _, _ => trivial
  | t :: ts, hj, hm => by
    rw [flatF] at hj
    exact ⟨matchesD_congr t (fun j hjm => hj j (List.mem_append_left _ hjm)) hm.1,
      matchesF_congr ts (fun j hjm => hj j (List.mem_append_right _ hjm)) hm.2⟩

end

/-- Arena representation only reads the skeleton of the node map. -/
theorem docRepr_skel {ns1 ns2 : List MNode} (h : ns1.map fullSkel = ns2.map fullSkel)
    {dt : DTree} (hr : DocRepr ns1 dt) : DocRepr ns2 dt :=
  { real := matchesD_skel h dt hr.real
    rooted := hr.rooted
    perm := (map_id_of_skel h) ▸ hr.perm
    nodup := hr.nodup }

/-! ## C1 — graft surgery -/

/-- Pre-order ids of an appended forest. -/
theorem flatF_append (a b : List DTree) : flatF (a ++ b) = flatF a ++ flatF b := by
  induction a with
  | nil => rfl
  | cons t ts ih => rw [List.cons_append, flatF, flatF, ih, List.append_assoc]

/-- Root ids of an appended forest. -/
theorem rootIds_append (a b : List DTree) :
    rootIds (a ++ b) = rootIds a ++ rootIds b := by
  simp [rootIds]

/-- Grafting preserves the root id. -/
theorem graftD_nid (p : Nat) (us : List DTree) (t : DTree) :
    (graftD p us t).nid = t.nid := by
  cases t with
  | mk i tx st c cs =>
    simp only [graftD]
    split <;> rfl

/-- Grafting below a forest preserves its root ids. -/
theorem rootIds_graftF (p : Nat) (us : List DTree) (ts : List DTree) :
    rootIds (graftF p us ts) = rootIds ts := by
  induction ts with
  | nil => rfl
  | cons t ts ih =>
    simp only [graftF]
    rw [rootIds_cons, rootIds_cons, graftD_nid, ih]

/-- `graftF` distributes over appends. -/
theorem graftF_append (p : Nat) (us : List DTree) (a b : List DTree) :
    graftF p us (a ++ b) = graftF p us a ++ graftF p us b := by
  induction a with
  | nil => rfl
  | cons t ts ih =>
    rw [List.cons_append]
    simp only [graftF]
    rw [ih, List.cons_append]

mutual

/-- Grafting at an absent id is the identity. -/
theorem graftD_not_mem (p : Nat) (us : List DTree) :
    (t : DTree) → p ∉ flatD t → graftD p us t = t
  | .mk i tx st c cs, hp => by
    rw [flatD] at hp
    have hip : ¬ i = p := fun he => hp (List.mem_cons.mpr (Or.inl he.symm))
    simp only [graftD, if_neg hip]
    rw [graftF_not_mem p us cs (fun hm => hp (List.mem_cons.mpr (Or.inr hm)))]

/-- Forest version of `graftD_not_mem`. -/
theorem graftF_not_mem (p : Nat) (us : List DTree) :
    (ts : List DTree) → p ∉ flatF ts → graftF p us ts = ts
  | [], _ => rfl
  | t :: ts, hp => by
    rw [flatF, List.mem_append] at hp
    push_neg at hp
    simp only [graftF]
    rw [graftD_not_mem p us t hp.1, graftF_not_mem p us ts hp.2]

end

mutual

/-- Grafting an empty forest is the identity. -/
theorem graftD_nil (p : Nat) : (t : DTree) → graftD p [] t = t
  | .mk i tx st c cs => by
    by_cases hip : i = p
    · simp only [graftD, if_pos hip, List.append_nil]
    · simp only [graftD, if_neg hip]
      rw [graftF_nil p cs]

/-- Forest version of `graftD_nil`. -/
theorem graftF_nil (p : Nat) : (ts : List DTree) → graftF p [] ts = ts
  | [] => rfl
  | t :: ts => by
    simp only [graftF]
    rw [graftD_nil, graftF_nil p ts]

end

mutual

/-- Consecutive grafts at the same id concatenate. -/
theorem graftD_comp (p : Nat) (us1 us2 : List DTree) :
    (t : DTree) → graftD p us2 (graftD p us1 t) = graftD p (us1 ++ us2) t
  | .mk i tx st c cs => by
    by_cases hip : i = p
    · simp only [graftD, if_pos hip, List.append_assoc]
    · simp only [graftD, if_neg hip]
      rw [graftF_comp p us1 us2 cs]

/-- Forest version of `graftD_comp`. -/
theorem graftF_comp (p : Nat) (us1 us2 : List DTree) :
    (ts : List DTree) → graftF p us2 (graftF p us1 ts) = graftF p (us1 ++ us2) ts
  | [] => rfl
  | t :: ts => by
    simp only [graftF]
    rw [graftD_comp, graftF_comp p us1 us2 ts]

end

mutual

/-- Pre-order ids after a graft: the grafted forest's ids arrive, as a
permutation, on top of the host's (host ids distinct, graft point
present). -/
theorem flat_graftD (p : Nat) (us : List DTree) :
    (t : DTree) → (flatD t).Nodup → p ∈ flatD t →
      (flatD (graftD p us t)).Perm (flatD t ++ flatF us)
  | .mk i tx st c cs, hnd, hp => by
    by_cases hip : i = p
    · simp only [graftD, if_pos hip]
      rw [flatD, flatD, flatF_append]
      simp
    · simp only [graftD, if_neg hip]
      rw [flatD] at hnd hp
      rw [flatD, flatD]
      have hpf : p ∈ flatF cs :=
        (List.mem_cons.mp hp).resolve_left (fun he => hip he.symm)
      have hnd' : (flatF cs).Nodup := (List.nodup_cons.mp hnd).2
      rw [List.cons_append]
      exact (flat_graftF p us cs hnd' hpf).cons i

/-- Forest version of `flat_graftD`. -/
theorem flat_graftF (p : Nat) (us : List DTree) :
    (ts : List DTree) → (flatF ts).Nodup → p ∈ flatF ts →
      (flatF (graftF p us ts)).Perm (flatF ts ++ flatF us)
  | [], _, hp => absurd hp (by rw [flatF]; exact List.not_mem_nil p)
  | t :: ts, hnd, hp => by
    rw [flatF] at hnd hp
    simp only [graftF]
    rw [flatF, flatF]
    rcases List.mem_append.mp hp with hpt | hpts
    · have hdisj : List.Disjoint (flatD t) (flatF ts) :=
        List.disjoint_of_nodup_append hnd
      have hnott : p ∉ flatF ts := fun hmem => hdisj hpt hmem
      rw [graftF_not_mem p us ts hnott]
      have hperm := flat_graftD p us t (List.Nodup.of_append_left hnd) hpt
      have h1 : (flatD (graftD p us t) ++ flatF ts).Perm
          ((flatD t ++ flatF us) ++ flatF ts) := hperm.append_right _
      have h2 : ((flatD t ++ flatF us) ++ flatF ts).Perm
          ((flatD t ++ flatF ts) ++ flatF us) := by
        rw [List.append_assoc, List.append_assoc]
        exact List.Perm.append_left _ List.perm_append_comm
      exact h1.trans h2
    · have hdisj : List.Disjoint (flatD t) (flatF ts) :=
        List.disjoint_of_nodup_append hnd
      have hnott : p ∉ flatD t := fun hmem => hdisj hmem hpts
      rw [graftD_not_mem p us t hnott]
      have hperm := flat_graftF p us ts (List.Nodup.of_append_right hnd) hpts
      have h1 : (flatD t ++ flatF (graftF p us ts)).Perm
          (flatD t ++ (flatF ts ++ flatF us)) := List.Perm.append_left _ hperm
      rw [← List.append_assoc] at h1
      exact h1

end

mutual

/-- Grafting a forest below a freshly grafted leaf equals grafting the
filled leaf directly, provided the leaf's id is fresh for the host. -/
theorem graftD_into_fresh (q : Nat) (us : List DTree) (ltx lst : String) (p : Nat) :
    (t : DTree) → q ∉ flatD t →
      graftD q us (graftD p [DTree.mk q ltx lst false []] t) =
        graftD p [DTree.mk q ltx lst false us] t
  | .mk i tx st c cs, hq => by
    rw [flatD] at hq
    have hiq : ¬ i = q := fun he => hq (List.mem_cons.mpr (Or.inl he.symm))
    have hqf : q ∉ flatF cs := fun hm => hq (List.mem_cons.mpr (Or.inr hm))
    by_cases hip : i = p
    · simp only [graftD, if_pos hip, if_neg hiq]
      rw [graftF_append, graftF_not_mem q us cs hqf]
      simp [graftF, graftD]
    · simp only [graftD, if_neg hip, if_neg hiq]
      rw [graftF_into_fresh q us ltx lst p cs hqf]

/-- Forest version of `graftD_into_fresh`. -/
theorem graftF_into_fresh (q : Nat) (us : List DTree) (ltx lst : String) (p : Nat) :
    (ts : List DTree) → q ∉ flatF ts →
      graftF q us (graftF p [DTree.mk q ltx lst false []] ts) =
        graftF p [DTree.mk q ltx lst false us] ts
  | [], _ => rfl
  | t :: ts, hq => by
    rw [flatF, List.mem_append] at hq
    push_neg at hq
    simp only [graftF]
    rw [graftD_into_fresh q us ltx lst p t hq.1,
      graftF_into_fresh q us ltx lst p ts hq.2]

end

/-! ## C1 — skeleton effect of the add path -/

/-- Freshness of an id transfers along equal id lists. -/
theorem fresh_of_map_id {ns1 ns2 : List MNode}
    (h : ns1.map MNode.id = ns2.map MNode.id)
    {k : Nat} (hf : ∀ n ∈ ns2, n.id ≠ k) : ∀ n ∈ ns1, n.id ≠ k := by
  intro n hn he
  have hk : k ∈ ns2.map MNode.id := h ▸ (he ▸ List.mem_map_of_mem MNode.id hn)
  obtain ⟨n2, hn2, hid⟩ := List.mem_map.mp hk
  exact hf n2 hn2 hid

/-- Lookup hit/miss agrees between skeleton-equal maps. -/
theorem getN_isSome_skel {ns1 ns2 : List MNode}
    (h : ns1.map fullSkel = ns2.map fullSkel) (i : Nat) :
    (getN ns1 i).isSome = (getN ns2 i).isSome := by
  have hg := getN_skel h i
  cases h1 : getN ns1 i <;> cases h2 : getN ns2 i <;>
    rw [h1, h2] at hg <;> simp_all

/-- The position-translating fold of `moveNodeAndChildren` leaves the
skeleton map unchanged. -/
theorem foldl_move_skel (δ : ℚ × ℚ) (ids : List Nat) (acc : List MNode) :
    (ids.foldl (fun acc i =>
      match getN acc i with
      | some n => updateNodePosition acc i (n.position.1 + δ.1, n.position.2 + δ.2)
      | none => acc) acc).map fullSkel = acc.map fullSkel := by
  induction ids generalizing acc with
  | nil => rfl
  | cons i ids ih =>
    rw [List.foldl_cons, ih]
    cases hg : getN acc i with
    | some n => exact map_fullSkel_updPos acc i _
    | none => rfl

/-- `moveNodeAndChildren` only rewrites positions: the result is the same
state with a skeleton-equal node map. -/
theorem moveNodeAndChildren_skel (m : MM) (r : Nat) (δ : ℚ × ℚ) (g : List Nat)
    (d : Option Nat) :
    ∃ ns', moveNodeAndChildren m r δ g d = { m with nodes := ns' } ∧
      ns'.map fullSkel = m.nodes.map fullSkel := by
  unfold moveNodeAndChildren
  split
  · exact ⟨m.nodes, rfl, rfl⟩
  · exact ⟨_, rfl, foldl_move_skel δ _ m.nodes⟩

/-- Shared tail of `programmaticAddNode`: from any position-only
pre-adjusted state, `createNode` appends the fresh child and pushes it onto
the parent's `childrenIds`. -/
theorem progAdd_final (m mstep : MM) (pid : Nat) (text style : String) (pos : ℚ × ℚ)
    (ns0 : List MNode) (hstep : mstep = { m with nodes := ns0 })
    (hskel : ns0.map fullSkel = m.nodes.map fullSkel)
    (hfresh : ∀ n ∈ m.nodes, n.id ≠ m.nextId + 1)
    (hp : (getN m.nodes pid).isSome) :
    ∃ ns', ((createNode mstep text (some pid) pos style).1,
        some (createNode mstep text (some pid) pos style).2) =
      (({ m with nodes := ns', nextId := m.nextId + 1 } : MM), some (m.nextId + 1)) ∧
      ns'.map fullSkel =
        (updNode (m.nodes ++ [childSkelNode (m.nextId + 1) pid text style]) pid
          (pushChild (m.nextId + 1))).map fullSkel := by
  subst hstep
  have hfresh0 : ∀ n ∈ ns0, n.id ≠ m.nextId + 1 :=
    fresh_of_map_id (map_id_of_skel hskel) hfresh
  have hnone : getN ns0 (m.nextId + 1) = none := getN_none hfresh0
  have hp0 : (getN ns0 pid).isSome := by rw [getN_isSome_skel hskel]; exact hp
  obtain ⟨pn, hpn0⟩ := Option.isSome_iff_exists.mp hp0
  have hc : ((createNode { m with nodes := ns0 } text (some pid) pos style).1,
        some (createNode { m with nodes := ns0 } text (some pid) pos style).2) =
      (({ m with
            nodes := updNode (ns0 ++ [newChildNode (m.nextId + 1) pid text style pos])
              pid (pushChild (m.nextId + 1)),
            nextId := m.nextId + 1 } : MM), some (m.nextId + 1)) := by
    simp [createNode, insertNode, newChildNode, pushChild, hnone, hpn0, getN_append]
    rfl
  refine ⟨_, hc, ?_⟩
  rw [map_fullSkel_updNode _ _ _
        (fun s => (s.1, s.2.1, s.2.2.1, s.2.2.2.1 ++ [m.nextId + 1], s.2.2.2.2))
        (fun n => rfl),
      map_fullSkel_updNode _ _ _
        (fun s => (s.1, s.2.1, s.2.2.1, s.2.2.2.1 ++ [m.nextId + 1], s.2.2.2.2))
        (fun n => rfl)]
  simp only [List.map_append, hskel]
  rfl

/-- `moveFirstChildBy` only moves positions. -/
theorem moveFirstChildBy_skel (m : MM) (py : ℚ) (fid : Nat) (oy : ℚ) :
    ∃ ns0, moveFirstChildBy m py fid oy = { m with nodes := ns0 } ∧
      ns0.map fullSkel = m.nodes.map fullSkel := by
  unfold moveFirstChildBy
  cases hg : getN m.nodes fid with
  | none => exact ⟨m.nodes, rfl, rfl⟩
  | some firstChild => exact moveNodeAndChildren_skel m fid _ [] none

/-- `addStep` only moves positions: its state component is the input state
with a skeleton-equal node map. -/
theorem addStep_shape (m : MM) (py : ℚ) (cids : List Nat) :
    ∃ ns0, (addStep m py cids).1 = { m with nodes := ns0 } ∧
      ns0.map fullSkel = m.nodes.map fullSkel := by
  unfold addStep
  split
  · exact ⟨m.nodes, rfl, rfl⟩
  · split
    · show ∃ ns0, (match cids.head? with
          | some firstId => moveFirstChildBy m py firstId (-40)
          | none => m) = { m with nodes := ns0 } ∧
        ns0.map fullSkel = m.nodes.map fullSkel
      cases cids.head? with
      | none => exact ⟨m.nodes, rfl, rfl⟩
      | some firstId => exact moveFirstChildBy_skel m py firstId (-40)
    · exact ⟨m.nodes, rfl, rfl⟩

/-- Either layout branch of `programmaticAddNode` ends by creating the
fresh child on the (position-only adjusted) stepped state. -/
theorem progAdd_branch (m : MM) (pid : Nat) (text style : String) (py : ℚ)
    (cids : List Nat) (pos : ℚ × ℚ)
    (hfresh : ∀ n ∈ m.nodes, n.id ≠ m.nextId + 1)
    (hp : (getN m.nodes pid).isSome) :
    ∃ ns', ((createNode (addStep m py cids).1 text (some pid) pos style).1,
        some (createNode (addStep m py cids).1 text (some pid) pos style).2) =
      (({ m with nodes := ns', nextId := m.nextId + 1 } : MM), some (m.nextId + 1)) ∧
      ns'.map fullSkel =
        (updNode (m.nodes ++ [childSkelNode (m.nextId + 1) pid text style]) pid
          (pushChild (m.nextId + 1))).map fullSkel := by
  obtain ⟨ns0, hs1, hs2⟩ := addStep_shape m py cids
  exact progAdd_final m _ pid text style pos ns0 hs1 hs2 hfresh hp

/-- Skeleton-level effect of `programmaticAddNode` on an existing parent:
whatever the layout branch taken, the result is the input state with one
fresh leaf appended under the parent and the counter advanced. -/
theorem progAdd_effect (m : MM) (pid : Nat) (text style : String)
    (hfresh : ∀ n ∈ m.nodes, n.id ≠ m.nextId + 1)
    (hp : (getN m.nodes pid).isSome) :
    ∃ ns', programmaticAddNode m (some pid) text style =
      ({ m with nodes := ns', nextId := m.nextId + 1 }, some (m.nextId + 1)) ∧
      ns'.map fullSkel =
        (updNode (m.nodes ++ [childSkelNode (m.nextId + 1) pid text style]) pid
          (pushChild (m.nextId + 1))).map fullSkel := by
  obtain ⟨parentNode, hpn⟩ := Option.isSome_iff_exists.mp hp
  simp only [programmaticAddNode, hpn]
  by_cases hbr : (parentNode.id = ROOT_NODE_ID ∧ m.layoutMode = "bidirectional")
  · rw [if_pos hbr]
    exact progAdd_branch m pid text style _ _ _ hfresh hp
  · rw [if_neg hbr]
    exact progAdd_branch m pid text style _ _ _ hfresh hp

/-! ## C1 — realisation of a grafted leaf -/

/-- Lookups away from the parent and the fresh id see nothing of a child
insertion. -/
theorem getN_graft_env_other (ns : List MNode) (p : Nat) (nw : MNode) (j : Nat)
    (hjn : j ≠ nw.id) (hjp : j ≠ p) :
    getN (updNode (ns ++ [nw]) p (pushChild nw.id)) j = getN ns j := by
  rw [getN_updNode (ns ++ [nw]) p j (pushChild nw.id) (fun n => rfl), getN_append]
  cases hg : getN ns j with
  | some n =>
    have hid : n.id = j := getN_id hg
    simp [hid, hjp]
  | none =>
    show (getN [nw] j).map _ = none
    rw [getN, if_neg (fun he => hjn he.symm)]
    rfl

/-- The freshly appended node is found verbatim. -/
theorem getN_graft_env_new (ns : List MNode) (p : Nat) (nw : MNode)
    (hfresh : ∀ n ∈ ns, n.id ≠ nw.id) (hpq : ¬ nw.id = p) :
    getN (updNode (ns ++ [nw]) p (pushChild nw.id)) nw.id = some nw := by
  rw [getN_updNode (ns ++ [nw]) p nw.id (pushChild nw.id) (fun n => rfl),
    getN_append, getN_none hfresh]
  show (getN [nw] nw.id).map _ = some nw
  rw [getN, if_pos rfl]
  simp [hpq]

/-- The parent is found with the fresh id appended to its children. -/
theorem getN_graft_env_parent (ns : List MNode) (p : Nat) (nw : MNode) (n : MNode)
    (hg : getN ns p = some n) :
    getN (updNode (ns ++ [nw]) p (pushChild nw.id)) p = some (pushChild nw.id n) := by
  rw [getN_updNode (ns ++ [nw]) p p (pushChild nw.id) (fun n => rfl), getN_append, hg]
  have hid : n.id = p := getN_id hg
  simp [hid]

/-- `MatchesF` splits over appended forests. -/
theorem matchesF_append (ns : List MNode) (a b : List DTree) :
    MatchesF ns (a ++ b) ↔ (MatchesF ns a ∧ MatchesF ns b) := by
  induction a with
  | nil =>
    rw [List.nil_append]
    simp only [MatchesF]
    tauto
  | cons t tsa ih =>
    rw [List.cons_append]
    simp only [MatchesF]
    rw [ih, and_assoc]

mutual

/-- Realisation of a one-leaf graft: adding the fresh node to the arena and
its id to the parent's children realises the grafted tree. -/
theorem matches_graftD (ns : List MNode) (nw : MNode)
    (hfresh : ∀ n ∈ ns, n.id ≠ nw.id) (hch : nw.childrenIds = [])
    (hcol : nw.isCollapsed = false) (p : Nat) (hpq : ¬ nw.id = p) :
    (dt : DTree) → MatchesD ns dt → (flatD dt).Nodup → p ∈ flatD dt →
      nw.id ∉ flatD dt →
      MatchesD (updNode (ns ++ [nw]) p (pushChild nw.id))
        (graftD p [DTree.mk nw.id nw.text nw.style false []] dt)
  | .mk i tx st c cs, hm, hnd, hp, hfT => by
    obtain ⟨⟨n, hn, htx, hst, hcoll, hchn⟩, hforest⟩ := hm
    rw [flatD] at hnd hp hfT
    have hnwf : nw.id ∉ flatF cs := fun hmm => hfT (List.mem_cons.mpr (Or.inr hmm))
    have hpcs : (flatF cs).Nodup := (List.nodup_cons.mp hnd).2
    have hics : i ∉ flatF cs := (List.nodup_cons.mp hnd).1
    by_cases hip : i = p
    · subst hip
      simp only [graftD, if_pos rfl]
      constructor
    -- the parent entry gains the fresh child id
      · refine ⟨pushChild nw.id n, getN_graft_env_parent ns i nw n hn, htx, hst,
          hcoll, ?_⟩
        show n.childrenIds ++ [nw.id] = rootIds (cs ++ [DTree.mk nw.id nw.text nw.style false []])
        rw [hchn, rootIds_append]
        rfl
      · rw [matchesF_append]
        constructor
        · refine matchesF_congr cs (fun j hjm => ?_) hforest
          exact getN_graft_env_other ns i nw j
            (fun he => hnwf (he ▸ hjm)) (fun he => hics (he ▸ hjm))
        · simp only [MatchesF, MatchesD]
          refine ⟨⟨?_, trivial⟩, trivial⟩
          refine ⟨nw, getN_graft_env_new ns i nw hfresh hpq, rfl, rfl, hcol, ?_⟩
          rw [hch]
          rfl
    · simp only [graftD, if_neg hip]
      have hnwi : ¬ i = nw.id := fun he => hfT (List.mem_cons.mpr (Or.inl he.symm))
      have hpcs' : p ∈ flatF cs :=
        (List.mem_cons.mp hp).resolve_left (fun he => hip he.symm)
      constructor
      · refine ⟨n, ?_, htx, hst, hcoll, ?_⟩
        · rw [getN_graft_env_other ns p nw i hnwi hip, hn]
        · rw [rootIds_graftF, hchn]
      · exact matches_graftF ns nw hfresh hch hcol p hpq cs hforest hpcs hpcs' hnwf

/-- Forest version of `matches_graftD`. -/
theorem matches_graftF (ns : List MNode) (nw : MNode)
    (hfresh : ∀ n ∈ ns, n.id ≠ nw.id) (hch : nw.childrenIds = [])
    (hcol : nw.isCollapsed = false) (p : Nat) (hpq : ¬ nw.id = p) :
    (ts : List DTree) → MatchesF ns ts → (flatF ts).Nodup → p ∈ flatF ts →
      nw.id ∉ flatF ts →
      MatchesF (updNode (ns ++ [nw]) p (pushChild nw.id))
        (graftF p [DTree.mk nw.id nw.text nw.style false []] ts)
  | [], _, _, hp, _ => absurd hp (by rw [flatF]; exact List.not_mem_nil p)
  | t :: ts, hm, hnd, hp, hfT => by
    rw [flatF] at hnd hp hfT
    rw [List.mem_append] at hp
    have hfTt : nw.id ∉ flatD t := fun hmm => hfT (List.mem_append_left _ hmm)
    have hfTts : nw.id ∉ flatF ts := fun hmm => hfT (List.mem_append_right _ hmm)
    have hdisj : List.Disjoint (flatD t) (flatF ts) :=
      List.disjoint_of_nodup_append hnd
    simp only [graftF]
    rcases hp with hpt | hpts
    · have hnott : p ∉ flatF ts := fun hmem => hdisj hpt hmem
      rw [graftF_not_mem p _ ts hnott]
      constructor
      · exact matches_graftD ns nw hfresh hch hcol p hpq t hm.1
          (List.Nodup.of_append_left hnd) hpt hfTt
      · refine matchesF_congr ts (fun j hjm => ?_) hm.2
        exact getN_graft_env_other ns p nw j
          (fun he => hfTts (he ▸ hjm)) (fun he => hnott (he ▸ hjm))
    · have hnott : p ∉ flatD t := fun hmem => hdisj hmem hpts
      rw [graftD_not_mem p _ t hnott]
      constructor
      · refine matchesD_congr t (fun j hjm => ?_) hm.1
        exact getN_graft_env_other ns p nw j
          (fun he => hfTt (he ▸ hjm)) (fun he => hnott (he ▸ hjm))
      · exact matches_graftF ns nw hfresh hch hcol p hpq ts hm.2
          (List.Nodup.of_append_right hnd) hpts hfTts

end

/-- Arena-level one-leaf graft: the document representation of the grafted
tree, from freshness of the new id. -/
theorem docRepr_graft_leaf (ns : List MNode) (dt : DTree) (p : Nat) (nw : MNode)
    (hr : DocRepr ns dt) (hp : p ∈ flatD dt)
    (hfresh : ∀ n ∈ ns, n.id ≠ nw.id) (hch : nw.childrenIds = [])
    (hcol : nw.isCollapsed = false) :
    DocRepr (updNode (ns ++ [nw]) p (pushChild nw.id))
      (graftD p [DTree.mk nw.id nw.text nw.style false []] dt) := by
  have hfT : nw.id ∉ flatD dt := by
    intro hmem
    have : nw.id ∈ ns.map MNode.id := hr.perm.mem_iff.mpr hmem
    obtain ⟨n2, hn2, hid⟩ := List.mem_map.mp this
    exact hfresh n2 hn2 hid
  have hpq : ¬ nw.id = p := fun he => hfT (he ▸ hp)
  have hflatleaf : flatF [DTree.mk nw.id nw.text nw.style false []] = [nw.id] := by
    rw [flatF, flatD, flatF]
    rfl
  have hperm2 := flat_graftD p [DTree.mk nw.id nw.text nw.style false []] dt
    hr.nodup hp
  rw [hflatleaf] at hperm2
  refine
    { real := matches_graftD ns nw hfresh hch hcol p hpq dt hr.real hr.nodup hp hfT
      rooted := by rw [graftD_nid]; exact hr.rooted
      perm := ?_
      nodup := ?_ }
  · have hids : (updNode (ns ++ [nw]) p (pushChild nw.id)).map MNode.id =
        ns.map MNode.id ++ [nw.id] := by
      rw [map_id_updNode (ns ++ [nw]) p (pushChild nw.id) (fun n => rfl),
        List.map_append]
      rfl
    rw [hids]
    exact (hr.perm.append_right [nw.id]).trans hperm2.symm
  · refine hperm2.symm.nodup ?_
    rw [List.nodup_append]
    refine ⟨hr.nodup, List.nodup_singleton _, ?_⟩
    intro x hx hx1
    rw [List.mem_singleton] at hx1
    exact hfT (hx1 ▸ hx)

/-! ## C1 — trim lemmas -/

/-- `dropWhile` is idempotent. -/
theorem dropWhile_idem (p : Char → Bool) (l : List Char) :
    (l.dropWhile p).dropWhile p = l.dropWhile p := by
  induction l with
  | nil => rfl
  | cons a t ih =>
    by_cases hp : p a = true
    · rw [List.dropWhile_cons_of_pos hp]
      exact ih
    · rw [List.dropWhile_cons_of_neg (by simp [hp]),
        List.dropWhile_cons_of_neg (by simp [hp])]

/-- A fixed point of `dropWhile` has a failing head. -/
theorem dropWhile_head_false {p : Char → Bool} {a : Char} {t : List Char}
    (h : (a :: t).dropWhile p = a :: t) : p a = false := by
  by_cases hp : p a = true
  · rw [List.dropWhile_cons_of_pos hp] at h
    have hlen : (t.dropWhile p).length = t.length + 1 := by rw [h]; rfl
    have hle : (t.dropWhile p).length ≤ t.length :=
      (List.dropWhile_suffix p).sublist.length_le
    omega
  · simpa using hp

/-- A list clean at both ends is its own trim. -/
theorem trimC_eq_self {l : List Char} (h1 : l.dropWhile Char.isWhitespace = l)
    (h2 : l.reverse.dropWhile Char.isWhitespace = l.reverse) : trimC l = l := by
  unfold trimC
  rw [h1, h2, List.reverse_reverse]

/-- A trimmed list needs no left trim. -/
theorem trim_left_noop {l : List Char} (h : trimC l = l) :
    l.dropWhile Char.isWhitespace = l := by
  have h1 : l.length ≤ (l.dropWhile Char.isWhitespace).length := by
    conv_lhs => rw [← h]
    unfold trimC
    rw [List.length_reverse]
    have hsfx : List.dropWhile Char.isWhitespace
        ((l.dropWhile Char.isWhitespace).reverse) <:+
        (l.dropWhile Char.isWhitespace).reverse :=
      List.dropWhile_suffix Char.isWhitespace
    have hle := hsfx.sublist.length_le
    rw [List.length_reverse] at hle
    exact hle
  exact (List.dropWhile_suffix Char.isWhitespace).sublist.eq_of_length
    (le_antisymm (List.dropWhile_suffix Char.isWhitespace).sublist.length_le h1)

/-- A trimmed list needs no right trim. -/
theorem trim_right_noop {l : List Char} (h : trimC l = l) :
    l.reverse.dropWhile Char.isWhitespace = l.reverse := by
  have hl := trim_left_noop h
  have h' := h
  unfold trimC at h'
  rw [hl] at h'
  have h2 := congrArg List.reverse h'
  rw [List.reverse_reverse] at h2
  exact h2

/-- Trimming is idempotent. -/
theorem trimC_trimC (l : List Char) : trimC (trimC l) = trimC l := by
  cases hWc : l.dropWhile Char.isWhitespace with
  | nil =>
    have hz : trimC l = [] := by
      unfold trimC
      rw [hWc]
      rfl
    rw [hz]
    rfl
  | cons a t =>
    have hfix : (a :: t).dropWhile Char.isWhitespace = a :: t := by
      rw [← hWc]
      exact dropWhile_idem Char.isWhitespace l
    have hws : Char.isWhitespace a = false := dropWhile_head_false hfix
    refine trimC_eq_self ?_ ?_
    · show (trimC l).dropWhile Char.isWhitespace = trimC l
      unfold trimC
      rw [hWc]
      have hsfx : ((a :: t).reverse.dropWhile Char.isWhitespace) <:+ (a :: t).reverse :=
        List.dropWhile_suffix _
      have h3 : ((a :: t).reverse.dropWhile Char.isWhitespace).reverse <+:
          ((a :: t).reverse).reverse := List.reverse_prefix.mpr hsfx
      rw [List.reverse_reverse] at h3
      cases hYr : ((a :: t).reverse.dropWhile Char.isWhitespace).reverse with
      | nil => rfl
      | cons c rest =>
        rw [hYr] at h3
        have hca : c = a := (List.cons_prefix_cons.mp h3).1
        exact List.dropWhile_cons_of_neg (by simp [hca, hws])
    · show (trimC l).reverse.dropWhile Char.isWhitespace = (trimC l).reverse
      unfold trimC
      rw [List.reverse_reverse]
      exact dropWhile_idem Char.isWhitespace _

/-! ## C1 — printed-line lemmas -/

/-- `dropWhile` swallows a whitespace run. -/
theorem dropWhile_replicate_space (k : Nat) (l : List Char) :
    (List.replicate k ' ' ++ l).dropWhile Char.isWhitespace =
      l.dropWhile Char.isWhitespace := by
  induction k with
  | zero => rfl
  | succ k ih =>
    rw [List.replicate_succ, List.cons_append,
      List.dropWhile_cons_of_pos (by decide)]
    exact ih

/-- `takeWhile` keeps exactly a whitespace run before a non-space head. -/
theorem takeWhile_replicate_space (k : Nat) (c : Char) (l : List Char)
    (hc : Char.isWhitespace c = false) :
    (List.replicate k ' ' ++ c :: l).takeWhile Char.isWhitespace =
      List.replicate k ' ' := by
  induction k with
  | zero =>
    rw [List.replicate_zero, List.nil_append]
    exact List.takeWhile_cons_of_neg (by simp [hc])
  | succ k ih =>
    rw [List.replicate_succ, List.cons_append,
      List.takeWhile_cons_of_pos (by decide), ih]

/-- The indent of an exported line is its `2·depth` spaces. -/
theorem takeWhile_mkLine (d : Nat) (tx st : String) :
    (mkLine d tx st).takeWhile Char.isWhitespace = List.replicate (2 * d) ' ' := by
  unfold mkLine
  rw [List.append_assoc, List.cons_append, List.cons_append]
  exact takeWhile_replicate_space (2 * d) '-' _ (by decide)

/-- A reversed list ending in a clean character needs no left trim. -/
theorem dropWhile_rev_eq_self_of_concat {L : List Char} {a : Char}
    (hws : Char.isWhitespace a = false) :
    ((L ++ [a]).reverse).dropWhile Char.isWhitespace = (L ++ [a]).reverse := by
  rw [List.reverse_append, List.reverse_singleton, List.singleton_append]
  exact List.dropWhile_cons_of_neg (by simp [hws])

/-- Trimming an exported line drops exactly the indent. -/
theorem trimC_mkLine (d : Nat) (tx st : String)
    (htx : trimC tx.data = tx.data) (hne : tx.data ≠ []) :
    trimC (mkLine d tx st) =
      '-' :: ' ' :: tx.data ++
        (if st ≠ "" ∧ st ≠ "rect" then mkStyleTag st else []) := by
  unfold trimC mkLine
  rw [List.append_assoc, List.cons_append, List.cons_append,
    dropWhile_replicate_space, List.dropWhile_cons_of_neg (by decide)]
  by_cases hsty : st ≠ "" ∧ st ≠ "rect"
  · rw [if_pos hsty]
    have hshape : ('-' :: ' ' :: (tx.data ++ mkStyleTag st)) =
        (('-' :: ' ' :: tx.data) ++ (' ' :: '{' :: ("style:".data ++ st.data))) ++ ['}'] := by
      unfold mkStyleTag
      simp
    rw [hshape, dropWhile_rev_eq_self_of_concat (by decide), List.reverse_reverse,
      ← hshape]
  · rw [if_neg hsty]
    simp only [List.append_nil]
    cases hrv : tx.data.reverse with
    | nil =>
      exact absurd (by rw [← List.reverse_reverse tx.data, hrv]; rfl) hne
    | cons c rest =>
      have hfix := trim_right_noop htx
      rw [hrv] at hfix
      have hc := dropWhile_head_false hfix
      have hshape : ('-' :: ' ' :: tx.data).reverse = c :: (rest ++ [' ', '-']) := by
        rw [List.reverse_cons, List.reverse_cons, hrv]
        simp
      rw [hshape, List.dropWhile_cons_of_neg (by simp [hc]), ← hshape,
        List.reverse_reverse]

/-! ## C1 — newline split of the printed document -/

/-- `splitNl` always produces at least one (possibly empty) chunk. -/
theorem splitNl_ne_nil (cs : List Char) : splitNl cs ≠ [] := by
  induction cs with
  | nil => simp [splitNl]
  | cons c cs ih =>
    rw [splitNl]
    cases hs : splitNl cs with
    | nil => simp
    | cons l ls =>
      show (if c = '\n' then [] :: l :: ls else (c :: l) :: ls) ≠ []
      by_cases hc : c = '\n'
      · rw [if_pos hc]
        simp
      · rw [if_neg hc]
        simp

/-- Splitting after a newline-free line pops the line. -/
theorem splitNl_append_line (l rest : List Char) (h : '\n' ∉ l) :
    splitNl (l ++ '\n' :: rest) = l :: splitNl rest := by
  induction l with
  | nil =>
    rw [List.nil_append, splitNl]
    cases hs : splitNl rest with
    | nil => exact absurd hs (splitNl_ne_nil rest)
    | cons l2 ls =>
      show (if '\n' = '\n' then [] :: l2 :: ls else ('\n' :: l2) :: ls) = [] :: l2 :: ls
      rw [if_pos rfl]
  | cons a t ih =>
    have ha : ¬ a = '\n' := fun he => h (by rw [he]; exact List.mem_cons_self _ _)
    have htail : '\n' ∉ t := fun hm => h (List.mem_cons_of_mem a hm)
    rw [List.cons_append, splitNl, ih htail]
    show (if a = '\n' then [] :: t :: splitNl rest else (a :: t) :: splitNl rest) =
      (a :: t) :: splitNl rest
    rw [if_neg ha]

/-- Splitting a newline-joined block of newline-free lines recovers the
lines (plus the empty chunk after the final newline). -/
theorem splitNl_joinLines (ls : List (List Char)) (h : ∀ l ∈ ls, '\n' ∉ l) :
    splitNl (joinLines ls) = ls ++ [[]] := by
  induction ls with
  | nil => rfl
  | cons l ls ih =>
    rw [joinLines, splitNl_append_line l _ (h l (List.mem_cons_self _ _)),
      ih (fun l2 hl2 => h l2 (List.mem_cons_of_mem l hl2)), List.cons_append]

/-! ## C1 — style-tag recognition -/

/-- The reverse of a tagged line content. -/
theorem reverse_tag_append (tx st : String) :
    (tx.data ++ mkStyleTag st).reverse =
      '}' :: (st.data.reverse ++ (':' :: 'e' :: 'l' :: 'y' :: 't' :: 's' :: '{' :: ' ' ::
        tx.data.reverse)) := by
  unfold mkStyleTag
  rw [show "style:".data = ['s', 't', 'y', 'l', 'e', ':'] from rfl]
  simp

/-- `takeWhile` over an all-good run stopped by a bad character. -/
theorem takeWhile_all_append {p : Char → Bool} {l1 : List Char} {a : Char}
    {l2 : List Char} (h1 : ∀ c ∈ l1, p c = true) (ha : p a = false) :
    (l1 ++ a :: l2).takeWhile p = l1 := by
  induction l1 with
  | nil =>
    rw [List.nil_append]
    exact List.takeWhile_cons_of_neg (by simp [ha])
  | cons c t ih =>
    rw [List.cons_append, List.takeWhile_cons_of_pos (h1 c (List.mem_cons_self ..)),
      ih (fun c hc => h1 c (List.mem_cons_of_mem _ hc))]

/-- Unfolding of `styleSuffixSplit` through a known reverse. -/
theorem styleSuffixSplit_cons_eq (c : Char) (rest : List Char) (cs : List Char)
    (hrev : cs.reverse = c :: rest) :
    styleSuffixSplit cs =
      (if c = '}' then
        if (rest.takeWhile wordChar).isEmpty then none
        else
          match rest.drop (rest.takeWhile wordChar).length with
          | c1 :: c2 :: c3 :: c4 :: c5 :: c6 :: c7 :: c8 :: pre =>
            if c1 = ':' ∧ c2 = 'e' ∧ c3 = 'l' ∧ c4 = 'y' ∧ c5 = 't' ∧ c6 = 's' ∧
               c7 = '{' ∧ c8 = ' '
            then some (pre.reverse, (rest.takeWhile wordChar).reverse) else none
          | _ => none
      else none) := by
  unfold styleSuffixSplit
  rw [hrev]

/-- The regex model recognises a well-formed appended style tag and splits
off exactly the prefix. -/
theorem styleSuffixSplit_tag (tx st : String) (hne : st.data ≠ [])
    (hw : ∀ c ∈ st.data, wordChar c = true) :
    styleSuffixSplit (tx.data ++ mkStyleTag st) = some (tx.data, st.data) := by
  rw [styleSuffixSplit_cons_eq '}' _ _ (reverse_tag_append tx st), if_pos rfl]
  have hw' : ∀ c ∈ st.data.reverse, wordChar c = true :=
    fun c hc => hw c (List.mem_reverse.mp hc)
  rw [takeWhile_all_append hw' (by decide)]
  rw [if_neg (by simp [hne]), List.drop_left]
  show (if (':' = ':' ∧ 'e' = 'e' ∧ 'l' = 'l' ∧ 'y' = 'y' ∧ 't' = 't' ∧ 's' = 's' ∧
      '{' = '{' ∧ ' ' = ' ')
    then some (tx.data.reverse.reverse, st.data.reverse.reverse) else none) =
    some (tx.data, st.data)
  rw [if_pos ⟨rfl, rfl, rfl, rfl, rfl, rfl, rfl, rfl⟩, List.reverse_reverse,
    List.reverse_reverse]

/-- Parsing an exported line recovers its level, text and style: the line
fold step is the level dispatch on exactly the original content. -/
theorem importLine_mkLine (m : MM) (ps ls : List Nat) (d : Nat) (tx st : String)
    (htx : GoodText tx) (hst : GoodStyle st)
    (hsfx : st = "rect" → styleSuffixSplit tx.data = none) :
    importLine (m, (ps, ls)) (mkLine d tx st) =
      importLineCore m ps ls (2 * d) tx st := by
  obtain ⟨htrim, hne, hNL⟩ := htx
  simp only [importLine]
  rw [takeWhile_mkLine, List.length_replicate, trimC_mkLine d tx st htrim hne]
  by_cases hsty : st ≠ "" ∧ st ≠ "rect"
  · rw [if_pos hsty, List.cons_append, List.cons_append, List.drop_succ_cons,
      List.drop_succ_cons, List.drop_zero,
      styleSuffixSplit_tag tx st (hst.resolve_left hsty.2).1 (hst.resolve_left hsty.2).2]
    show importLineCore m ps ls (2 * d) ⟨trimC tx.data⟩ ⟨st.data⟩ = _
    rw [htrim]
  · rw [if_neg hsty]
    have hrect : st = "rect" := by
      rcases hst with h | ⟨hne2, _⟩
      · exact h
      · push_neg at hsty
        rcases Classical.em (st = "") with he | he
        · exact absurd (by rw [he]) hne2
        · exact hsty he
    rw [List.append_nil, List.drop_succ_cons, List.drop_succ_cons, List.drop_zero,
      hsfx hrect]
    show importLineCore m ps ls (2 * d) ⟨tx.data⟩ ⟨"rect".data⟩ = _
    rw [hrect]

/-! ## C1 — the import parser over a printed forest -/

/-- The stack unwind pops exactly the levels at or above the current one. -/
theorem popWhile_spec (lvl : Nat) :
    (junkP : List Nat) → (junkL : List Nat) → (p l0 : Nat) → (psR lsR : List Nat) →
      junkP.length = junkL.length → (∀ l ∈ junkL, lvl ≤ l) → l0 < lvl →
      popWhile lvl (junkP ++ p :: psR) (junkL ++ l0 :: lsR) = (p :: psR, l0 :: lsR)
  | [], [], p, l0, psR, lsR, _, _, hl0 => by
    rw [List.nil_append, List.nil_append, popWhile, if_neg (by omega)]
  | q :: junkP, j :: junkL, p, l0, psR, lsR, hlen, hjl, hl0 => by
    rw [List.cons_append, List.cons_append, popWhile,
      if_pos (hjl j (List.mem_cons_self ..))]
    show popWhile lvl (junkP ++ p :: psR) (junkL ++ l0 :: lsR) = _
    exact popWhile_spec lvl junkP junkL p l0 psR lsR (by simpa using hlen)
      (fun l hl => hjl l (List.mem_cons_of_mem _ hl)) hl0
  | [], j :: junkL, p, l0, psR, lsR, hlen, _, _ => by simp at hlen
  | q :: junkP, [], p, l0, psR, lsR, hlen, _, _ => by simp at hlen

/-- A non-root line under a live parent: unwind, add the fresh child under
the parent, push it on both stacks. -/
theorem importLineCore_child (m : MM) (d : Nat) (hd : 1 ≤ d)
    (junkP junkL psR lsR : List Nat) (p l0 : Nat) (tx st : String)
    (hlen : junkP.length = junkL.length) (hjl : ∀ l ∈ junkL, 2 * d ≤ l)
    (hl0 : l0 < 2 * d)
    (hfresh : ∀ n ∈ m.nodes, n.id ≠ m.nextId + 1)
    (hp : (getN m.nodes p).isSome) :
    ∃ ns', importLineCore m (junkP ++ p :: psR) (junkL ++ l0 :: lsR) (2 * d) tx st =
      ({ m with nodes := ns', nextId := m.nextId + 1 },
        ((m.nextId + 1) :: p :: psR, 2 * d :: l0 :: lsR)) ∧
      ns'.map fullSkel =
        (updNode (m.nodes ++ [childSkelNode (m.nextId + 1) p tx st]) p
          (pushChild (m.nextId + 1))).map fullSkel := by
  obtain ⟨ns', h1, h2⟩ := progAdd_effect m p tx st hfresh hp
  refine ⟨ns', ?_, h2⟩
  simp only [importLineCore, if_neg (show ¬ 2 * d = 0 by omega),
    popWhile_spec (2 * d) junkP junkL p l0 psR lsR hlen hjl hl0, List.head?_cons, h1]

/-- Freshness of the next id under the counter bound. -/
theorem bounded_fresh {ns : List MNode} {k : Nat} (hb : Bounded ns k) :
    ∀ n ∈ ns, n.id ≠ k + 1 := by
  intro n hn he
  have := hb n hn
  omega

/-- Ids present in a realised tree look up successfully. -/
theorem getN_isSome_of_repr {ns : List MNode} {dt : DTree} (hr : DocRepr ns dt)
    {p : Nat} (hp : p ∈ flatD dt) : (getN ns p).isSome :=
  getN_isSome_of_mem (hr.perm.mem_iff.mpr hp)

/-- Bound transfer along equal id lists. -/
theorem bounded_of_map_id {ns1 ns2 : List MNode}
    (h : ns1.map MNode.id = ns2.map MNode.id) {k : Nat} (hb : Bounded ns2 k) :
    Bounded ns1 k := by
  intro n hn
  have hmem : n.id ∈ ns2.map MNode.id := h ▸ List.mem_map_of_mem MNode.id hn
  obtain ⟨n2, hn2, hid⟩ := List.mem_map.mp hmem
  rw [← hid]
  exact hb n2 hn2

/-- The canonical child environment respects the advanced counter. -/
theorem bounded_child_env {ns : List MNode} {k : Nat} (p : Nat) (hb : Bounded ns k)
    (tx st : String) :
    Bounded (updNode (ns ++ [childSkelNode (k + 1) p tx st]) p
      (pushChild (k + 1))) (k + 1) := by
  intro n hn
  obtain ⟨n0, hn0, rfl⟩ := List.mem_map.mp hn
  have hid : (if n0.id = p then pushChild (k + 1) n0 else n0).id = n0.id := by
    split
    · rfl
    · rfl
  rw [hid]
  rcases List.mem_append.mp hn0 with h0 | h0
  · have := hb n0 h0
    omega
  · rw [List.mem_singleton] at h0
    rw [h0]
    rfl

mutual

/-- Folding the import parser over the printed lines of one well-formed
content tree, with a live parent under the unwind junk, grafts exactly that
tree (freshly decorated) under the parent. -/
theorem runTree_spec :
    (t : PTree) → (d : Nat) → (m : MM) → (dt : DTree) → (p : Nat) →
    (junkP junkL psR lsR : List Nat) → (l0 : Nat) →
    PTreeOK t → 1 ≤ d →
    DocRepr m.nodes dt → Bounded m.nodes m.nextId → p ∈ flatD dt →
    junkP.length = junkL.length → (∀ l ∈ junkL, 2 * d ≤ l) → l0 < 2 * d →
    ∃ (m' : MM) (u : DTree) (junkP' junkL' : List Nat),
      runLines (m, (junkP ++ p :: psR, junkL ++ l0 :: lsR)) (linesP d t) =
        (m', (junkP' ++ p :: psR, junkL' ++ l0 :: lsR)) ∧
      stripD u = t ∧
      DocRepr m'.nodes (graftD p [u] dt) ∧
      Bounded m'.nodes m'.nextId ∧
      junkP'.length = junkL'.length ∧ (∀ l ∈ junkL', 2 * d ≤ l)
  | .mk tx st cs, d, m, dt, p, junkP, junkL, psR, lsR, l0, hOK, hd, hrep, hbnd, hp,
      hlen, hjl, hl0 => by
    obtain ⟨htx, hst, hsfx, hcsOK⟩ := hOK
    rw [show linesP d (.mk tx st cs) = mkLine d tx st :: linesF (d + 1) cs from rfl]
    rw [show runLines (m, (junkP ++ p :: psR, junkL ++ l0 :: lsR))
        (mkLine d tx st :: linesF (d + 1) cs) =
      runLines (importLine (m, (junkP ++ p :: psR, junkL ++ l0 :: lsR))
        (mkLine d tx st)) (linesF (d + 1) cs) from rfl]
    rw [importLine_mkLine m _ _ d tx st htx hst hsfx]
    obtain ⟨ns', h1, h2⟩ := importLineCore_child m d hd junkP junkL psR lsR p l0 tx st
      hlen hjl hl0 (bounded_fresh hbnd) (getN_isSome_of_repr hrep hp)
    rw [h1]
    -- the grafted fresh leaf
    have hfT : m.nextId + 1 ∉ flatD dt := by
      intro hmem
      have hmem2 : m.nextId + 1 ∈ m.nodes.map MNode.id := hrep.perm.mem_iff.mpr hmem
      obtain ⟨n2, hn2, hid⟩ := List.mem_map.mp hmem2
      exact bounded_fresh hbnd n2 hn2 hid
    have hrep1 : DocRepr ns'
        (graftD p [DTree.mk (m.nextId + 1) tx st false []] dt) := by
      have hcanon := docRepr_graft_leaf m.nodes dt p
        (childSkelNode (m.nextId + 1) p tx st) hrep hp
        (bounded_fresh hbnd) rfl rfl
      exact docRepr_skel h2.symm hcanon
    have hbnd1 : Bounded ns' (m.nextId + 1) :=
      bounded_of_map_id (map_id_of_skel h2) (bounded_child_env p hbnd tx st)
    have hk1 : m.nextId + 1 ∈
        flatD (graftD p [DTree.mk (m.nextId + 1) tx st false []] dt) := by
      have hperm := flat_graftD p [DTree.mk (m.nextId + 1) tx st false []] dt
        hrep.nodup hp
      rw [hperm.mem_iff, List.mem_append]
      right
      rw [flatF, flatD]
      exact List.mem_append_left _ (List.mem_cons_self ..)
    obtain ⟨m2, us, junkP2, junkL2, hrun2, hstrip2, hrep2, hbnd2, hlen2, hjl2⟩ :=
      runForest_spec cs (d + 1)
        { m with nodes := ns', nextId := m.nextId + 1 }
        (graftD p [DTree.mk (m.nextId + 1) tx st false []] dt)
        (m.nextId + 1) [] [] (p :: psR) (l0 :: lsR) (2 * d)
        hcsOK (by omega) hrep1 hbnd1 hk1 rfl (by intro l hl; cases hl) (by omega)
    rw [List.nil_append, List.nil_append] at hrun2
    refine ⟨m2, DTree.mk (m.nextId + 1) tx st false us, junkP2 ++ [m.nextId + 1],
      junkL2 ++ [2 * d], ?_, ?_, ?_, hbnd2, ?_, ?_⟩
    · rw [hrun2]
      rw [List.append_assoc, List.append_assoc]
      rfl
    · rw [show stripD (DTree.mk (m.nextId + 1) tx st false us) =
        PTree.mk tx st (stripF us) from rfl, hstrip2]
    · rw [← graftD_into_fresh (m.nextId + 1) us tx st p dt hfT]
      exact hrep2
    · rw [List.length_append, List.length_append, hlen2]
      rfl
    · intro l hl
      rcases List.mem_append.mp hl with h | h
      · have := hjl2 l h
        omega
      · rw [List.mem_singleton] at h
        omega

/-- Forest version of `runTree_spec`: the printed lines of a forest graft
the whole (freshly decorated) forest under the live parent, in order. -/
theorem runForest_spec :
    (ts : List PTree) → (d : Nat) → (m : MM) → (dt : DTree) → (p : Nat) →
    (junkP junkL psR lsR : List Nat) → (l0 : Nat) →
    PForestOK ts → 1 ≤ d →
    DocRepr m.nodes dt → Bounded m.nodes m.nextId → p ∈ flatD dt →
    junkP.length = junkL.length → (∀ l ∈ junkL, 2 * d ≤ l) → l0 < 2 * d →
    ∃ (m' : MM) (us : List DTree) (junkP' junkL' : List Nat),
      runLines (m, (junkP ++ p :: psR, junkL ++ l0 :: lsR)) (linesF d ts) =
        (m', (junkP' ++ p :: psR, junkL' ++ l0 :: lsR)) ∧
      stripF us = ts ∧
      DocRepr m'.nodes (graftD p us dt) ∧
      Bounded m'.nodes m'.nextId ∧
      junkP'.length = junkL'.length ∧ (∀ l ∈ junkL', 2 * d ≤ l)
  | [], d, m, dt, p, junkP, junkL, psR, lsR, l0, _, hd, hrep, hbnd, hp,
      hlen, hjl, hl0 =>
    ⟨m, [], junkP, junkL, rfl, rfl, by rw [graftD_nil]; exact hrep, hbnd, hlen, hjl⟩
  | t :: ts, d, m, dt, p, junkP, junkL, psR, lsR, l0, hOK, hd, hrep, hbnd, hp,
      hlen, hjl, hl0 => by
    rw [show linesF d (t :: ts) = linesP d t ++ linesF d ts from rfl]
    rw [show runLines (m, (junkP ++ p :: psR, junkL ++ l0 :: lsR))
        (linesP d t ++ linesF d ts) =
      runLines (runLines (m, (junkP ++ p :: psR, junkL ++ l0 :: lsR)) (linesP d t))
        (linesF d ts) from List.foldl_append ..]
    obtain ⟨m1, u, junkP1, junkL1, hrun1, hstrip1, hrep1, hbnd1, hlen1, hjl1⟩ :=
      runTree_spec t d m dt p junkP junkL psR lsR l0 hOK.1 hd hrep hbnd hp
        hlen hjl hl0
    rw [hrun1]
    have hp1 : p ∈ flatD (graftD p [u] dt) := by
      have hperm := flat_graftD p [u] dt hrep.nodup hp
      rw [hperm.mem_iff, List.mem_append]
      exact Or.inl hp
    obtain ⟨m2, us2, junkP2, junkL2, hrun2, hstrip2, hrep2, hbnd2, hlen2, hjl2⟩ :=
      runForest_spec ts d m1 (graftD p [u] dt) p junkP1 junkL1 psR lsR l0
        hOK.2 hd hrep1 hbnd1 hp1 hlen1 hjl1 hl0
    refine ⟨m2, u :: us2, junkP2, junkL2, hrun2, ?_, ?_, hbnd2, hlen2, hjl2⟩
    · rw [show stripF (u :: us2) = stripD u :: stripF us2 from rfl, hstrip1, hstrip2]
    · have hrep3 := hrep2
      rw [graftD_comp p [u] us2 dt, List.singleton_append] at hrep3
      exact hrep3

end

/-! ## C1 — the export side -/

/-- `joinLines` distributes over appends. -/
theorem joinLines_append (a b : List (List Char)) :
    joinLines (a ++ b) = joinLines a ++ joinLines b := by
  induction a with
  | nil => rfl
  | cons l ls ih =>
    rw [List.cons_append, joinLines, joinLines, ih, List.append_assoc,
      List.cons_append]

mutual

/-- On an all-expanded realised document, the export prints exactly the
lines of the content tree. -/
theorem export_print_tree (ns : List MNode)
    (hexp : ∀ n ∈ ns, n.isCollapsed = false) :
    (fuel : Nat) → (dt : DTree) → (d : Nat) → MatchesD ns dt → sizeD dt ≤ fuel →
      buildMarkdownRec fuel ns dt.nid d false = joinLines (linesP d (stripD dt))
  | fuel, .mk i tx st c cs, d, hm, hfuel => by
    obtain ⟨⟨n, hn, htx, hst, hcoll, hch⟩, hforest⟩ := hm
    have hszeq : sizeD (.mk i tx st c cs) = 1 + sizeF cs := by rw [sizeD]
    have hf1 : 1 ≤ fuel := le_trans (sizeD_pos _) hfuel
    obtain ⟨f, rfl⟩ : ∃ f, fuel = f + 1 := ⟨fuel - 1, by omega⟩
    rw [show DTree.nid (.mk i tx st c cs) = i from rfl]
    simp only [buildMarkdownRec, hn]
    have hcolf : n.isCollapsed = false := hexp n (getN_mem hn)
    rw [hcolf, if_neg (show ¬ (false = true) by simp), htx, hst, hch]
    rw [export_print_forest ns hexp f cs (d + 1) hforest (by omega)]
    rw [show stripD (.mk i tx st c cs) = PTree.mk tx st (stripF cs) from rfl]
    rw [show linesP d (PTree.mk tx st (stripF cs)) =
      mkLine d tx st :: linesF (d + 1) (stripF cs) from rfl]
    rw [joinLines]
    unfold mkLine
    by_cases hsty : st ≠ "" ∧ st ≠ "rect"
    · rw [if_pos hsty,
        if_pos (show True ∧ st ≠ "" ∧ st ≠ "rect" from ⟨trivial, hsty.1, hsty.2⟩)]
      simp [List.append_assoc]
    · rw [if_neg hsty, if_neg (fun hcon => hsty ⟨hcon.2.1, hcon.2.2⟩)]
      simp [List.append_assoc]

/-- Forest version of `export_print_tree`. -/
theorem export_print_forest (ns : List MNode)
    (hexp : ∀ n ∈ ns, n.isCollapsed = false) :
    (fuel : Nat) → (ts : List DTree) → (d : Nat) → MatchesF ns ts → sizeF ts ≤ fuel →
      (rootIds ts).flatMap (fun c => buildMarkdownRec fuel ns c d false) =
        joinLines (linesF d (stripF ts))
  | _, [], _, _, _ => rfl
  | fuel, t :: ts, d, hm, hfuel => by
    have hszeq : sizeF (t :: ts) = sizeD t + sizeF ts := by rw [sizeF]
    have hpos := sizeD_pos t
    rw [rootIds_cons, List.flatMap_cons,
      export_print_tree ns hexp fuel t d hm.1 (by omega),
      export_print_forest ns hexp fuel ts d hm.2 (by omega),
      show stripF (t :: ts) = stripD t :: stripF ts from rfl,
      show linesF d (stripD t :: stripF ts) =
        linesP d (stripD t) ++ linesF d (stripF ts) from rfl,
      joinLines_append]

end

/-- Whole-document export: the printed character stream of the realised
content tree. -/
theorem export_doc (m : MM) (dt : DTree) (hrep : DocRepr m.nodes dt)
    (hexp : ∀ n ∈ m.nodes, n.isCollapsed = false) :
    (exportToMarkdown m false).data = joinLines (linesP 0 (stripD dt)) := by
  show buildMarkdownRec m.nodes.length m.nodes ROOT_NODE_ID 0 false = _
  rw [← hrep.rooted]
  exact export_print_tree m.nodes hexp m.nodes.length dt 0 hrep.real
    (by rw [← flatD_length dt, ← hrep.perm.length_eq, List.length_map])

mutual

/-- Every printed line of a well-formed content tree is newline-free and
non-blank. -/
theorem linesP_ok : (t : PTree) → (d : Nat) → PTreeOK t →
    ∀ l ∈ linesP d t, '\n' ∉ l ∧ trimC l ≠ []
  | .mk tx st cs, d, hOK, l, hl => by
    obtain ⟨⟨htrim, hne, hNL⟩, hst, hsfx, hcsOK⟩ := hOK
    rw [show linesP d (.mk tx st cs) = mkLine d tx st :: linesF (d + 1) cs from rfl]
      at hl
    rcases List.mem_cons.mp hl with rfl | hl2
    · constructor
      · intro hmem
        unfold mkLine at hmem
        rcases List.mem_append.mp hmem with hm1 | hm2
        · rcases List.mem_append.mp hm1 with hr | hc
          · exact absurd (List.eq_of_mem_replicate hr) (by decide)
          · rcases List.mem_cons.mp hc with h | h
            · exact absurd h (by decide)
            · rcases List.mem_cons.mp h with h2 | h2
              · exact absurd h2 (by decide)
              · exact hNL h2
        · by_cases hsty : st ≠ "" ∧ st ≠ "rect"
          · rw [if_pos hsty] at hm2
            unfold mkStyleTag at hm2
            rcases List.mem_cons.mp hm2 with h | h
            · exact absurd h (by decide)
            · rcases List.mem_cons.mp h with h2 | h2
              · exact absurd h2 (by decide)
              · rcases List.mem_append.mp h2 with h3 | h3
                · rcases List.mem_append.mp h3 with h4 | h4
                  · rw [show "style:".data = ['s', 't', 'y', 'l', 'e', ':'] from rfl]
                      at h4
                    exact absurd h4 (by decide)
                  · have hw := (hst.resolve_left hsty.2).2 '\n' h4
                    exact absurd hw (by decide)
                · exact absurd h3 (by decide)
          · rw [if_neg hsty] at hm2
            cases hm2
      · rw [trimC_mkLine d tx st htrim hne]
        simp
    · exact linesF_ok cs (d + 1) hcsOK l hl2

/-- Forest version of `linesP_ok`. -/
theorem linesF_ok : (ts : List PTree) → (d : Nat) → PForestOK ts →
    ∀ l ∈ linesF d ts, '\n' ∉ l ∧ trimC l ≠ []
  | [], _, _, l, hl => absurd hl (by rw [show linesF _ [] = [] from rfl]; simp)
  | t :: ts, d, hOK, l, hl => by
    rw [show linesF d (t :: ts) = linesP d t ++ linesF d ts from rfl] at hl
    rcases List.mem_append.mp hl with h | h
    · exact linesP_ok t d hOK.1 l h
    · exact linesF_ok ts d hOK.2 l h

end

/-! ## C1 — extraction of the content tree -/

mutual

/-- Extraction recovers the stripped content of a realised tree, given
fuel at least the subtree size. -/
theorem toPTree_of_matches (ns : List MNode) :
    (fuel : Nat) → (dt : DTree) → MatchesD ns dt → sizeD dt ≤ fuel →
      toPTree ns fuel dt.nid = some (stripD dt)
  | fuel, .mk i tx st c cs, hm, hfuel => by
    obtain ⟨⟨n, hn, htx, hst, hcoll, hch⟩, hforest⟩ := hm
    have hszeq : sizeD (.mk i tx st c cs) = 1 + sizeF cs := by rw [sizeD]
    have hf1 : 1 ≤ fuel := le_trans (sizeD_pos _) hfuel
    obtain ⟨f, rfl⟩ : ∃ f, fuel = f + 1 := ⟨fuel - 1, by omega⟩
    rw [show DTree.nid (.mk i tx st c cs) = i from rfl]
    simp only [toPTree, hn, hch]
    rw [toPForest_of_matches ns f cs hforest (by omega), htx, hst]
    rfl

/-- Forest version of `toPTree_of_matches`. -/
theorem toPForest_of_matches (ns : List MNode) :
    (fuel : Nat) → (ts : List DTree) → MatchesF ns ts → sizeF ts ≤ fuel →
      toPForest ns fuel (rootIds ts) = some (stripF ts)
  | fuel, [], _, _ => by
    rw [show rootIds ([] : List DTree) = [] from rfl]
    simp only [toPForest]
    rfl
  | fuel, t :: ts, hm, hfuel => by
    have hszeq : sizeF (t :: ts) = sizeD t + sizeF ts := by rw [sizeF]
    have hpos := sizeD_pos t
    rw [rootIds_cons]
    simp only [toPForest]
    rw [toPTree_of_matches ns fuel t hm.1 (by omega),
      toPForest_of_matches ns fuel ts hm.2 (by omega)]
    rfl

end

/-- The abstract content tree of a represented document is the strip of
its representation. -/
theorem treeOfDoc_of_repr (m : MM) (dt : DTree) (hrep : DocRepr m.nodes dt) :
    treeOfDoc m = some (stripD dt) := by
  unfold treeOfDoc
  rw [← hrep.rooted]
  exact toPTree_of_matches m.nodes m.nodes.length dt hrep.real
    (by rw [← flatD_length dt, ← hrep.perm.length_eq, List.length_map])

mutual

/-- Node-level facts lift to content-tree well-formedness. -/
theorem stripD_ok (ns : List MNode) (hok : ∀ n ∈ ns, BuiltNodeOK n)
    (hNL : ∀ n ∈ ns, '\n' ∉ n.text.data)
    (hsfx : ∀ n ∈ ns, n.style = "rect" → styleSuffixSplit n.text.data = none) :
    (dt : DTree) → MatchesD ns dt → PTreeOK (stripD dt)
  | .mk i tx st c cs, hm => by
    obtain ⟨⟨n, hn, htx, hst, hcoll, hch⟩, hforest⟩ := hm
    have hmem := getN_mem hn
    obtain ⟨ht1, ht2, ht3, _⟩ := hok n hmem
    rw [show stripD (.mk i tx st c cs) = PTree.mk tx st (stripF cs) from rfl]
    show GoodText tx ∧ GoodStyle st ∧ (st = "rect" → styleSuffixSplit tx.data = none) ∧
      PForestOK (stripF cs)
    refine ⟨?_, ?_, ?_, stripF_ok ns hok hNL hsfx cs hforest⟩
    · show GoodText tx
      rw [← htx]
      exact ⟨ht1, ht2, hNL n hmem⟩
    · show GoodStyle st
      rw [← hst]
      exact ht3
    · intro hrect
      rw [← htx]
      exact hsfx n hmem (by rw [hst]; exact hrect)

/-- Forest version of `stripD_ok`. -/
theorem stripF_ok (ns : List MNode) (hok : ∀ n ∈ ns, BuiltNodeOK n)
    (hNL : ∀ n ∈ ns, '\n' ∉ n.text.data)
    (hsfx : ∀ n ∈ ns, n.style = "rect" → styleSuffixSplit n.text.data = none) :
    (ts : List DTree) → MatchesF ns ts → PForestOK (stripF ts)
  | [], _ => trivial
  | t :: ts, hm =>
    ⟨stripD_ok ns hok hNL hsfx t hm.1, stripF_ok ns hok hNL hsfx ts hm.2⟩

end

/-! ## C1 — the root line and whole-document round trip -/

/-- A depth-0 line re-creates the root (clearing the canvas) with the
parsed text and style and seeds both stacks. -/
theorem importLineCore_root (m : MM) (ps ls : List Nat) (tx st : String) :
    importLineCore m ps ls 0 tx st =
      ({ m with
          nodes := [rootNode0 tx st m.winCenter],
          selectedNodeIds := [ROOT_NODE_ID], navState := none },
        (ROOT_NODE_ID :: ps, 0 :: ls)) := rfl

/-- Importing the export of an all-expanded realised document realises the
same content tree. -/
theorem import_export_repr (m m0 : MM) (dt : DTree) (hrep : DocRepr m.nodes dt)
    (hexp : ∀ n ∈ m.nodes, n.isCollapsed = false)
    (hOK : PTreeOK (stripD dt)) :
    ∃ dt', DocRepr (importFromMarkdown m0 (exportToMarkdown m false)).nodes dt' ∧
      stripD dt' = stripD dt := by
  obtain ⟨i, tx, st, c, cs⟩ := dt
  have hOK' := hOK
  rw [show stripD (.mk i tx st c cs) = PTree.mk tx st (stripF cs) from rfl] at hOK'
  obtain ⟨htx, hst, hsfx, hcsOK⟩ := hOK'
  have hlines : ∀ l ∈ linesP 0 (stripD (DTree.mk i tx st c cs)), '\n' ∉ l ∧
      trimC l ≠ [] := linesP_ok _ 0 hOK
  unfold importFromMarkdown
  rw [export_doc m (DTree.mk i tx st c cs) hrep hexp]
  rw [splitNl_joinLines _ (fun l hl => (hlines l hl).1)]
  rw [List.filter_append]
  rw [List.filter_eq_self.mpr
    (fun l hl => by simp [List.isEmpty_iff, (hlines l hl).2])]
  rw [show List.filter (fun l => !(trimC l).isEmpty) [[]] = [] from rfl]
  rw [List.append_nil]
  rw [show linesP 0 (stripD (DTree.mk i tx st c cs)) =
    mkLine 0 tx st :: linesF 1 (stripF cs) from rfl]
  rw [if_neg (by simp)]
  show ∃ dt', DocRepr (runLines
      (importLine (m0, ([], [])) (mkLine 0 tx st)) (linesF 1 (stripF cs))).1.nodes dt' ∧ _
  rw [importLine_mkLine m0 [] [] 0 tx st htx hst hsfx]
  rw [show (2 * 0 : Nat) = 0 from rfl, importLineCore_root]
  have hrep1 : DocRepr [rootNode0 tx st m0.winCenter]
      (DTree.mk ROOT_NODE_ID tx st false []) := by
    refine
      { real := ⟨⟨rootNode0 tx st m0.winCenter, ?_, rfl, rfl, rfl, rfl⟩, trivial⟩
        rooted := rfl
        perm := by
          rw [show flatD (DTree.mk ROOT_NODE_ID tx st false []) = [ROOT_NODE_ID]
            from rfl]
          rfl
        nodup := by
          rw [show flatD (DTree.mk ROOT_NODE_ID tx st false []) = [ROOT_NODE_ID]
            from rfl]
          exact List.nodup_singleton _ }
    rw [getN, if_pos (show (rootNode0 tx st m0.winCenter).id = ROOT_NODE_ID from rfl)]
  obtain ⟨m2, us, junkP2, junkL2, hrun2, hstrip2, hrep2, hbnd2, hlen2, hjl2⟩ :=
    runForest_spec (stripF cs) 1
      ({ m0 with
          nodes := [rootNode0 tx st m0.winCenter],
          selectedNodeIds := [ROOT_NODE_ID], navState := none })
      (DTree.mk ROOT_NODE_ID tx st false []) ROOT_NODE_ID [] [] [] [] 0
      hcsOK (by omega) hrep1 (fun n hn => by
        rw [List.mem_singleton] at hn
        rw [hn]
        exact Nat.zero_le _)
      (by rw [show flatD (DTree.mk ROOT_NODE_ID tx st false []) = [ROOT_NODE_ID]
            from rfl]
          exact List.mem_singleton_self _)
      rfl (by intro l hl; cases hl) (by omega)
  rw [List.nil_append, List.nil_append] at hrun2
  rw [hrun2]
  refine ⟨DTree.mk ROOT_NODE_ID tx st false us, ?_, ?_⟩
  · have hgr : graftD ROOT_NODE_ID us (DTree.mk ROOT_NODE_ID tx st false []) =
        DTree.mk ROOT_NODE_ID tx st false us := by
      simp [graftD]
    rw [hgr] at hrep2
    exact hrep2
  · rw [show stripD (DTree.mk ROOT_NODE_ID tx st false us) =
      PTree.mk tx st (stripF us) from rfl, hstrip2]
    rfl

/-! ## C1 — retagging (rename / restyle) -/

/-- Retagging preserves the root id. -/
theorem retagD_nid (i : Nat) (f : String → String → String × String) (t : DTree) :
    (retagD i f t).nid = t.nid := by
  cases t with
  | mk j tx st c cs =>
    simp only [retagD]
    split <;> rfl

/-- Retagging preserves the root ids of a forest. -/
theorem rootIds_retagF (i : Nat) (f : String → String → String × String)
    (ts : List DTree) : rootIds (retagF i f ts) = rootIds ts := by
  induction ts with
  | nil => rfl
  | cons t ts ih =>
    simp only [retagF]
    rw [rootIds_cons, rootIds_cons, retagD_nid, ih]

mutual

/-- Retagging preserves the pre-order ids of a tree. -/
theorem flat_retagD (i : Nat) (f : String → String → String × String) :
    (t : DTree) → flatD (retagD i f t) = flatD t
  | .mk j tx st c cs => by
    simp only [retagD]
    split
    · rw [flatD, flatD, flat_retagF i f cs]
    · rw [flatD, flatD, flat_retagF i f cs]

/-- Forest version of `flat_retagD`. -/
theorem flat_retagF (i : Nat) (f : String → String → String × String) :
    (ts : List DTree) → flatF (retagF i f ts) = flatF ts
  | [] => rfl
  | t :: ts => by
    simp only [retagF]
    rw [flatF, flatF, flat_retagD i f t, flat_retagF i f ts]

end

mutual

/-- A keyed content update of the map realises the retagged tree. -/
theorem matches_retagD (ns : List MNode) (i : Nat)
    (f : String → String → String × String) (g : MNode → MNode)
    (hg : ∀ n, (g n).id = n.id ∧ (g n).isCollapsed = n.isCollapsed ∧
      (g n).childrenIds = n.childrenIds ∧
      ((g n).text, (g n).style) = f n.text n.style) :
    (dt : DTree) → MatchesD ns dt → MatchesD (updNode ns i g) (retagD i f dt)
  | .mk j tx st c cs, hm => by
    obtain ⟨⟨n, hn, htx, hst, hcoll, hch⟩, hforest⟩ := hm
    have hgn := getN_updNode ns i j g (fun n => (hg n).1)
    rw [hn] at hgn
    by_cases hji : j = i
    · simp only [retagD, if_pos hji]
      refine ⟨⟨g n, ?_, ?_, ?_, ?_, ?_⟩, matches_retagF ns i f g hg cs hforest⟩
      · rw [hgn]
        have hni : n.id = i := (getN_id hn).trans hji
        simp [hni]
      · have h1 := congrArg Prod.fst (hg n).2.2.2
        rw [htx, hst] at h1
        exact h1
      · have h1 := congrArg Prod.snd (hg n).2.2.2
        rw [htx, hst] at h1
        exact h1
      · rw [(hg n).2.1, hcoll]
      · rw [(hg n).2.2.1, hch, rootIds_retagF]
    · simp only [retagD, if_neg hji]
      refine ⟨⟨n, ?_, htx, hst, hcoll, ?_⟩, matches_retagF ns i f g hg cs hforest⟩
      · rw [hgn]
        have hni : n.id = j := getN_id hn
        simp [hni, hji]
      · rw [hch, rootIds_retagF]

/-- Forest version of `matches_retagD`. -/
theorem matches_retagF (ns : List MNode) (i : Nat)
    (f : String → String → String × String) (g : MNode → MNode)
    (hg : ∀ n, (g n).id = n.id ∧ (g n).isCollapsed = n.isCollapsed ∧
      (g n).childrenIds = n.childrenIds ∧
      ((g n).text, (g n).style) = f n.text n.style) :
    (ts : List DTree) → MatchesF ns ts → MatchesF (updNode ns i g) (retagF i f ts)
  | [], _ => trivial
  | t :: ts, hm =>
    ⟨matches_retagD ns i f g hg t hm.1, matches_retagF ns i f g hg ts hm.2⟩

end

/-- Arena-level retagging. -/
theorem docRepr_retag (ns : List MNode) (dt : DTree) (i : Nat)
    (f : String → String → String × String) (g : MNode → MNode)
    (hg : ∀ n, (g n).id = n.id ∧ (g n).isCollapsed = n.isCollapsed ∧
      (g n).childrenIds = n.childrenIds ∧
      ((g n).text, (g n).style) = f n.text n.style)
    (hr : DocRepr ns dt) : DocRepr (updNode ns i g) (retagD i f dt) :=
  { real := matches_retagD ns i f g hg dt hr.real
    rooted := by rw [retagD_nid]; exact hr.rooted
    perm := by
      rw [flat_retagD, map_id_updNode ns i g (fun n => (hg n).1)]
      exact hr.perm
    nodup := by rw [flat_retagD]; exact hr.nodup }

/-! ## C1 — deletion: descendants and pruning -/

mutual

/-- On an all-expanded realised document, `getAllDescendantIds` of a tree
node lists exactly the node's proper-subtree ids (in pre-order). -/
theorem desc_eq_tree (ns : List MNode) (hexp : ∀ n ∈ ns, n.isCollapsed = false) :
    (fuel : Nat) → (dt : DTree) → MatchesD ns dt → sizeD dt ≤ fuel →
      getAllDescendantIds fuel ns dt.nid = flatF dt.children
  | fuel, .mk i tx st c cs, hm, hfuel => by
    obtain ⟨⟨n, hn, htx, hst, hcoll, hch⟩, hforest⟩ := hm
    have hszeq : sizeD (.mk i tx st c cs) = 1 + sizeF cs := by rw [sizeD]
    have hf1 : 1 ≤ fuel := le_trans (sizeD_pos _) hfuel
    obtain ⟨f, rfl⟩ : ∃ f, fuel = f + 1 := ⟨fuel - 1, by omega⟩
    rw [show DTree.nid (.mk i tx st c cs) = i from rfl,
      show DTree.children (.mk i tx st c cs) = cs from rfl]
    simp only [getAllDescendantIds, hn]
    have hcolf : n.isCollapsed = false := hexp n (getN_mem hn)
    by_cases hemp : n.childrenIds.isEmpty = true
    · rw [if_pos (Or.inl hemp)]
      have hcs : cs = [] := by
        rw [hch] at hemp
        cases cs with
        | nil => rfl
        | cons a b => simp [rootIds] at hemp
      rw [hcs]
      rfl
    · rw [if_neg (by rw [hcolf]; simp [hemp]), hch]
      exact desc_eq_forest ns hexp f cs hforest (by omega)

/-- Forest version of `desc_eq_tree`. -/
theorem desc_eq_forest (ns : List MNode) (hexp : ∀ n ∈ ns, n.isCollapsed = false) :
    (fuel : Nat) → (ts : List DTree) → MatchesF ns ts → sizeF ts ≤ fuel →
      (rootIds ts).flatMap (fun cid => cid :: getAllDescendantIds fuel ns cid) =
        flatF ts
  | _, [], _, _ => rfl
  | fuel, t :: ts, hm, hfuel => by
    have hszeq : sizeF (t :: ts) = sizeD t + sizeF ts := by rw [sizeF]
    have hpos := sizeD_pos t
    rw [rootIds_cons, List.flatMap_cons,
      desc_eq_tree ns hexp fuel t hm.1 (by omega),
      desc_eq_forest ns hexp fuel ts hm.2 (by omega), flatF]
    cases t with
    | mk j tx st c cs =>
      rw [show DTree.children (.mk j tx st c cs) = cs from rfl,
        show DTree.nid (.mk j tx st c cs) = j from rfl, flatD]

end

mutual

/-- Descendant ids of any tree member stay inside the tree. -/
theorem desc_closed_tree (ns : List MNode) (hexp : ∀ n ∈ ns, n.isCollapsed = false) :
    (fuel : Nat) → (dt : DTree) → MatchesD ns dt → sizeD dt ≤ fuel →
      ∀ x ∈ flatD dt, ∀ y ∈ getAllDescendantIds fuel ns x, y ∈ flatD dt
  | fuel, .mk i tx st c cs, hm, hfuel, x, hx, y, hy => by
    obtain ⟨entry, hforest⟩ := hm
    have hszeq : sizeD (.mk i tx st c cs) = 1 + sizeF cs := by rw [sizeD]
    rw [flatD] at hx ⊢
    rcases List.mem_cons.mp hx with rfl | hxcs
    · have hdesc : getAllDescendantIds fuel ns x = flatF cs :=
        desc_eq_tree ns hexp fuel (.mk x tx st c cs) ⟨entry, hforest⟩ hfuel
      rw [hdesc] at hy
      exact List.mem_cons.mpr (Or.inr hy)
    · exact List.mem_cons.mpr (Or.inr
        (desc_closed_forest ns hexp fuel cs hforest (by omega) x hxcs y hy))

/-- Forest version of `desc_closed_tree`. -/
theorem desc_closed_forest (ns : List MNode)
    (hexp : ∀ n ∈ ns, n.isCollapsed = false) :
    (fuel : Nat) → (ts : List DTree) → MatchesF ns ts → sizeF ts ≤ fuel →
      ∀ x ∈ flatF ts, ∀ y ∈ getAllDescendantIds fuel ns x, y ∈ flatF ts
  | _, [], _, _, x, hx, _, _ => absurd hx (by rw [flatF]; exact List.not_mem_nil x)
  | fuel, t :: ts, hm, hfuel, x, hx, y, hy => by
    have hszeq : sizeF (t :: ts) = sizeD t + sizeF ts := by rw [sizeF]
    have hpos := sizeD_pos t
    rw [flatF] at hx ⊢
    rcases List.mem_append.mp hx with h | h
    · exact List.mem_append_left _
        (desc_closed_tree ns hexp fuel t hm.1 (by omega) x h y hy)
    · exact List.mem_append_right _
        (desc_closed_forest ns hexp fuel ts hm.2 (by omega) x h y hy)

end

mutual

/-- Descendants of a descendant are descendants. -/
theorem desc_desc_tree (ns : List MNode) (hexp : ∀ n ∈ ns, n.isCollapsed = false) :
    (fuel : Nat) → (dt : DTree) → MatchesD ns dt → sizeD dt ≤ fuel →
      ∀ s ∈ flatD dt, ∀ x ∈ getAllDescendantIds fuel ns s,
        ∀ y ∈ getAllDescendantIds fuel ns x, y ∈ getAllDescendantIds fuel ns s
  | fuel, .mk i tx st c cs, hm, hfuel, s, hs, x, hx, y, hy => by
    obtain ⟨entry, hforest⟩ := hm
    have hszeq : sizeD (.mk i tx st c cs) = 1 + sizeF cs := by rw [sizeD]
    rw [flatD] at hs
    rcases List.mem_cons.mp hs with rfl | hscs
    · have hdesc : getAllDescendantIds fuel ns s = flatF cs :=
        desc_eq_tree ns hexp fuel (.mk s tx st c cs) ⟨entry, hforest⟩ hfuel
      rw [hdesc] at hx ⊢
      exact desc_closed_forest ns hexp fuel cs hforest (by omega) x hx y hy
    · exact desc_desc_forest ns hexp fuel cs hforest (by omega) s hscs x hx y hy

/-- Forest version of `desc_desc_tree`. -/
theorem desc_desc_forest (ns : List MNode) (hexp : ∀ n ∈ ns, n.isCollapsed = false) :
    (fuel : Nat) → (ts : List DTree) → MatchesF ns ts → sizeF ts ≤ fuel →
      ∀ s ∈ flatF ts, ∀ x ∈ getAllDescendantIds fuel ns s,
        ∀ y ∈ getAllDescendantIds fuel ns x, y ∈ getAllDescendantIds fuel ns s
  | _, [], _, _, s, hs, _, _, _, _ => absurd hs (by rw [flatF]; exact List.not_mem_nil s)
  | fuel, t :: ts, hm, hfuel, s, hs, x, hx, y, hy => by
    have hszeq : sizeF (t :: ts) = sizeD t + sizeF ts := by rw [sizeF]
    have hpos := sizeD_pos t
    rw [flatF] at hs
    rcases List.mem_append.mp hs with h | h
    · exact desc_desc_tree ns hexp fuel t hm.1 (by omega) s h x hx y hy
    · exact desc_desc_forest ns hexp fuel ts hm.2 (by omega) s h x hx y hy

end

mutual

/-- A set closed under `getAllDescendantIds` is subtree-closed over any
realised tree. -/
theorem closed_of_desc_tree (ns : List MNode)
    (hexp : ∀ n ∈ ns, n.isCollapsed = false) (D : List Nat) :
    (fuel : Nat) → (dt : DTree) → MatchesD ns dt → sizeD dt ≤ fuel →
      (∀ x ∈ D, ∀ y ∈ getAllDescendantIds fuel ns x, y ∈ D) → ClosedD D dt
  | fuel, .mk i tx st c cs, hm, hfuel, hD => by
    obtain ⟨entry, hforest⟩ := hm
    have hszeq : sizeD (.mk i tx st c cs) = 1 + sizeF cs := by rw [sizeD]
    show (i ∈ D → ∀ x ∈ flatF cs, x ∈ D) ∧ ClosedF D cs
    refine ⟨?_, closed_of_desc_forest ns hexp D fuel cs hforest (by omega) hD⟩
    intro hiD x hx
    have hdesc : getAllDescendantIds fuel ns i = flatF cs :=
      desc_eq_tree ns hexp fuel (.mk i tx st c cs) ⟨entry, hforest⟩ hfuel
    exact hD i hiD x (by rw [hdesc]; exact hx)

/-- Forest version of `closed_of_desc_tree`. -/
theorem closed_of_desc_forest (ns : List MNode)
    (hexp : ∀ n ∈ ns, n.isCollapsed = false) (D : List Nat) :
    (fuel : Nat) → (ts : List DTree) → MatchesF ns ts → sizeF ts ≤ fuel →
      (∀ x ∈ D, ∀ y ∈ getAllDescendantIds fuel ns x, y ∈ D) → ClosedF D ts
  | _, [], _, _, _ => trivial
  | fuel, t :: ts, hm, hfuel, hD => by
    have hszeq : sizeF (t :: ts) = sizeD t + sizeF ts := by rw [sizeF]
    have hpos := sizeD_pos t
    exact ⟨closed_of_desc_tree ns hexp D fuel t hm.1 (by omega) hD,
      closed_of_desc_forest ns hexp D fuel ts hm.2 (by omega) hD⟩

end

/-- Pruning preserves the root id. -/
theorem pruneD_nid (D : List Nat) (t : DTree) : (pruneD D t).nid = t.nid := by
  cases t with
  | mk i tx st c cs => rfl

/-- Pruned forest roots are the surviving roots. -/
theorem rootIds_pruneF (D : List Nat) (ts : List DTree) :
    rootIds (pruneF D ts) = (rootIds ts).filter (fun x => x ∉ D) := by
  induction ts with
  | nil => rfl
  | cons t ts ih =>
    simp only [pruneF]
    by_cases ht : t.nid ∈ D
    · rw [if_pos ht, rootIds_cons, List.filter_cons, if_neg (by simpa using ht), ih]
    · rw [if_neg ht, rootIds_cons, rootIds_cons, List.filter_cons,
        if_pos (by simpa using ht), ih, pruneD_nid]

/-- Lookup in the deletion environment away from the deleted set. -/
theorem getN_prune_env (ns : List MNode) (D : List Nat) (j : Nat) (hj : j ∉ D) :
    getN ((ns.filter (fun n => n.id ∉ D)).map
        (fun n => { n with childrenIds := n.childrenIds.filter (fun c => c ∉ D) })) j =
      (getN ns j).map
        (fun n => { n with childrenIds := n.childrenIds.filter (fun c => c ∉ D) }) := by
  rw [getN_map (ns.filter (fun n => n.id ∉ D))
      (fun n => { n with childrenIds := n.childrenIds.filter (fun c => c ∉ D) })
      (fun n => rfl) j,
    getN_filter_notmem ns D j hj]

mutual

/-- The deletion environment realises the pruned tree. -/
theorem matches_pruneD (ns : List MNode) (D : List Nat) :
    (dt : DTree) → MatchesD ns dt → dt.nid ∉ D →
      MatchesD ((ns.filter (fun n => n.id ∉ D)).map
        (fun n => { n with childrenIds := n.childrenIds.filter (fun c => c ∉ D) }))
        (pruneD D dt)
  | .mk i tx st c cs, hm, hiD => by
    obtain ⟨⟨n, hn, htx, hst, hcoll, hch⟩, hforest⟩ := hm
    rw [show DTree.nid (.mk i tx st c cs) = i from rfl] at hiD
    simp only [pruneD]
    refine ⟨⟨{ n with childrenIds := n.childrenIds.filter (fun c => c ∉ D) }, ?_,
      htx, hst, hcoll, ?_⟩, matches_pruneF ns D cs hforest⟩
    · rw [getN_prune_env ns D i hiD, hn]
      rfl
    · show n.childrenIds.filter (fun c => c ∉ D) = rootIds (pruneF D cs)
      rw [hch, rootIds_pruneF]

/-- Forest version of `matches_pruneD`. -/
theorem matches_pruneF (ns : List MNode) (D : List Nat) :
    (ts : List DTree) → MatchesF ns ts →
      MatchesF ((ns.filter (fun n => n.id ∉ D)).map
        (fun n => { n with childrenIds := n.childrenIds.filter (fun c => c ∉ D) }))
        (pruneF D ts)
  | [], _ => trivial
  | t :: ts, hm => by
    simp only [pruneF]
    by_cases ht : t.nid ∈ D
    · rw [if_pos ht]
      exact matches_pruneF ns D ts hm.2
    · rw [if_neg ht]
      exact ⟨matches_pruneD ns D t hm.1 ht, matches_pruneF ns D ts hm.2⟩

end

mutual

/-- Pruning a subtree-closed set filters the pre-order ids. -/
theorem flat_pruneD (D : List Nat) :
    (dt : DTree) → ClosedD D dt → dt.nid ∉ D →
      flatD (pruneD D dt) = (flatD dt).filter (fun x => x ∉ D)
  | .mk i tx st c cs, hc, hiD => by
    rw [show DTree.nid (.mk i tx st c cs) = i from rfl] at hiD
    simp only [pruneD]
    rw [flatD, flatD, List.filter_cons, if_pos (by simpa using hiD),
      flat_pruneF D cs hc.2]

/-- Forest version of `flat_pruneD`. -/
theorem flat_pruneF (D : List Nat) :
    (ts : List DTree) → ClosedF D ts →
      flatF (pruneF D ts) = (flatF ts).filter (fun x => x ∉ D)
  | [], _ => rfl
  | t :: ts, hc => by
    simp only [pruneF]
    by_cases ht : t.nid ∈ D
    · rw [if_pos ht, flatF, List.filter_append, flat_pruneF D ts hc.2]
      have hall : ∀ x ∈ flatD t, x ∈ D := by
        cases t with
        | mk j tx st c cs =>
          intro x hx
          rw [flatD] at hx
          rcases List.mem_cons.mp hx with rfl | hx2
          · exact ht
          · exact hc.1.1 ht x hx2
      have hnil : List.filter (fun x => x ∉ D) (flatD t) = [] :=
        List.filter_eq_nil_iff.mpr (fun x hx => by simp [hall x hx])
      rw [hnil, List.nil_append]
    · rw [if_neg ht, flatF, flatF, List.filter_append,
        flat_pruneD D t hc.1 ht, flat_pruneF D ts hc.2]

end

/-- Id list of the deletion environment. -/
theorem map_id_prune_env (ns : List MNode) (D : List Nat) :
    ((ns.filter (fun n => n.id ∉ D)).map
      (fun n => { n with childrenIds := n.childrenIds.filter (fun c => c ∉ D) })).map
        MNode.id =
    (ns.map MNode.id).filter (fun x => x ∉ D) := by
  induction ns with
  | nil => rfl
  | cons a t ih =>
    rw [List.map_cons, List.filter_cons, List.filter_cons]
    by_cases ha : a.id ∈ D
    · rw [if_neg (by simpa using ha), if_neg (by simpa using ha)]
      exact ih
    · rw [if_pos (by simpa using ha), if_pos (by simpa using ha), List.map_cons,
        List.map_cons, ih]

/-- Arena-level pruning of a subtree-closed deletion set avoiding the
root. -/
theorem docRepr_prune (ns : List MNode) (dt : DTree) (D : List Nat)
    (hr : DocRepr ns dt) (hcl : ClosedD D dt) (hroot : ROOT_NODE_ID ∉ D) :
    DocRepr ((ns.filter (fun n => n.id ∉ D)).map
        (fun n => { n with childrenIds := n.childrenIds.filter (fun c => c ∉ D) }))
      (pruneD D dt) := by
  have hnid : dt.nid ∉ D := by rw [hr.rooted]; exact hroot
  refine
    { real := matches_pruneD ns D dt hr.real hnid
      rooted := by rw [pruneD_nid]; exact hr.rooted
      perm := ?_
      nodup := by
        rw [flat_pruneD D dt hcl hnid]
        exact hr.nodup.filter _ }
  rw [flat_pruneD D dt hcl hnid, map_id_prune_env]
  exact hr.perm.filter _

/-! ## C1 — preservation of the built-document invariant -/

/-- The invariant only concerns the node map and the counter. -/
theorem builtInv_of_eq_nodes {m m' : MM} (h1 : m'.nodes = m.nodes)
    (h2 : m'.nextId = m.nextId) (hi : BuiltInv m) : BuiltInv m' := by
  obtain ⟨⟨dt, hrep⟩, hbnd, hok⟩ := hi
  exact ⟨⟨dt, by rw [h1]; exact hrep⟩, by rw [h1, h2]; exact hbnd,
    by rw [h1]; exact hok⟩

/-- `selectNode` touches neither the node map nor the counter. -/
theorem selectNode_nodes (m : MM) (i : Option Nat) (ms : Bool) :
    (selectNode m i ms).nodes = m.nodes ∧ (selectNode m i ms).nextId = m.nextId := by
  unfold selectNode
  repeat' split
  all_goals exact ⟨rfl, rfl⟩

/-- The initial document: a single default root, counter zero. -/
theorem initMap_nodes (w : ℚ × ℚ) :
    (initMap w).nodes = [rootNode0 DEFAULT_ROOT_TEXT "rect" w] ∧
    (initMap w).nextId = 0 := ⟨rfl, rfl⟩

/-- The initial document satisfies the built invariant. -/
theorem builtInv_init (w : ℚ × ℚ) : BuiltInv (initMap w) := by
  refine ⟨⟨DTree.mk ROOT_NODE_ID DEFAULT_ROOT_TEXT "rect" false [], ?_⟩, ?_, ?_⟩
  · rw [(initMap_nodes w).1]
    refine
      { real := ⟨⟨rootNode0 DEFAULT_ROOT_TEXT "rect" w, ?_, rfl, rfl, rfl, rfl⟩, trivial⟩
        rooted := rfl
        perm := by
          rw [show flatD (DTree.mk ROOT_NODE_ID DEFAULT_ROOT_TEXT "rect" false []) =
            [ROOT_NODE_ID] from rfl]
          rfl
        nodup := by
          rw [show flatD (DTree.mk ROOT_NODE_ID DEFAULT_ROOT_TEXT "rect" false []) =
            [ROOT_NODE_ID] from rfl]
          exact List.nodup_singleton _ }
    rw [getN, if_pos (show (rootNode0 DEFAULT_ROOT_TEXT "rect" w).id = ROOT_NODE_ID
      from rfl)]
  · rw [(initMap_nodes w).1, (initMap_nodes w).2]
    intro n hn
    rw [List.mem_singleton] at hn
    rw [hn]
    exact Nat.le_refl 0
  · rw [(initMap_nodes w).1]
    intro n hn
    rw [List.mem_singleton] at hn
    rw [hn]
    refine ⟨?_, ?_, Or.inl rfl, rfl⟩
    · show trimC DEFAULT_ROOT_TEXT.data = DEFAULT_ROOT_TEXT.data
      decide
    · show DEFAULT_ROOT_TEXT.data ≠ []
      decide

/-- `BuiltNodeOK` only reads the skeleton. -/
theorem nodeOK_of_skel {ns1 ns2 : List MNode}
    (h : ns1.map fullSkel = ns2.map fullSkel)
    (hok : ∀ n ∈ ns2, BuiltNodeOK n) : ∀ n ∈ ns1, BuiltNodeOK n := by
  intro n hn
  have hmem : fullSkel n ∈ ns2.map fullSkel := h ▸ List.mem_map_of_mem fullSkel hn
  obtain ⟨n2, hn2, heq⟩ := List.mem_map.mp hmem
  obtain ⟨h1, h2, h3, h4⟩ := hok n2 hn2
  simp only [fullSkel, Prod.mk.injEq] at heq
  obtain ⟨_, htx, _, _, hcol, hsty⟩ := heq
  rw [htx] at h1 h2
  rw [hsty] at h3
  rw [hcol] at h4
  exact ⟨h1, h2, h3, h4⟩

/-- Node facts hold in the canonical child environment of an add. -/
theorem nodeOK_child_env {ns : List MNode} (pid k : Nat)
    (hok : ∀ n ∈ ns, BuiltNodeOK n) (tx st : String)
    (htx1 : trimC tx.data = tx.data) (htx2 : tx.data ≠ [])
    (hst : st = "rect" ∨ (st.data ≠ [] ∧ ∀ c ∈ st.data, wordChar c = true)) :
    ∀ n ∈ updNode (ns ++ [childSkelNode k pid tx st]) pid (pushChild k),
      BuiltNodeOK n := by
  intro n hn
  obtain ⟨n0, hn0, rfl⟩ := List.mem_map.mp hn
  have hok0 : BuiltNodeOK n0 := by
    rcases List.mem_append.mp hn0 with h | h
    · exact hok n0 h
    · rw [List.mem_singleton] at h
      rw [h]
      exact ⟨htx1, htx2, hst, rfl⟩
  obtain ⟨h1, h2, h3, h4⟩ := hok0
  split
  · exact ⟨h1, h2, h3, h4⟩
  · exact ⟨h1, h2, h3, h4⟩

/-- `addNodeForSelected` preserves the built invariant. -/
theorem builtInv_add {m : MM} (hi : BuiltInv m) : BuiltInv (addNodeForSelected m) := by
  obtain ⟨⟨dt, hrep⟩, hbnd, hok⟩ := hi
  unfold addNodeForSelected
  cases hact : getActiveNodeId m with
  | none => exact ⟨⟨dt, hrep⟩, hbnd, hok⟩
  | some pid =>
    cases hg : getN m.nodes pid with
    | none =>
      have hpan : programmaticAddNode m (some pid) NEW_BRANCH_TEXT "rect" = (m, none) := by
        simp [programmaticAddNode, hg]
      simp only [hpan]
      exact ⟨⟨dt, hrep⟩, hbnd, hok⟩
    | some parentNode =>
      obtain ⟨ns', h1, h2⟩ := progAdd_effect m pid NEW_BRANCH_TEXT "rect"
        (bounded_fresh hbnd) (by rw [hg]; rfl)
      simp only [h1]
      have hsel := selectNode_nodes ({ m with nodes := ns', nextId := m.nextId + 1 })
        (some (m.nextId + 1)) false
      refine builtInv_of_eq_nodes hsel.1 hsel.2 ?_
      have hpidf : pid ∈ flatD dt := hrep.perm.mem_iff.mp (mem_map_id_of_getN hg)
      refine ⟨⟨graftD pid
        [DTree.mk (m.nextId + 1) NEW_BRANCH_TEXT "rect" false []] dt, ?_⟩, ?_, ?_⟩
      · have hcanon := docRepr_graft_leaf m.nodes dt pid
          (childSkelNode (m.nextId + 1) pid NEW_BRANCH_TEXT "rect") hrep hpidf
          (bounded_fresh hbnd) rfl rfl
        exact docRepr_skel h2.symm hcanon
      · exact bounded_of_map_id (map_id_of_skel h2)
          (bounded_child_env pid hbnd NEW_BRANCH_TEXT "rect")
      · exact nodeOK_of_skel h2
          (nodeOK_child_env pid (m.nextId + 1) hok NEW_BRANCH_TEXT "rect"
            (by decide) (by decide) (Or.inl rfl))


/-- `_updateNodeText` preserves the built invariant. -/
theorem builtInv_updateText {m : MM} (i : Nat) (newText : String) (hi : BuiltInv m) :
    BuiltInv (updateNodeText m i newText) := by
  obtain ⟨⟨dt, hrep⟩, hbnd, hok⟩ := hi
  unfold updateNodeText
  have hgp : ∀ n : MNode,
      ((fun n => if (⟨trimC newText.data⟩ : String) = "" then n
        else { n with text := ⟨trimC newText.data⟩ }) n).id = n.id ∧
      ((fun n => if (⟨trimC newText.data⟩ : String) = "" then n
        else { n with text := ⟨trimC newText.data⟩ }) n).isCollapsed = n.isCollapsed ∧
      ((fun n => if (⟨trimC newText.data⟩ : String) = "" then n
        else { n with text := ⟨trimC newText.data⟩ }) n).childrenIds = n.childrenIds ∧
      (((fun n => if (⟨trimC newText.data⟩ : String) = "" then n
        else { n with text := ⟨trimC newText.data⟩ }) n).text,
       ((fun n => if (⟨trimC newText.data⟩ : String) = "" then n
        else { n with text := ⟨trimC newText.data⟩ }) n).style) =
      (fun tx st => ((if (⟨trimC newText.data⟩ : String) = "" then tx
        else ⟨trimC newText.data⟩), st)) n.text n.style := by
    intro n
    by_cases hcond : (⟨trimC newText.data⟩ : String) = ""
    · simp [hcond]
    · simp [hcond]
  refine ⟨⟨retagD i (fun tx st => ((if (⟨trimC newText.data⟩ : String) = "" then tx
      else ⟨trimC newText.data⟩), st)) dt, docRepr_retag m.nodes dt i _ _ hgp hrep⟩,
    ?_, ?_⟩
  · exact bounded_of_map_id (map_id_updNode m.nodes i _ (fun n => (hgp n).1)) hbnd
  · intro n hn
    obtain ⟨n0, hn0, rfl⟩ := List.mem_map.mp hn
    obtain ⟨h1, h2, h3, h4⟩ := hok n0 hn0
    split
    · by_cases hcond : (⟨trimC newText.data⟩ : String) = ""
      · simp only [if_pos hcond]
        exact ⟨h1, h2, h3, h4⟩
      · simp only [if_neg hcond]
        refine ⟨?_, ?_, h3, h4⟩
        · show trimC (trimC newText.data) = trimC newText.data
          exact trimC_trimC newText.data
        · intro hdata
          apply hcond
          exact congrArg (fun l => (⟨l⟩ : String))
            (show trimC newText.data = [] from hdata)
    · exact ⟨h1, h2, h3, h4⟩

/-- The rename commit path preserves the built invariant. -/
theorem builtInv_ren {m : MM} (i : Nat) (input : String) (hi : BuiltInv m) :
    BuiltInv (renameNode m i input) := by
  unfold renameNode
  cases hg : getN m.nodes i with
  | none => exact hi
  | some nodeData =>
    by_cases hb2 : (if (⟨trimC input.data⟩ : String) = "" then nodeData.text
        else (⟨trimC input.data⟩ : String)) = nodeData.text
    · simp only [if_pos hb2]
      exact hi
    · simp only [if_neg hb2]
      exact builtInv_of_eq_nodes rfl rfl (builtInv_updateText i _ hi)

/-- `setNodeStyle` with a recognized style preserves the built invariant. -/
theorem builtInv_sty {m : MM} (style : String) (hne : style.data ≠ [])
    (hw : ∀ c ∈ style.data, wordChar c = true) (hi : BuiltInv m) :
    BuiltInv (setNodeStyle m style) := by
  obtain ⟨⟨dt, hrep⟩, hbnd, hok⟩ := hi
  unfold setNodeStyle
  split
  · exact ⟨⟨dt, hrep⟩, hbnd, hok⟩
  · refine builtInv_of_eq_nodes rfl rfl ?_
    have hfold : ∀ (sel : List Nat) (ns0 : List MNode) (dt0 : DTree),
        DocRepr ns0 dt0 → Bounded ns0 m.nextId → (∀ n ∈ ns0, BuiltNodeOK n) →
        ∃ dt1, DocRepr (sel.foldl
              (fun acc i => updNode acc i (fun n => { n with style := style })) ns0)
            dt1 ∧
          Bounded (sel.foldl
              (fun acc i => updNode acc i (fun n => { n with style := style })) ns0)
            m.nextId ∧
          ∀ n ∈ sel.foldl
              (fun acc i => updNode acc i (fun n => { n with style := style })) ns0,
            BuiltNodeOK n := by
      intro sel
      induction sel with
      | nil => exact fun ns0 dt0 h1 h2 h3 => ⟨dt0, h1, h2, h3⟩
      | cons j sel ih =>
        intro ns0 dt0 h1 h2 h3
        rw [List.foldl_cons]
        refine ih (updNode ns0 j (fun n => { n with style := style }))
          (retagD j (fun tx st => (tx, style)) dt0) ?_ ?_ ?_
        · exact docRepr_retag ns0 dt0 j _ _ (fun n => ⟨rfl, rfl, rfl, rfl⟩) h1
        · exact bounded_of_map_id
            (map_id_updNode ns0 j (fun n => { n with style := style })
              (fun n => rfl)) h2
        · intro n hn
          obtain ⟨n0, hn0, rfl⟩ := List.mem_map.mp hn
          obtain ⟨hh1, hh2, hh3, hh4⟩ := h3 n0 hn0
          split
          · exact ⟨hh1, hh2, Or.inr ⟨hne, hw⟩, hh4⟩
          · exact ⟨hh1, hh2, hh3, hh4⟩
    obtain ⟨dt1, ha, hb, hc⟩ := hfold m.selectedNodeIds m.nodes dt hrep hbnd hok
    exact ⟨⟨dt1, ha⟩, hb, hc⟩

/-- `getAllDescendantIds` of a missing id is empty. -/
theorem desc_getN_none {ns : List MNode} {s : Nat} (h : getN ns s = none)
    (fuel : Nat) : getAllDescendantIds fuel ns s = [] := by
  cases fuel with
  | zero => rfl
  | succ f => simp [getAllDescendantIds, h]

/-- The root id never appears among anyone's descendants. -/
theorem root_not_in_desc (ns : List MNode) (hexp : ∀ n ∈ ns, n.isCollapsed = false)
    (dt : DTree) (hrep : DocRepr ns dt) (fuel : Nat) (hfuel : sizeD dt ≤ fuel) :
    ∀ s ∈ flatD dt, dt.nid ∉ getAllDescendantIds fuel ns s := by
  obtain ⟨i, tx, st, c, cs⟩ := dt
  intro s hs hmem
  have hnd := hrep.nodup
  rw [flatD] at hnd
  have hni : i ∉ flatF cs := (List.nodup_cons.mp hnd).1
  rw [show DTree.nid (.mk i tx st c cs) = i from rfl] at hmem
  obtain ⟨entry, hforest⟩ := hrep.real
  rw [flatD] at hs
  have hszeq : sizeD (.mk i tx st c cs) = 1 + sizeF cs := by rw [sizeD]
  rcases List.mem_cons.mp hs with rfl | hscs
  · have hdesc : getAllDescendantIds fuel ns s = flatF cs :=
      desc_eq_tree ns hexp fuel (.mk s tx st c cs) ⟨entry, hforest⟩ hfuel
    rw [hdesc] at hmem
    exact hni hmem
  · exact hni (desc_closed_forest ns hexp fuel cs hforest (by omega) s hscs i hmem)

/-- `deleteSelectedNodes` preserves the built invariant. -/
theorem builtInv_del {m : MM} (hi : BuiltInv m) : BuiltInv (deleteSelectedNodes m) := by
  obtain ⟨⟨dt, hrep⟩, hbnd, hok⟩ := hi
  unfold deleteSelectedNodes
  by_cases hemp :
      (List.filter (fun i => decide (i ≠ ROOT_NODE_ID)) m.selectedNodeIds).isEmpty = true
  · simp only [if_pos hemp]
    exact ⟨⟨dt, hrep⟩, hbnd, hok⟩
  · simp only [if_neg hemp]
    have hexp : ∀ n ∈ m.nodes, n.isCollapsed = false := fun n hn => (hok n hn).2.2.2
    have hsize : sizeD dt = m.nodes.length := by
      rw [← flatD_length dt, ← hrep.perm.length_eq, List.length_map]
    have hD : ∀ x ∈ m.selectedNodeIds.filter (fun i => i ≠ ROOT_NODE_ID) ++
        (m.selectedNodeIds.filter (fun i => i ≠ ROOT_NODE_ID)).flatMap
          (getAllDescendantIds m.nodes.length m.nodes),
        ∀ y ∈ getAllDescendantIds m.nodes.length m.nodes x,
          y ∈ m.selectedNodeIds.filter (fun i => i ≠ ROOT_NODE_ID) ++
            (m.selectedNodeIds.filter (fun i => i ≠ ROOT_NODE_ID)).flatMap
              (getAllDescendantIds m.nodes.length m.nodes) := by
      intro x hx y hy
      rcases List.mem_append.mp hx with hxs | hxd
      · exact List.mem_append_right _ (List.mem_flatMap.mpr ⟨x, hxs, hy⟩)
      · obtain ⟨s, hs, hxdesc⟩ := List.mem_flatMap.mp hxd
        cases hgs : getN m.nodes s with
        | none =>
          rw [desc_getN_none hgs] at hxdesc
          cases hxdesc
        | some n =>
          have hsflat : s ∈ flatD dt := hrep.perm.mem_iff.mp (mem_map_id_of_getN hgs)
          refine List.mem_append_right _ (List.mem_flatMap.mpr ⟨s, hs, ?_⟩)
          exact desc_desc_tree m.nodes hexp m.nodes.length dt hrep.real
            (by omega) s hsflat x hxdesc y hy
    have hcl : ClosedD (m.selectedNodeIds.filter (fun i => i ≠ ROOT_NODE_ID) ++
        (m.selectedNodeIds.filter (fun i => i ≠ ROOT_NODE_ID)).flatMap
          (getAllDescendantIds m.nodes.length m.nodes)) dt :=
      closed_of_desc_tree m.nodes hexp _ m.nodes.length dt hrep.real (by omega) hD
    have hroot : ROOT_NODE_ID ∉
        m.selectedNodeIds.filter (fun i => i ≠ ROOT_NODE_ID) ++
        (m.selectedNodeIds.filter (fun i => i ≠ ROOT_NODE_ID)).flatMap
          (getAllDescendantIds m.nodes.length m.nodes) := by
      intro hmem
      rcases List.mem_append.mp hmem with h | h
      · have := List.of_mem_filter h
        simp at this
      · obtain ⟨s, hs, hdesc⟩ := List.mem_flatMap.mp h
        cases hgs : getN m.nodes s with
        | none =>
          rw [desc_getN_none hgs] at hdesc
          cases hdesc
        | some n =>
          have hsflat : s ∈ flatD dt := hrep.perm.mem_iff.mp (mem_map_id_of_getN hgs)
          have hROOT : dt.nid = ROOT_NODE_ID := hrep.rooted
          exact root_not_in_desc m.nodes hexp dt hrep m.nodes.length (by omega)
            s hsflat (by rw [hROOT]; exact hdesc)
    refine builtInv_of_eq_nodes (selectNode_nodes _ _ _).1 (selectNode_nodes _ _ _).2 ?_
    refine ⟨⟨pruneD _ dt, docRepr_prune m.nodes dt _ hrep hcl hroot⟩, ?_, ?_⟩
    · intro n hn
      obtain ⟨n0, hn0, rfl⟩ := List.mem_map.mp hn
      exact hbnd n0 (List.mem_of_mem_filter hn0)
    · intro n hn
      obtain ⟨n0, hn0, rfl⟩ := List.mem_map.mp hn
      obtain ⟨h1, h2, h3, h4⟩ := hok n0 (List.mem_of_mem_filter hn0)
      exact ⟨h1, h2, h3, h4⟩

/-- Built documents satisfy the built invariant. -/
theorem built_inv {m : MM} (hb : Built m) : BuiltInv m := by
  induction hb with
  | init w => exact builtInv_init w
  | sel nodeId ms hb ih =>
    exact builtInv_of_eq_nodes (selectNode_nodes _ _ _).1 (selectNode_nodes _ _ _).2 ih
  | selAll hb ih => exact builtInv_of_eq_nodes rfl rfl ih
  | clearSel hb ih => exact builtInv_of_eq_nodes rfl rfl ih
  | add hb ih => exact builtInv_add ih
  | del hb ih => exact builtInv_del ih
  | ren i input hb ih => exact builtInv_ren i input ih
  | sty style hb hne hw ih => exact builtInv_sty style hne hw ih

/-- C1 (amended). For every document built through the editor's own operations
whose node texts contain no newline and whose default-styled ("rect") nodes do
not end in a literal style tag, exporting with `exportToMarkdown` and importing
the result with `importFromMarkdown` reproduces exactly the same content tree
(texts, styles, child order); without the two restrictions the round trip
fails, as the counterexample shows. -/
theorem c1_roundtrip_amended (m m0 : MM) (hb : Built m)
    (hNL : ∀ n ∈ m.nodes, '\n' ∉ n.text.data)
    (hSfx : ∀ n ∈ m.nodes, n.style = "rect" → styleSuffixSplit n.text.data = none) :
    treeOfDoc (importFromMarkdown m0 (exportToMarkdown m false)) = treeOfDoc m ∧
    (treeOfDoc m).isSome := by
  obtain ⟨⟨dt, hrep⟩, hbnd, hok⟩ := built_inv hb
  have hexp : ∀ n ∈ m.nodes, n.isCollapsed = false := fun n hn => (hok n hn).2.2.2
  have hOK : PTreeOK (stripD dt) := stripD_ok m.nodes hok hNL hSfx dt hrep.real
  obtain ⟨dt', hrep', hstrip⟩ := import_export_repr m m0 dt hrep hexp hOK
  rw [treeOfDoc_of_repr _ dt' hrep', treeOfDoc_of_repr m dt hrep, hstrip]
  exact ⟨rfl, rfl⟩

/-- Witness: the amended round trip holds on a concrete four-node styled
document built by the editor's operations. -/
theorem c1_roundtrip_amended_witness :
    treeOfDoc (importFromMarkdown (initMap (0, 0))
        (exportToMarkdown docBuiltSample false)) = treeOfDoc docBuiltSample ∧
    (treeOfDoc docBuiltSample).isSome :=
  c1_roundtrip_amended docBuiltSample (initMap (0, 0))
    (show Built docBuiltSample from
      Built.sty "underline"
        (Built.add (Built.sel (some 0) false
          (Built.add (Built.add (Built.init (100, 50))))))
        (by decide) (by decide))
    (of_decide_eq_true (by with_unfolding_all rfl))
    (of_decide_eq_true (by with_unfolding_all rfl))
